import Mathlib

/-!
# PASL: connected-component counters, tree generators and the benchmark driver

A shallow embedding of

* `graph/include/nb_components.hpp` (`nb_components_bfs_by_array`,
  `get_parent`, `unite`, `nb_components_disjoint_set_union`, `try_to_set_dist`,
  `nb_components_pbbs_pbfs`),
* `example/rake-compress-generators.hpp` (the tree generators and
  `generate_graph`),
* `granularity-paper/bench.cpp` (`almost_sorted_sparray`, the benchmark
  framework, `init_controllers` and `main`),

followed by the properties established about them.

Conventions.

* Arrays that the code allocates itself (`mynew_array<T>(k)`, `sparray(n)`)
  are lists of length `k`; an access outside the allocation has no defined
  result, and the embedding returns `none` for it.  Arrays that a function
  receives as pointers (`parent`, `children` of the generators) are maps from
  indices to values.
* Vertex identifiers have the signed type `vtxid_type`, embedded as `Int`.
  Arithmetic of the types `int` and `long` wraps around at 32 and 64 bits.
* Loops whose trip count is not given by a range carry a fuel argument; running
  out of fuel also yields `none`.
* A `parallel_for` executes its bodies one after another in the order given by
  a schedule.
* Functions that the sources call but do not contain are parameters, or are
  modelled from the specification where their doc comment says so.
-/

namespace pasl

/-! ## Memory -/

/-- Read `a[i]` for an index of signed type.  Outside `[0, a.length)` the read
is undefined. -/
def rd {α : Type} (a : List α) (i : Int) : Option α :=
  if 0 ≤ i then a[i.toNat]? else none

/-- Write `a[i] = v` for an index of signed type.  Outside `[0, a.length)` the
write is undefined. -/
def wr {α : Type} (a : List α) (i : Int) (v : α) : Option (List α) :=
  if 0 ≤ i ∧ i.toNat < a.length then some (a.set i.toNat v) else none

/-! ## `try_to_set_dist` -/

/-- The exit taken by one call of `try_to_set_dist`. -/
inductive Branch where
  | load_differs
  | relaxed_store
  | cas_failed
  | cas_succeeded
  deriving DecidableEq, Repr

/-- Outcome of one call of `try_to_set_dist`: the returned flag, the array
after the call and the exit that was taken. -/
structure Claimed (Item : Type) where
  ret : Bool
  dists : List Item
  branch : Branch

/-- The member `compare_exchange_strong(expected, desired)` of an atomic cell
that currently holds `cur`: the flag, the new content of the cell and the new
content of `expected`. -/
def compare_exchange_strong {Item : Type} [DecidableEq Item]
    (cur expected desired : Item) : Bool × Item × Item :=
  if cur = expected then (true, desired, expected) else (false, cur, cur)

/-- The function `try_to_set_dist(target, unknown, dist, dists)`, executed
without interference from other threads. -/
def try_to_set_dist {Item : Type} [DecidableEq Item]
    (target : Int) (unknown dist : Item) (dists : List Item) :
    Option (Claimed Item) :=
  match rd dists target with
  | none => none
  | some loaded =>
    if loaded ≠ unknown then
      some ⟨false, dists, Branch.load_differs⟩
    else if false then
      match wr dists target dist with
      | none => none
      | some dists1 => some ⟨true, dists1, Branch.relaxed_store⟩
    else
      match rd dists target with
      | none => none
      | some cur =>
        match compare_exchange_strong cur unknown dist with
        | (ok, cell, _) =>
          match wr dists target cell with
          | none => none
          | some dists1 =>
            if ! ok then some ⟨false, dists1, Branch.cas_failed⟩
            else some ⟨true, dists1, Branch.cas_succeeded⟩


/-! ## Graphs -/

/-- The class `adjlist`: one list of out-neighbours per vertex and the stored
number of edges.  `get_nb_vertices` is the number of adjacency lists. -/
structure adjlist where
  adjlists : List (List Int)
  nb_edges : Nat

/-- The member `get_nb_vertices`. -/
def adjlist.get_nb_vertices (graph : adjlist) : Nat := graph.adjlists.length

/-- An element of the edge bag of an `edgelist`. -/
structure edge where
  src : Int
  dst : Int

/-- The class `edgelist`: the number of vertices and the bag of edges. -/
structure edgelist where
  nb_vertices : Nat
  edges : List edge

/-! ## `nb_components_bfs_by_array` -/

/-- Variables of the traversal of `nb_components_bfs_by_array` that the loops
update: the arrays `was` and `queue` and the index `tail`. -/
structure BfsState where
  was : List Bool
  queue : List Int
  tail : Nat

/-- The loop `for (edge = 0; edge < degree; ++edge)` over the out-neighbours
of the dequeued vertex. -/
def bfs_edges : List Int → BfsState → Option BfsState
  | [], s => some s
  | other :: rest, s =>
    match rd s.was other with
    | none => none
    | some true => bfs_edges rest s
    | some false =>
      match wr s.was other true with
      | none => none
      | some was1 =>
        match wr s.queue (s.tail : Int) other with
        | none => none
        | some queue1 => bfs_edges rest ⟨was1, queue1, s.tail + 1⟩

/-- The loop `while (head < tail)`. -/
def bfs_while (graph : adjlist) : Nat → Nat → BfsState → Option BfsState
  | 0, head, s => if head < s.tail then none else some s
  | fuel + 1, head, s =>
    if head < s.tail then
      match rd s.queue (head : Int) with
      | none => none
      | some vertex =>
        match rd graph.adjlists vertex with
        | none => none
        | some neighbors =>
          match bfs_edges neighbors s with
          | none => none
          | some s1 => bfs_while graph fuel (head + 1) s1
    else some s

/-- Variables that survive one iteration of the loop over the start vertices:
`was`, `queue` and `result`. -/
structure BfsOuter where
  was : List Bool
  queue : List Int
  result : Int

/-- The loop `for (v = 0; v < nb_vertices; ++v)`, given the list of the values
of `v` still to come. -/
def bfs_roots (graph : adjlist) (fuel : Nat) : List Nat → BfsOuter → Option BfsOuter
  | [], s => some s
  | v :: rest, s =>
    match rd s.was (v : Int) with
    | none => none
    | some true => bfs_roots graph fuel rest s
    | some false =>
      match wr s.was (v : Int) true with
      | none => none
      | some was1 =>
        match wr s.queue 0 (v : Int) with
        | none => none
        | some queue1 =>
          match bfs_while graph fuel 0 ⟨was1, queue1, 1⟩ with
          | none => none
          | some t => bfs_roots graph fuel rest ⟨t.was, t.queue, s.result + 1⟩

/-- The function `nb_components_bfs_by_array`.  `fuel` bounds the number of
iterations of each `while` loop.  The cells of `queue` are written before they
are read; they start as `0`. -/
def nb_components_bfs_by_array (fuel : Nat) (graph : adjlist) : Option Int :=
  let nb_vertices := graph.get_nb_vertices
  let was := List.replicate nb_vertices false
  let queue := List.replicate nb_vertices (0 : Int)
  (bfs_roots graph fuel (List.range nb_vertices) ⟨was, queue, 0⟩).map (fun s => s.result)

/-! ## `nb_components_disjoint_set_union` -/

/-- The function `get_parent`: the representative of `vertex`, with path
compression.  `fuel` bounds the depth of the recursion. -/
def get_parent : Nat → List Int → Int → Option (List Int × Int)
  | 0, _, _ => none
  | fuel + 1, parent, vertex =>
    match rd parent vertex with
    | none => none
    | some p =>
      if p ≠ vertex then
        match get_parent fuel parent p with
        | none => none
        | some (parent1, r) =>
          match wr parent1 vertex r with
          | none => none
          | some parent2 =>
            match rd parent2 vertex with
            | none => none
            | some q => some (parent2, q)
      else some (parent, p)

/-- The function `unite`: the array afterwards and the returned flag. -/
def unite (fuel : Nat) (parent : List Int) (v u : Int) : Option (List Int × Bool) :=
  match get_parent fuel parent v with
  | none => none
  | some (parent1, v1) =>
    match get_parent fuel parent1 u with
    | none => none
    | some (parent2, u1) =>
      if v1 = u1 then some (parent2, false)
      else
        match wr parent2 v1 u1 with
        | none => none
        | some parent3 => some (parent3, true)

/-- Variables of the loop over the edges: `parent`, `result`, and the record
of the flags `unite` has returned so far (oldest first). -/
structure DsuState where
  parent : List Int
  result : Int
  united : List Bool

/-- The loop `for (i = 0; i < nb_edges; ++i)` over the edges. -/
def dsu_edges (fuel : Nat) : List edge → DsuState → Option DsuState
  | [], s => some s
  | e :: rest, s =>
    match unite fuel s.parent e.src e.dst with
    | none => none
    | some (parent1, true) =>
      dsu_edges fuel rest ⟨parent1, s.result - 1, s.united ++ [true]⟩
    | some (parent1, false) =>
      dsu_edges fuel rest ⟨parent1, s.result, s.united ++ [false]⟩

/-- The body of `nb_components_disjoint_set_union` up to the final state of
its variables. -/
def dsu_run (fuel : Nat) (graph : edgelist) : Option DsuState :=
  let nb_vertices := graph.nb_vertices
  let parent := List.map (fun i : Nat => (i : Int)) (List.range nb_vertices)
  dsu_edges fuel graph.edges ⟨parent, (nb_vertices : Int), []⟩

/-- The function `nb_components_disjoint_set_union`. -/
def nb_components_disjoint_set_union (fuel : Nat) (graph : edgelist) : Option Int :=
  (dsu_run fuel graph).map (fun s => s.result)

/-! ## `nb_components_pbbs_pbfs` -/

/-- The order in which the bodies of a `parallel_for` are executed: for the
`k`-th `parallel_for` started in a run and a range `[0, m)`, the list of
indices in execution order. -/
abbrev Schedule := Nat → Nat → List Nat

/-- Every `parallel_for` executes each index of its range once. -/
def Schedule.fair (sch : Schedule) : Prop :=
  ∀ k m, List.Perm (sch k m) (List.range m)

/-- The order of the sequential fallback: increasing indices. -/
def Schedule.sequential : Schedule := fun _ m => List.range m

/-- One store into `FrontierNext`: the slot, the neighbour it was executed
for, and the stored value. -/
structure Store where
  slot : Int
  other : Int
  value : Int
  deriving DecidableEq, Repr

/-- Variables of `nb_components_pbbs_pbfs` that the loops update, with three
history variables: `tick` counts the `parallel_for`s started, `stores` records
the stores into `FrontierNext` (oldest first), `frontiers` records the frontier
each iteration of the `while` loop started with. -/
structure PbfsState where
  was : List Bool
  Frontier : List Int
  FrontierNext : List Int
  Counts : List Int
  tick : Nat
  stores : List Store
  frontiers : List (List Int)

/-- Execute the bodies of a `parallel_for` one after another in the given
order. -/
def run_bodies {σ : Type} (body : Nat → σ → Option σ) : List Nat → σ → Option σ
  | [], s => some s
  | i :: rest, s =>
    match body i s with
    | none => none
    | some s1 => run_bodies body rest s1

/-- The call `parallel_for(0, hi, body)` under a schedule. -/
def parallel_for (sch : Schedule) (hi : Nat)
    (body : Nat → PbfsState → Option PbfsState) (s : PbfsState) : Option PbfsState :=
  run_bodies body (sch s.tick hi) { s with tick := s.tick + 1 }

/-- Exclusive prefix sums of a list from a start value, and the total. -/
def exclusive_sums : Int → List Int → List Int × Int
  | acc, [] => ([], acc)
  | acc, x :: xs =>
    match exclusive_sums (acc + x) xs with
    | (ps, total) => (acc :: ps, total)

/-- Modelled from the spec: `pbbs::sequence::scan(In, In, n, addF, 0)`, which
is not part of the sources: the exclusive prefix sum of the first `n` cells,
in place, returning the total. -/
def scan (Counts : List Int) (n : Nat) : Option (List Int × Int) :=
  if n ≤ Counts.length then
    match exclusive_sums 0 (Counts.take n) with
    | (ps, total) => some (ps ++ Counts.drop n, total)
  else none

/-- The predicate `nonNegF`. -/
def nonNegF (a : Int) : Bool := decide (a ≥ 0)

/-- Modelled from the spec: `pbbs::sequence::filter(In, Out, n, nonNegF)`,
which is not part of the sources: the cells of `In[0, n)` that are `>= 0`, in
order, are written to the front of `Out`; their count is returned. -/
def filter (In Out : List Int) (n : Int) : Option (List Int × Nat) :=
  if n.toNat ≤ In.length then
    let kept := (In.take n.toNat).filter nonNegF
    if kept.length ≤ Out.length then some (kept ++ Out.drop kept.length, kept.length)
    else none
  else none

/-- Body of the first `parallel_for`:
`Counts[i] = graph.adjlists[Frontier[i]].get_out_degree()`. -/
def pbfs_count (graph : adjlist) (i : Nat) (s : PbfsState) : Option PbfsState :=
  match rd s.Frontier (i : Int) with
  | none => none
  | some v =>
    match rd graph.adjlists v with
    | none => none
    | some neighbors =>
      match wr s.Counts (i : Int) (neighbors.length : Int) with
      | none => none
      | some counts1 => some { s with Counts := counts1 }

/-- Body of the innermost `parallel_for`, for the edge `j` of a frontier vertex
whose block of `FrontierNext` starts at `o`. -/
def pbfs_edge (o : Int) (neighbors : List Int) (j : Nat) (s : PbfsState) :
    Option PbfsState :=
  match rd neighbors (j : Int) with
  | none => none
  | some other =>
    match try_to_set_dist other false true s.was with
    | none => none
    | some r =>
      if r.ret then
        match wr s.FrontierNext (o + (j : Int)) other with
        | none => none
        | some next1 =>
          some { s with was := r.dists, FrontierNext := next1,
                        stores := s.stores ++ [⟨o + (j : Int), other, other⟩] }
      else
        match wr s.FrontierNext (o + (j : Int)) (-1) with
        | none => none
        | some next1 =>
          some { s with was := r.dists, FrontierNext := next1,
                        stores := s.stores ++ [⟨o + (j : Int), other, -1⟩] }

/-- Body of the second `parallel_for`, for the frontier position `i`. -/
def pbfs_vertex (sch : Schedule) (graph : adjlist) (i : Nat) (s : PbfsState) :
    Option PbfsState :=
  match rd s.Frontier (i : Int) with
  | none => none
  | some v =>
    match rd s.Counts (i : Int) with
    | none => none
    | some o =>
      match rd graph.adjlists v with
      | none => none
      | some neighbors =>
        parallel_for sch neighbors.length (pbfs_edge o neighbors) s

/-- One iteration of the body of `while (frontierSize > 0)`: the state and the
new `frontierSize`. -/
def pbfs_round (sch : Schedule) (graph : adjlist) (frontierSize : Nat)
    (s : PbfsState) : Option (PbfsState × Nat) :=
  let s0 := { s with frontiers := s.frontiers ++ [s.Frontier.take frontierSize] }
  match parallel_for sch frontierSize (pbfs_count graph) s0 with
  | none => none
  | some s1 =>
    match scan s1.Counts frontierSize with
    | none => none
    | some (counts, nr) =>
      match parallel_for sch frontierSize (pbfs_vertex sch graph)
          { s1 with Counts := counts } with
      | none => none
      | some s2 =>
        match filter s2.FrontierNext s2.Frontier nr with
        | none => none
        | some (frontier, size) => some ({ s2 with Frontier := frontier }, size)

/-- The loop `while (frontierSize > 0)`. -/
def pbfs_while (sch : Schedule) (graph : adjlist) :
    Nat → Nat → PbfsState → Option PbfsState
  | 0, frontierSize, s => if frontierSize > 0 then none else some s
  | fuel + 1, frontierSize, s =>
    if frontierSize > 0 then
      match pbfs_round sch graph frontierSize s with
      | none => none
      | some (s1, size) => pbfs_while sch graph fuel size s1
    else some s

/-- The loop `for (vertex = 0; vertex != nb_vertices; ++vertex)`, given the
values of `vertex` still to come; `result` travels with the state. -/
def pbfs_roots (sch : Schedule) (graph : adjlist) (fuel : Nat) :
    List Nat → PbfsState × Int → Option (PbfsState × Int)
  | [], sr => some sr
  | vertex :: rest, (s, result) =>
    match rd s.was (vertex : Int) with
    | none => none
    | some true => pbfs_roots sch graph fuel rest (s, result)
    | some false =>
      match wr s.Frontier 0 (vertex : Int) with
      | none => none
      | some frontier1 =>
        match wr s.was (vertex : Int) true with
        | none => none
        | some was1 =>
          match pbfs_while sch graph fuel 1
              { s with Frontier := frontier1, was := was1 } with
          | none => none
          | some s1 => pbfs_roots sch graph fuel rest (s1, result + 1)

/-- The body of `nb_components_pbbs_pbfs` up to the final state of its
variables.  The cells of `Frontier`, `FrontierNext` and `Counts` start
as `0`. -/
def pbfs_run (sch : Schedule) (fuel : Nat) (graph : adjlist) :
    Option (PbfsState × Int) :=
  let nb_vertices := graph.get_nb_vertices
  let nb_edges := graph.nb_edges
  let was := List.replicate nb_vertices false
  let Frontier := List.replicate nb_edges (0 : Int)
  let FrontierNext := List.replicate nb_edges (0 : Int)
  let Counts := List.replicate nb_vertices (0 : Int)
  pbfs_roots sch graph fuel (List.range nb_vertices)
    (⟨was, Frontier, FrontierNext, Counts, 0, [], []⟩, 0)

/-- The function `nb_components_pbbs_pbfs`. -/
def nb_components_pbbs_pbfs (sch : Schedule) (fuel : Nat) (graph : adjlist) :
    Option Int :=
  (pbfs_run sch fuel graph).map (fun sr => sr.2)

/-! ## Vocabulary for the graph properties -/

/-- The entry `x` of `was` is set. -/
def marked (was : List Bool) (x : Int) : Prop := rd was x = some true

/-- Every neighbour identifier lies in `[0, nb_vertices)`. -/
def adjlist.in_range (graph : adjlist) : Prop :=
  ∀ l ∈ graph.adjlists, ∀ x ∈ l, 0 ≤ x ∧ x < (graph.get_nb_vertices : Int)

instance (graph : adjlist) : Decidable graph.in_range := by
  unfold adjlist.in_range; exact inferInstance

/-- The identifier `v` occurs in the adjacency list of the vertex `u`. -/
def adjlist.has_edge (graph : adjlist) (u v : Int) : Bool :=
  match rd graph.adjlists u with
  | some l => decide (v ∈ l)
  | none => false

/-- Among the vertices, `u` is a neighbour of `v` iff `v` is a neighbour
of `u`. -/
def adjlist.symmetric (graph : adjlist) : Prop :=
  ∀ u ∈ List.range graph.get_nb_vertices, ∀ v ∈ List.range graph.get_nb_vertices,
    graph.has_edge (u : Int) (v : Int) = graph.has_edge (v : Int) (u : Int)

instance (graph : adjlist) : Decidable graph.symmetric := by
  unfold adjlist.symmetric; exact inferInstance

/-- The stored number of edges is the sum of all out-degrees. -/
def adjlist.edges_counted (graph : adjlist) : Prop :=
  graph.nb_edges = (graph.adjlists.map List.length).sum

instance (graph : adjlist) : Decidable graph.edges_counted := by
  unfold adjlist.edges_counted; exact inferInstance

/-- There is a path from `u` to `v` along adjacency lists. -/
def adjlist.reach (graph : adjlist) (u v : Int) : Prop :=
  Relation.ReflTransGen (fun a b => graph.has_edge a b = true) u v

/-- The set entries of `was` are closed under adjacency. -/
def closed (graph : adjlist) (was : List Bool) : Prop :=
  ∀ x y, marked was x → graph.has_edge x y = true → marked was y

/-- The relation `connected by a path` on the vertices `0, ..., n-1`. -/
def adjlist.connected (graph : adjlist) (u v : Fin graph.get_nb_vertices) : Prop :=
  graph.reach ((u : Nat) : Int) ((v : Nat) : Int)

/-- The set of vertices related to `v`. -/
def class_of {n : Nat} (R : Fin n → Fin n → Prop) (v : Fin n) : Set (Fin n) :=
  {u | R v u}

/-- The endpoints of every edge lie in `[0, nb_vertices)`. -/
def edgelist.in_range (graph : edgelist) : Prop :=
  ∀ e ∈ graph.edges, (0 ≤ e.src ∧ e.src < (graph.nb_vertices : Int)) ∧
    (0 ≤ e.dst ∧ e.dst < (graph.nb_vertices : Int))

instance (graph : edgelist) : Decidable graph.in_range := by
  unfold edgelist.in_range; exact inferInstance


/-- Some edge of the list `es` goes from `u` to `v`. -/
def edge_rel_of (n : Nat) (es : List edge) (u v : Fin n) : Prop :=
  ∃ e ∈ es, e.src = ((u : Nat) : Int) ∧ e.dst = ((v : Nat) : Int)

/-- The edge relation of an `edgelist` on its vertices. -/
def edgelist.edge_rel (graph : edgelist) (u v : Fin graph.nb_vertices) : Prop :=
  edge_rel_of graph.nb_vertices graph.edges u v

/-- The reflexive-symmetric-transitive closure of the edge relation. -/
def edgelist.connected (graph : edgelist) (u v : Fin graph.nb_vertices) : Prop :=
  Relation.EqvGen graph.edge_rel u v

/-- Following `parent` from `x` ends at the representative `r`, an entry that
is its own parent. -/
inductive Root (parent : List Int) : Int → Int → Prop where
  | base {r : Int} : rd parent r = some r → Root parent r r
  | step {x p r : Int} : rd parent x = some p → p ≠ x → Root parent p r → Root parent x r

/-- The array `parent` describes a forest on `[0, n)`: its entries lie in
`[0, n)` and `rk` increases strictly along every entry that is not its own
parent. -/
def forest (n : Nat) (parent : List Int) (rk : Int → Nat) : Prop :=
  parent.length = n ∧
  (∀ x p, rd parent x = some p → 0 ≤ p ∧ p < (n : Int)) ∧
  (∀ x p, rd parent x = some p → p ≠ x → rk x < rk p)

/-- The array `parent1` arises from `parent` by path compression: the
representatives are the same entries, and every other entry keeps its parent or
points to its representative. -/
def compressed (parent parent1 : List Int) : Prop :=
  parent1.length = parent.length ∧
  (∀ y, rd parent1 y = some y ↔ rd parent y = some y) ∧
  (∀ y p, rd parent1 y = some p → rd parent y = some p ∨ (Root parent y p ∧ p ≠ y))

/-! ## Vocabulary for the frontier traversal -/

/-- The adjacency list of `v` (empty when `v` is no vertex). -/
def adjlist.neighbors (graph : adjlist) (v : Int) : List Int :=
  (rd graph.adjlists v).getD []

/-- The out-degree of `v`. -/
def adjlist.degree (graph : adjlist) (v : Int) : Int :=
  ((graph.neighbors v).length : Int)

/-- The first slot of `FrontierNext` that belongs to position `i` of the
frontier `F`: the sum of the out-degrees of the positions before `i`. -/
def offset (graph : adjlist) (F : List Int) (i : Nat) : Int :=
  ((F.take i).map graph.degree).sum

/-- The state `s` reached from `s0` inside the second `parallel_for` of one
round over the frontier `F`, after the edges with slots in `S` and neighbours
in `C` have been executed; `W` is the list of stores of the round so far. -/
structure Pass2 (graph : adjlist) (F : List Int) (s0 s : PbfsState)
    (S C : Int → Prop) (W : List Store) : Prop where
  frontier_eq : s.Frontier = s0.Frontier
  counts_eq : s.Counts = s0.Counts
  frontiers_eq : s.frontiers = s0.frontiers
  was_length : s.was.length = s0.was.length
  next_length : s.FrontierNext.length = s0.FrontierNext.length
  stores_eq : s.stores = s0.stores ++ W
  next_value : ∀ w ∈ W, rd s.FrontierNext w.slot = some w.value
  slots : ∀ k, (∃ w ∈ W, w.slot = k) ↔ S k
  marked_iff : ∀ x, marked s.was x ↔ marked s0.was x ∨ ∃ w ∈ W, w.value = x ∧ 0 ≤ x
  value_cases : ∀ w ∈ W, w.value = -1 ∨ (w.value = w.other ∧ ¬ marked s0.was w.other)
  other_edge : ∀ w ∈ W, ∃ u ∈ F, graph.has_edge u w.other = true
  other_marked : ∀ w ∈ W, marked s.was w.other
  once : ((W.filter (fun w => decide (0 ≤ w.value))).map Store.value).Nodup
  covered : ∀ y, C y → ∃ w ∈ W, w.other = y

/-- What holds of the history variables at every point of a run: a store holds
the neighbour or `-1`, a stored vertex is marked, no vertex is stored twice; the
frontiers recorded so far are marked and no vertex occurs twice in them. -/
structure History (s : PbfsState) : Prop where
  value_cases : ∀ w ∈ s.stores, w.value = w.other ∨ w.value = -1
  stored_marked : ∀ w ∈ s.stores, 0 ≤ w.value → marked s.was w.value
  stored_once : ((s.stores.filter (fun w => decide (0 ≤ w.value))).map Store.value).Nodup
  frontiers_marked : ∀ F ∈ s.frontiers, ∀ x ∈ F, marked s.was x
  frontiers_once : s.frontiers.flatten.Nodup

/-- One iteration of the `while` loop leads from `s` with frontier `F` to `s1`
with frontier `F1`. -/
structure Round (graph : adjlist) (F : List Int) (s s1 : PbfsState) (F1 : List Int) :
    Prop where
  was_length : s1.was.length = s.was.length
  frontier_length : s1.Frontier.length = s.Frontier.length
  next_length : s1.FrontierNext.length = s.FrontierNext.length
  counts_length : s1.Counts.length = s.Counts.length
  frontiers_eq : s1.frontiers = s.frontiers ++ [F]
  nodup : F1.Nodup
  marked_iff : ∀ x, marked s1.was x ↔ marked s.was x ∨ x ∈ F1
  fresh : ∀ x ∈ F1, ¬ marked s.was x
  from_edge : ∀ x ∈ F1, ∃ u ∈ F, graph.has_edge u x = true
  nbrs_marked : ∀ u ∈ F, ∀ y, graph.has_edge u y = true → marked s1.was y
  stores : ∃ W, s1.stores = s.stores ++ W ∧
    (∀ w ∈ W, w.value = w.other ∨ w.value = -1) ∧
    (∀ w ∈ W, 0 ≤ w.value → w.value ∈ F1) ∧
    ((W.filter (fun w => decide (0 ≤ w.value))).map Store.value).Nodup

/-! ## `almost_sorted_sparray` -/

/-- The value of a `long` computation: two's complement wrap-around to
64 bits. -/
def wrap64 (x : Int) : Int := (x + 2 ^ 63) % 2 ^ 64 - 2 ^ 63

/-- The call `std::swap(tmp[a], tmp[b])`. -/
def swap (tmp : List Int) (a b : Int) : Option (List Int) :=
  match rd tmp a with
  | none => none
  | some x =>
    match rd tmp b with
    | none => none
    | some y =>
      match wr tmp a y with
      | none => none
      | some tmp1 => wr tmp1 b x

/-- The loop `for (long i = 0; i < nb_swaps; i++)` of `almost_sorted_sparray`,
given the values of `i` still to come.  The function `random_index` is not
part of the sources and is a parameter. -/
def swap_loop (random_index : Int → Int → Int) (n : Int) :
    List Nat → List Int → Option (List Int)
  | [], tmp => some tmp
  | i :: rest, tmp =>
    match swap tmp (random_index (wrap64 (2 * (i : Int))) n)
        (random_index (wrap64 (wrap64 (2 * (i : Int)) + 1)) n) with
    | none => none
    | some tmp1 => swap_loop random_index n rest tmp1

/-- The function `almost_sorted_sparray(s, n, nb_swaps)`.  `order` is the order
in which the `parallel_for` executes its indices.  The cells of `tmp` start
as `0`. -/
def almost_sorted_sparray (order : List Nat) (random_index : Int → Int → Int)
    (_s n nb_swaps : Int) : Option (List Int) :=
  let tmp := List.replicate n.toNat (0 : Int)
  match run_bodies (fun i t => wr t (i : Int) (i : Int)) order tmp with
  | none => none
  | some tmp1 => swap_loop random_index n (List.range nb_swaps.toNat) tmp1

/-- The ascending array `[0, 1, ..., n-1]`. -/
def ascending (n : Nat) : List Int := List.map (fun i : Nat => (i : Int)) (List.range n)

/-- Exchange the entries at the positions `a` and `b` of a list. -/
def swap_at (l : List Int) (a b : Nat) : List Int :=
  match l[a]?, l[b]? with
  | some x, some y => (l.set a y).set b x
  | _, _ => l

/-- The number of positions `i < n` of `l` that do not hold `i`. -/
def displaced (n : Nat) (l : List Int) : Nat :=
  ((List.range n).filter (fun i : Nat => decide (l[i]? ≠ some (i : Int)))).length

/-! ## The benchmark framework of `bench.cpp` -/

/-- The type `thunk_type = std::function<void ()>`: the effect of a call on the
state `W` of the program. -/
abbrev thunk_type (W : Type) := W → W

/-- The type `benchmark_type`: a pair of pairs of thunks. -/
abbrev benchmark_type (W : Type) :=
  (thunk_type W × thunk_type W) × (thunk_type W × thunk_type W)

/-- The function `make_benchmark`. -/
def make_benchmark {W : Type} (init bench output destroy : thunk_type W) :
    benchmark_type W :=
  ((init, bench), (output, destroy))

/-- The function `bench_init`: calls `b.first.first`. -/
def bench_init {W : Type} (b : benchmark_type W) : W → W := fun w => b.1.1 w

/-- The function `bench_run`: calls `b.first.second`. -/
def bench_run {W : Type} (b : benchmark_type W) : W → W := fun w => b.1.2 w

/-- The function `bench_output`: calls `b.second.first`. -/
def bench_output {W : Type} (b : benchmark_type W) : W → W := fun w => b.2.1 w

/-- The function `bench_destroy`: calls `b.second.second`. -/
def bench_destroy {W : Type} (b : benchmark_type W) : W → W := fun w => b.2.2 w

/-- What `bench.cpp` calls without defining it: the command line
(`pasl::util::cmdline`), the members `initialize` and `set` of the controllers
(named by their variables), and what `pasl::sched::launch` does before it calls
its first argument. -/
structure Harness (W : Type) where
  parse_or_default_int : String → Int → W → Int × W
  parse_or_default_string : String → String → W → String × W
  initialize_contr : String → Int → Int → W → W
  set_contr : String → String → W → W
  enter_launch : W → W

/-- The controllers that `init_controllers` initialises, in its order. -/
def controllers : List String :=
  ["sol_contr", "sil_contr", "sf_contr", "sg_contr", "nn_build_contr", "nn_run_contr",
   "bms_memcpy_contr", "bms_merge_contr", "bms_sort_contr", "quicksort_contr",
   "merge_contr", "mergesort_contr", "mergesort_ex_contr", "cilkmerge_contr",
   "cilksort_contr"]

/-- The function `init_controllers`.  The value of `init` is parsed as an `int`
and converted to `double`; it is kept as an integer. -/
def init_controllers {W : Type} (H : Harness W) : W → W := fun w =>
  match H.parse_or_default_int "tries" 10 w with
  | (tries, w1) =>
    match H.parse_or_default_int "init" 1 w1 with
    | (init_est, w2) =>
      controllers.foldl (fun w3 c => H.initialize_contr c init_est tries w3) w2

/-- The thunk `init` of `synthetic_bench`: reads the mode and passes it to
`set` of four controllers. -/
def synthetic_bench_init {W : Type} (H : Harness W) : W → W := fun w =>
  match H.parse_or_default_string "mode" "by_force_sequential" w with
  | (running_mode, w1) =>
    ["sol_contr", "sil_contr", "sf_contr", "sg_contr"].foldl
      (fun w2 c => H.set_contr c running_mode w2) w1

/-- The thunk `init` of `sort_bench`.  `generate` stands for
`c.find_by_arg_or_default_key("generator", "random")()`, which selects one of the
three input generators by the command line and runs it; then the mode is read
and passed to `set` of three controllers. -/
def sort_bench_init {W : Type} (H : Harness W) (generate : W → W) : W → W := fun w =>
  match H.parse_or_default_string "mode" "by_force_sequential" (generate w) with
  | (running_mode, w1) =>
    ["bms_memcpy_contr", "bms_merge_contr", "bms_sort_contr"].foldl
      (fun w2 c => H.set_contr c running_mode w2) w1

/-- What the thunk `init` of `nearestneighbors_bench` calls without the sources
defining it: `parse_or_default_bool` of the command line, and the four ways of
building the runner (the point generator, `preparePoints` and `new RunnerNN`),
named by their point generators. -/
structure NearestNeighbors (W : Type) where
  parse_or_default_bool : String → Bool → W → Bool × W
  uniform2d : Bool → Bool → Int → Int → W → W
  plummer2d : Int → Int → W → W
  uniform3d : Bool → Bool → Int → Int → W → W
  plummer3d : Int → Int → W → W

/-- The thunk `init` of `nearestneighbors_bench`: reads its arguments, builds
the runner, reads the mode and passes it to `set` of two controllers.  The
result is `none` where the thunk calls `exit(-1)`. -/
def nearestneighbors_bench_init {W : Type} (H : Harness W) (N : NearestNeighbors W) :
    W → Option W := fun w =>
  match H.parse_or_default_int "n" 1000000 w with
  | (n, w1) =>
    match H.parse_or_default_int "k" 8 w1 with
    | (k, w2) =>
      match H.parse_or_default_int "d" 2 w2 with
      | (d, w3) =>
        match H.parse_or_default_string "gen" "uniform" w3 with
        | (gen_type, w4) =>
          match N.parse_or_default_bool "in-sphere" false w4 with
          | (inSphere, w5) =>
            match N.parse_or_default_bool "on-sphere" false w5 with
            | (onSphere, w6) =>
              let runner : Option W :=
                if d = 2 then
                  if gen_type = "uniform" then some (N.uniform2d inSphere onSphere n k w6)
                  else if gen_type = "plummer" then some (N.plummer2d n k w6)
                  else none
                else
                  if gen_type = "uniform" then some (N.uniform3d inSphere onSphere n k w6)
                  else if gen_type = "plummer" then some (N.plummer3d n k w6)
                  else none
              match runner with
              | none => none
              | some w7 =>
                match H.parse_or_default_string "mode" "by_force_sequential" w7 with
                | (running_mode, w8) =>
                  some (["nn_build_contr", "nn_run_contr"].foldl
                    (fun w9 c => H.set_contr c running_mode w9) w8)

/-- The state that the thunks of `main` work on: the local variable `bench`,
captured by reference, and the state of the rest of the program. -/
structure MainState (W : Type) where
  bench : benchmark_type W
  world : W

/-- The thunk `init` of `main`.  `find_bench` stands for
`m.find_by_arg("bench")()`: it selects a benchmark constructor by the command
line and runs it. -/
def main_init {W : Type} (H : Harness W) (find_bench : W → benchmark_type W × W) :
    MainState W → MainState W := fun st =>
  match find_bench st.world with
  | (bench, w1) =>
    let w2 := init_controllers H w1
    ⟨bench, bench_init bench w2⟩

/-- The thunk `run` of `main`. -/
def main_run {W : Type} : Bool → MainState W → MainState W := fun _ st =>
  { st with world := bench_run st.bench st.world }

/-- The thunk `output` of `main`. -/
def main_output {W : Type} : MainState W → MainState W := fun st =>
  { st with world := bench_output st.bench st.world }

/-- The thunk `destroy` of `main`. -/
def main_destroy {W : Type} : MainState W → MainState W := fun st =>
  { st with world := bench_destroy st.bench st.world }

/-- Modelled from the spec: `pasl::sched::launch`, which is not part of the
sources: after its own entry work it executes its initialization, run, output
and teardown thunks once each, in that order. -/
def launch {S : Type} (enter : S → S) (init : S → S) (run : Bool → S → S)
    (output destroy : S → S) (sequential : Bool) : S → S := fun s =>
  destroy (output (run sequential (init (enter s))))

/-- The function `main`. -/
def main {W : Type} (H : Harness W) (find_bench : W → benchmark_type W × W)
    (sequential : Bool) : MainState W → MainState W :=
  launch (fun st => { st with world := H.enter_launch st.world })
    (main_init H find_bench) main_run main_output main_destroy sequential

/-! ## Recording what `main` does -/

/-- The observable steps of a run of the driver. -/
inductive Event where
  | launch_entered
  | read_arg (name : String)
  | contr_initialized (contr : String) (init_est tries : Int)
  | contr_set (contr mode : String)
  | thunk_called (label : String)
  deriving DecidableEq, Repr

/-- The harness that records every step in a trace, for a command line that
gives the integer arguments `ints` and the string arguments `strs`. -/
def recording (ints : String → Option Int) (strs : String → Option String) :
    Harness (List Event) where
  parse_or_default_int := fun name d w => ((ints name).getD d, w ++ [Event.read_arg name])
  parse_or_default_string := fun name d w => ((strs name).getD d, w ++ [Event.read_arg name])
  initialize_contr := fun c init_est tries w => w ++ [Event.contr_initialized c init_est tries]
  set_contr := fun c mode w => w ++ [Event.contr_set c mode]
  enter_launch := fun w => w ++ [Event.launch_entered]

/-- The functions of `nearestneighbors_bench` that record their steps: a read
of a boolean argument, and the steps `built g` of building the runner with the
point generator `g`. -/
def recording_nn (bools : String → Option Bool) (built : String → List Event) :
    NearestNeighbors (List Event) where
  parse_or_default_bool := fun name d w => ((bools name).getD d, w ++ [Event.read_arg name])
  uniform2d := fun _ _ _ _ w => w ++ built "uniform2d"
  plummer2d := fun _ _ w => w ++ built "plummer2d"
  uniform3d := fun _ _ _ _ w => w ++ built "uniform3d"
  plummer3d := fun _ _ w => w ++ built "plummer3d"

/-- In the trace, every read of a command-line argument happens before
`launch` is entered. -/
def read_before_launch (tr : List Event) : Prop :=
  ∀ i j : Nat, tr[i]? = some Event.launch_entered →
    (∃ name, tr[j]? = some (Event.read_arg name)) → j < i

/-! ## The tree generators of `rake-compress-generators.hpp` -/

/-- The value of an `int` computation: two's complement wrap-around to
32 bits. -/
def wrap32 (x : Int) : Int := (x + 2147483648) % 4294967296 - 2147483648

/-- Addition of `int`. -/
def add32 (a b : Int) : Int := wrap32 (a + b)

/-- Subtraction of `int`. -/
def sub32 (a b : Int) : Int := wrap32 (a - b)

/-- Multiplication of `int`. -/
def mul32 (a b : Int) : Int := wrap32 (a * b)

/-- Division of `int`: the quotient is truncated towards zero. -/
def div32 (a b : Int) : Int := wrap32 (Int.tdiv a b)

/-- The remainder of `int` division. -/
def mod32 (a b : Int) : Int := Int.tmod a b

/-- The two arrays the generators fill, passed as pointers: `children[i]` and
`parent[i]` for every index `i`. -/
structure Forest where
  children : Int → List Int
  parent : Int → Int

/-- The assignment `parent[i] = v`. -/
def Forest.set_parent (t : Forest) (i v : Int) : Forest :=
  { t with parent := fun j => if j = i then v else t.parent j }

/-- The assignment `children[i] = c`. -/
def Forest.set_children (t : Forest) (i : Int) (c : List Int) : Forest :=
  { t with children := fun j => if j = i then c else t.children j }

/-- The call `children[i].push_back(v)`. -/
def Forest.push_back (t : Forest) (i v : Int) : Forest :=
  t.set_children i (t.children i ++ [v])

/-- A loop `for (int i = 0; i < n; i++)` with the given body. -/
def for_int {σ : Type} (n : Int) (body : σ → Int → σ) (s : σ) : σ :=
  (List.range n.toNat).foldl (fun s (i : Nat) => body s (i : Int)) s

/-- The body of the loop of `generate_binary_tree`. -/
def binary_tree_body (n : Int) (t : Forest) (i : Int) : Forest :=
  let t1 := t.set_parent i (if i = 0 then 0 else div32 (sub32 i 1) 2)
  let t2 := t1.set_children i []
  let t3 := if add32 (mul32 2 i) 1 < n then t2.push_back i (add32 (mul32 2 i) 1) else t2
  if add32 (mul32 2 i) 2 < n then t3.push_back i (add32 (mul32 2 i) 2) else t3

/-- The function `generate_binary_tree`. -/
def generate_binary_tree (n : Int) (t : Forest) : Forest :=
  for_int n (binary_tree_body n) t

/-- The body of the loop of `generate_bamboo`. -/
def bamboo_body (n : Int) (t : Forest) (i : Int) : Forest :=
  let t1 := t.set_parent i (if i = 0 then 0 else sub32 i 1)
  let t2 := t1.set_children i []
  if add32 i 1 < n then t2.push_back i (add32 i 1) else t2

/-- The function `generate_bamboo`. -/
def generate_bamboo (n : Int) (t : Forest) : Forest :=
  for_int n (bamboo_body n) t

/-- The body of the loops of `generate_two_bamboos` and of the inner loop of
`generate_k_bamboos`: the bamboo of length `l` that starts at `d`. -/
def shifted_bamboo_body (l d : Int) (t : Forest) (i : Int) : Forest :=
  let t1 := t.set_parent (add32 i d) (add32 (if i = 0 then 0 else sub32 i 1) d)
  let t2 := t1.set_children (add32 i d) []
  if add32 i 1 < l then t2.push_back (add32 i d) (add32 (add32 i d) 1) else t2

/-- The first loop of `generate_two_bamboos`, which does not shift. -/
def first_bamboo_body (l : Int) (t : Forest) (i : Int) : Forest :=
  let t1 := t.set_parent i (if i = 0 then 0 else sub32 i 1)
  let t2 := t1.set_children i []
  if add32 i 1 < l then t2.push_back i (add32 i 1) else t2

/-- The function `generate_two_bamboos`. -/
def generate_two_bamboos (n : Int) (t : Forest) : Forest :=
  let l1 := div32 n 2
  let l2 := sub32 n l1
  let t1 := for_int l1 (first_bamboo_body l1) t
  for_int l2 (shifted_bamboo_body l2 l1) t1

/-- The body of the outer loop of `generate_k_bamboos`. -/
def k_bamboos_body (n k : Int) (t : Forest) (i : Int) : Forest :=
  let l := if i = sub32 k 1 then sub32 n (mul32 (sub32 k 1) (div32 n k)) else div32 n k
  let d := mul32 i (div32 n k)
  for_int l (shifted_bamboo_body l d) t

/-- The function `generate_k_bamboos`. -/
def generate_k_bamboos (n : Int) (t : Forest) (k : Int) : Forest :=
  for_int k (k_bamboos_body n k) t

/-- The body of the loop of `generate_empty_graph`. -/
def empty_graph_body (t : Forest) (i : Int) : Forest :=
  (t.set_parent i i).set_children i []

/-- The function `generate_empty_graph`. -/
def generate_empty_graph (n : Int) (t : Forest) : Forest :=
  for_int n empty_graph_body t

/-- The function `remove_edge`. -/
def remove_edge (t : Forest) (u v : Int) : Forest :=
  (t.set_parent v (-1)).set_children u ((t.children u).filter (fun x => decide (x ≠ v)))

/-- The function `add_edge`. -/
def add_edge (t : Forest) (u v : Int) : Forest :=
  (t.set_parent v u).push_back u v

/-- What `generate_random_graph` takes from outside the sources: `rand seed k`
is the value of the `k`-th call of `rand()` after `srand(seed)`, and
`ceil_mul n f` is `(int)ceil(n * f)` for the `double` value `f`. -/
structure Libc (F : Type) where
  rand : Int → Nat → Int
  ceil_mul : Int → F → Int

/-- The forest and the number of calls of `rand()` made so far. -/
structure RandState where
  forest : Forest
  calls : Nat

/-- The loop `while (children[u].size() == 0) u = rand() % i;`: the final `u`
and the number of calls of `rand()`. -/
def redraw {F : Type} (libc : Libc F) (seed i : Int) (t : Forest) :
    Nat → Int → Nat → Option (Int × Nat)
  | 0, u, calls => if (t.children u).length = 0 then none else some (u, calls)
  | fuel + 1, u, calls =>
    if (t.children u).length = 0 then
      redraw libc seed i t fuel (mod32 (libc.rand seed calls) i) (calls + 1)
    else some (u, calls)

/-- The body of the second loop of `generate_random_graph`. -/
def random_graph_body {F : Type} (libc : Libc F) (seed : Int) (fuel : Nat)
    (s : Option RandState) (i : Int) : Option RandState :=
  match s with
  | none => none
  | some s =>
    match redraw libc seed i s.forest fuel (mod32 (libc.rand seed s.calls) i)
        (s.calls + 1) with
    | none => none
    | some (u, calls) =>
      match rd (s.forest.children u)
          (mod32 (libc.rand seed calls) ((s.forest.children u).length : Int)) with
      | none => none
      | some v =>
        some ⟨add_edge (add_edge (remove_edge s.forest u v) u i) i v, calls + 1⟩

/-- The function `generate_random_graph`, up to the arrays it leaves; what it
prints is not modelled.  `fuel` bounds the iterations of each `while` loop; a
division by zero has no result. -/
def generate_random_graph {F : Type} (libc : Libc F) (fuel : Nat) (n : Int) (t : Forest)
    (seed degree : Int) (f : F) : Option Forest :=
  let t1 := for_int n (fun t i => t.set_parent i i) t
  let r := max (sub32 n (libc.ceil_mul n f)) 2
  if degree = 0 ∧ 1 < r then none
  else
    let t2 := (List.range (r.toNat - 1)).foldl
      (fun t (i : Nat) => add_edge t (div32 ((i : Int) + 1) degree) ((i : Int) + 1)) t1
    let s := (List.range (n.toNat - r.toNat)).foldl
      (fun s (i : Nat) => random_graph_body libc seed fuel s ((i : Int) + r)) (some ⟨t2, 0⟩)
    s.map (fun s => s.forest)

/-- The function `generate_graph`. -/
def generate_graph {F : Type} (libc : Libc F) (fuel : Nat) (type : String) (n : Int)
    (t : Forest) (k seed degree : Int) (f : F) : Option Forest :=
  if type = "binary_tree" then some (generate_binary_tree n t)
  else if type = "bamboo" then some (generate_bamboo n t)
  else if type = "empty_graph" then some (generate_empty_graph n t)
  else if type = "two_bamboos" then some (generate_two_bamboos n t)
  else if type = "k_bamboos" then some (generate_k_bamboos n t k)
  else generate_random_graph libc fuel n t seed degree f

/-! ## Elementary facts about the memory model -/

theorem rd_eq_some_lt {α : Type} {a : List α} {i : Int} {v : α}
    (h : rd a i = some v) : 0 ≤ i ∧ i < a.length := by
  unfold rd at h
  split at h
  · rename_i h0
    have := List.getElem?_eq_some_iff.mp h
    obtain ⟨hlt, _⟩ := this
    exact ⟨h0, by omega⟩
  · cases h

theorem rd_of_lt {α : Type} {a : List α} {i : Int}
    (h0 : 0 ≤ i) (h1 : i < a.length) : ∃ v, rd a i = some v := by
  have hl : i.toNat < a.length := by omega
  exact ⟨a[i.toNat], by simp [rd, h0, List.getElem?_eq_getElem hl]⟩

theorem wr_of_lt {α : Type} {a : List α} {i : Int} (v : α)
    (h0 : 0 ≤ i) (h1 : i < a.length) : wr a i v = some (a.set i.toNat v) := by
  have hl : i.toNat < a.length := by omega
  simp [wr, h0, hl]

theorem wr_eq_some {α : Type} {a b : List α} {i : Int} {v : α}
    (h : wr a i v = some b) : 0 ≤ i ∧ i < a.length ∧ b = a.set i.toNat v := by
  unfold wr at h
  split at h
  · rename_i hc
    simp only [Option.some.injEq] at h
    exact ⟨hc.1, by omega, h.symm⟩
  · cases h

theorem wr_length {α : Type} {a b : List α} {i : Int} {v : α}
    (h : wr a i v = some b) : b.length = a.length := by
  obtain ⟨_, _, rfl⟩ := wr_eq_some h
  simp

theorem rd_wr_same {α : Type} {a b : List α} {i : Int} {v : α}
    (h : wr a i v = some b) : rd b i = some v := by
  obtain ⟨h0, h1, rfl⟩ := wr_eq_some h
  have hl : i.toNat < a.length := by omega
  simp [rd, h0, List.getElem?_set, hl]

theorem rd_wr_other {α : Type} {a b : List α} {i j : Int} {v : α}
    (h : wr a i v = some b) (hij : j ≠ i) : rd b j = rd a j := by
  obtain ⟨h0, h1, rfl⟩ := wr_eq_some h
  unfold rd
  split
  · rename_i hj
    have : i.toNat ≠ j.toNat := by omega
    simp [List.getElem?_set, this]
  · rfl

/-! ## C1 -/

/-- C1: a sequentially executed `try_to_set_dist(target, unknown, dist, dists)`
with `target` in range returns `true` exactly when `dists[target]` equalled
`unknown`; on `true` the entry holds `dist` afterwards and all other entries
are as before; on `false` the array is unchanged; the relaxed-store branch is
never the one taken. -/
theorem try_to_set_dist_claims {Item : Type} [DecidableEq Item]
    (dists : List Item) (target : Int) (unknown dist : Item)
    (h0 : 0 ≤ target) (h1 : target < dists.length) :
    ∃ r, try_to_set_dist target unknown dist dists = some r ∧
      (r.ret = true ↔ rd dists target = some unknown) ∧
      (r.ret = true → rd r.dists target = some dist ∧
        r.dists.length = dists.length ∧
        ∀ j, j ≠ target → rd r.dists j = rd dists j) ∧
      (r.ret = false → r.dists = dists) ∧
      r.branch ≠ Branch.relaxed_store := by
  obtain ⟨cur, hcur⟩ := rd_of_lt h0 h1
  by_cases hc : cur = unknown
  · subst hc
    have hw := wr_of_lt dist h0 h1
    refine ⟨⟨true, dists.set target.toNat dist, Branch.cas_succeeded⟩, ?_, ?_, ?_, ?_, ?_⟩
    · simp [try_to_set_dist, hcur, compare_exchange_strong, hw]
    · simp [hcur]
    · intro _
      exact ⟨rd_wr_same hw, by simp, fun j hj => rd_wr_other hw hj⟩
    · intro h; cases h
    · simp
  · refine ⟨⟨false, dists, Branch.load_differs⟩, ?_, ?_, ?_, ?_, ?_⟩
    · simp [try_to_set_dist, hcur, hc]
    · simp [hcur, hc]
    · intro h; cases h
    · intro _; rfl
    · simp

/-- C1 at `dists = [7, 0, 7]`, `target = 1`, `unknown = 0`, `dist = 5`. -/
theorem try_to_set_dist_claims_witness :
    ∃ r, try_to_set_dist (1 : Int) (0 : Int) 5 [7, 0, 7] = some r ∧
      (r.ret = true ↔ rd [7, 0, 7] (1 : Int) = some (0 : Int)) ∧
      (r.ret = true → rd r.dists 1 = some 5 ∧
        r.dists.length = [(7 : Int), 0, 7].length ∧
        ∀ j, j ≠ (1 : Int) → rd r.dists j = rd [7, 0, 7] j) ∧
      (r.ret = false → r.dists = [7, 0, 7]) ∧
      r.branch ≠ Branch.relaxed_store :=
  try_to_set_dist_claims [7, 0, 7] 1 0 5 (by decide) (by decide)


/-! ## Marked sets, adjacency and reachability -/

theorem marked_wr_true {was was1 : List Bool} {i : Int}
    (h : wr was i true = some was1) (x : Int) :
    marked was1 x ↔ marked was x ∨ x = i := by
  unfold marked
  by_cases hx : x = i
  · subst hx
    simp [rd_wr_same h]
  · rw [rd_wr_other h hx]
    simp [hx]

theorem rd_replicate_false (n : Nat) (x : Int) :
    ¬ marked (List.replicate n false) x := by
  unfold marked rd
  split
  · intro h
    have := List.getElem?_eq_some_iff.mp h
    obtain ⟨hlt, he⟩ := this
    simp at he
  · simp

theorem rd_bool_cases {a : List Bool} {x : Int}
    (h0 : 0 ≤ x) (h1 : x < a.length) :
    rd a x = some true ∨ rd a x = some false := by
  obtain ⟨b, hb⟩ := rd_of_lt h0 h1
  cases b
  · exact Or.inr hb
  · exact Or.inl hb

/-- Two `was` arrays of the same length with the same set entries are equal. -/
theorem was_ext {a b : List Bool} (hl : a.length = b.length)
    (h : ∀ x, marked a x ↔ marked b x) : a = b := by
  apply List.ext_getElem hl
  intro i h1 h2
  have hi := h (i : Int)
  unfold marked rd at hi
  simp only [Int.natCast_nonneg, if_true, Int.toNat_ofNat] at hi
  rw [List.getElem?_eq_getElem h1, List.getElem?_eq_getElem h2] at hi
  simp only [Option.some.injEq] at hi
  cases ha : a[i] <;> cases hb : b[i] <;> simp_all

/-- A duplicate-free list of identifiers from `[0, n)` has at most `n`
elements. -/
theorem nodup_length_le {l : List Int} {n : Nat} (hn : l.Nodup)
    (hr : ∀ x ∈ l, 0 ≤ x ∧ x < (n : Int)) : l.length ≤ n := by
  have h1 : l.toFinset ⊆ Finset.Ico (0 : Int) n := by
    intro x hx
    have := hr x (List.mem_toFinset.mp hx)
    simp [Finset.mem_Ico, this.1, this.2]
  have h2 := Finset.card_le_card h1
  rw [List.toFinset_card_of_nodup hn, Int.card_Ico] at h2
  simpa using h2

theorem has_edge_iff {graph : adjlist} {u v : Int} :
    graph.has_edge u v = true ↔ ∃ l, rd graph.adjlists u = some l ∧ v ∈ l := by
  unfold adjlist.has_edge
  cases h : rd graph.adjlists u with
  | none => simp
  | some l => simp

theorem has_edge_range {graph : adjlist} (hr : graph.in_range) {u v : Int}
    (h : graph.has_edge u v = true) :
    (0 ≤ u ∧ u < (graph.get_nb_vertices : Int)) ∧
      (0 ≤ v ∧ v < (graph.get_nb_vertices : Int)) := by
  obtain ⟨l, hl, hv⟩ := has_edge_iff.mp h
  refine ⟨rd_eq_some_lt hl, ?_⟩
  apply hr l _ v hv
  unfold rd at hl
  split at hl
  · exact List.getElem?_mem hl
  · cases hl

theorem adjlists_range {graph : adjlist} (hr : graph.in_range) {u : Int} {l : List Int}
    (hl : rd graph.adjlists u = some l) :
    ∀ y ∈ l, 0 ≤ y ∧ y < (graph.get_nb_vertices : Int) := by
  intro y hy
  exact (has_edge_range hr (has_edge_iff.mpr ⟨l, hl, hy⟩)).2

/-- Under `symmetric` and `in_range` the adjacency relation is symmetric on
all identifiers. -/
theorem has_edge_symm {graph : adjlist} (hr : graph.in_range) (hs : graph.symmetric)
    {u v : Int} (h : graph.has_edge u v = true) : graph.has_edge v u = true := by
  obtain ⟨⟨u0, u1⟩, ⟨v0, v1⟩⟩ := has_edge_range hr h
  have hu : u.toNat ∈ List.range graph.get_nb_vertices := by
    simp only [List.mem_range]; omega
  have hv : v.toNat ∈ List.range graph.get_nb_vertices := by
    simp only [List.mem_range]; omega
  have := hs _ hu _ hv
  rw [Int.toNat_of_nonneg u0, Int.toNat_of_nonneg v0] at this
  rw [← this]; exact h

theorem reach_symm {graph : adjlist} (hr : graph.in_range) (hs : graph.symmetric)
    {u v : Int} (h : graph.reach u v) : graph.reach v u :=
  Relation.ReflTransGen.symmetric (fun _ _ hab => has_edge_symm hr hs hab) h

theorem closed_reach {graph : adjlist} {was : List Bool} (hc : closed graph was)
    {x y : Int} (hx : marked was x) (h : graph.reach x y) : marked was y := by
  induction h with
  | refl => exact hx
  | tail _ hbc ih => exact hc _ _ ih hbc

theorem reach_range {graph : adjlist} (hr : graph.in_range) {u v : Int}
    (hu : 0 ≤ u ∧ u < (graph.get_nb_vertices : Int)) (h : graph.reach u v) :
    0 ≤ v ∧ v < (graph.get_nb_vertices : Int) := by
  induction h with
  | refl => exact hu
  | tail _ hbc _ => exact (has_edge_range hr hbc).2

/-! ## The traversal of `nb_components_bfs_by_array` -/

theorem take_set_succ {α : Type} (l : List α) (k : Nat) (v : α) (h : k < l.length) :
    (l.set k v).take (k + 1) = l.take k ++ [v] := by
  induction l generalizing k with
  | nil => simp at h
  | cons a t ih =>
    cases k with
    | zero => simp
    | succ k => simp at h; simp [ih k h]

/-- The loop over the neighbours marks every neighbour, appends the newly
marked ones to the queue and keeps the queue duplicate-free. -/
theorem bfs_edges_spec {n : Nat} : ∀ (nbrs : List Int) (s : BfsState) (Q : List Int),
    (∀ y ∈ nbrs, 0 ≤ y ∧ y < (n : Int)) →
    s.was.length = n → s.queue.length = n →
    s.tail = Q.length → s.queue.take s.tail = Q →
    Q.Nodup → (∀ x ∈ Q, (0 ≤ x ∧ x < (n : Int)) ∧ marked s.was x) →
    ∃ s1 N, bfs_edges nbrs s = some s1 ∧ s1.was.length = n ∧ s1.queue.length = n ∧
      s1.tail = (Q ++ N).length ∧ s1.queue.take s1.tail = Q ++ N ∧ (Q ++ N).Nodup ∧
      (∀ x ∈ N, x ∈ nbrs) ∧
      (∀ x, marked s1.was x ↔ marked s.was x ∨ x ∈ N) ∧
      (∀ y ∈ nbrs, marked s1.was y) := by
  intro nbrs
  induction nbrs with
  | nil =>
    intro s Q _ hw hq ht htk hnd _
    exact ⟨s, [], by simp [bfs_edges], hw, hq, by simpa using ht, by simpa using htk,
      by simpa using hnd, by simp, by simp, by simp⟩
  | cons other rest ih =>
    intro s Q hr hw hq ht htk hnd hQ
    have hor := hr other (List.mem_cons_self _ _)
    have hrest : ∀ y ∈ rest, 0 ≤ y ∧ y < (n : Int) :=
      fun y hy => hr y (List.mem_cons_of_mem _ hy)
    rcases rd_bool_cases (a := s.was) hor.1 (by rw [hw]; exact hor.2) with hb | hb
    · obtain ⟨s1, N, h1, h2, h3, h4, h5, h6, h7, h8, h9⟩ := ih s Q hrest hw hq ht htk hnd hQ
      refine ⟨s1, N, by simp [bfs_edges, hb, h1], h2, h3, h4, h5, h6, ?_, h8, ?_⟩
      · intro x hx; exact List.mem_cons_of_mem _ (h7 x hx)
      · intro y hy
        rcases List.mem_cons.mp hy with rfl | hy
        · exact (h8 _).mpr (Or.inl hb)
        · exact h9 y hy
    · have hnot : other ∉ Q := by
        intro hmem
        have := (hQ other hmem).2
        unfold marked at this
        rw [hb] at this; cases this
      have hnd1 : (Q ++ [other]).Nodup := by
        rw [List.nodup_append]
        refine ⟨hnd, by simp, ?_⟩
        intro a ha hb2
        simp only [List.mem_singleton] at hb2
        subst hb2
        exact hnot ha
      have hlen : (Q ++ [other]).length ≤ n := by
        apply nodup_length_le hnd1
        intro x hx
        rcases List.mem_append.mp hx with hx | hx
        · exact (hQ x hx).1
        · simp only [List.mem_singleton] at hx; subst hx; exact hor
      have htl : s.tail < n := by
        simp only [List.length_append, List.length_singleton] at hlen; omega
      have hw1 := wr_of_lt (a := s.was) true hor.1 (by rw [hw]; exact hor.2)
      have hq1 := wr_of_lt (a := s.queue) (i := (s.tail : Int)) other (by omega)
        (by rw [hq]; exact_mod_cast htl)
      simp only [Int.toNat_ofNat] at hq1
      have hmk := marked_wr_true hw1
      obtain ⟨s1, N, h1, h2, h3, h4, h5, h6, h7, h8, h9⟩ :=
        ih ⟨s.was.set other.toNat true, s.queue.set s.tail other, s.tail + 1⟩ (Q ++ [other])
          hrest (by simpa using hw) (by simpa using hq) (by simp [ht])
          (by
            show List.take (s.tail + 1) (s.queue.set s.tail other) = Q ++ [other]
            rw [take_set_succ _ _ _ (by rw [hq]; exact htl), htk])
          hnd1
          (by
            intro x hx
            rcases List.mem_append.mp hx with hx | hx
            · exact ⟨(hQ x hx).1, (hmk x).mpr (Or.inl (hQ x hx).2)⟩
            · simp only [List.mem_singleton] at hx; subst hx
              exact ⟨hor, (hmk x).mpr (Or.inr rfl)⟩)
      refine ⟨s1, other :: N, ?_, h2, h3, ?_, ?_, ?_, ?_, ?_, ?_⟩
      · simp [bfs_edges, hb, hw1, hq1, h1]
      · rw [h4]; simp
      · rw [h5]; simp
      · simpa using h6
      · intro x hx
        rcases List.mem_cons.mp hx with rfl | hx
        · exact List.mem_cons_self _ _
        · exact List.mem_cons_of_mem _ (h7 x hx)
      · intro x
        rw [h8 x]
        show marked (s.was.set other.toNat true) x ∨ x ∈ N ↔ _
        rw [hmk x]
        simp only [List.mem_cons]
        tauto
      · intro y hy
        rcases List.mem_cons.mp hy with rfl | hy
        · exact (h8 _).mpr (Or.inl ((hmk _).mpr (Or.inr rfl)))
        · exact h9 y hy

/-- The `while` loop of the traversal from a start vertex `v`: with enough
fuel it ends, and the entries set at the end are those set in `was0` together
with the dequeued vertices, all reachable from `v` and each with all its
neighbours marked. -/
theorem bfs_while_spec {graph : adjlist} (hr : graph.in_range) (was0 : List Bool) (v : Int) :
    ∀ (fuel head : Nat) (s : BfsState) (Q : List Int),
    graph.get_nb_vertices - head ≤ fuel → head ≤ s.tail →
    s.was.length = graph.get_nb_vertices → s.queue.length = graph.get_nb_vertices →
    s.tail = Q.length → s.queue.take s.tail = Q → Q.Nodup →
    (∀ x ∈ Q, (0 ≤ x ∧ x < (graph.get_nb_vertices : Int)) ∧ graph.reach v x) →
    (∀ x, marked s.was x ↔ marked was0 x ∨ x ∈ Q) →
    (∀ x ∈ Q.take head, ∀ y, graph.has_edge x y = true → marked s.was y) →
    ∃ (t : BfsState) (Q1 : List Int), bfs_while graph fuel head s = some t ∧
      t.was.length = graph.get_nb_vertices ∧ t.queue.length = graph.get_nb_vertices ∧
      (∀ x, marked t.was x ↔ marked was0 x ∨ x ∈ Q1) ∧
      (∀ x ∈ Q1, graph.reach v x) ∧ (∀ x ∈ Q, x ∈ Q1) ∧
      (∀ x ∈ Q1, ∀ y, graph.has_edge x y = true → marked t.was y) := by
  intro fuel
  induction fuel with
  | zero =>
    intro head s Q hf hh hw hq ht htk hnd hQ hm hcl
    have hlen : Q.length ≤ graph.get_nb_vertices := nodup_length_le hnd (fun x hx => (hQ x hx).1)
    have he : head = s.tail := by omega
    refine ⟨s, Q, by simp [bfs_while, he], hw, hq, hm, fun x hx => (hQ x hx).2,
      fun x hx => hx, ?_⟩
    intro x hx
    apply hcl x
    rw [he, ht, List.take_length]; exact hx
  | succ fuel ih =>
    intro head s Q hf hh hw hq ht htk hnd hQ hm hcl
    have hlen : Q.length ≤ graph.get_nb_vertices := nodup_length_le hnd (fun x hx => (hQ x hx).1)
    by_cases hlt : head < s.tail
    · have hhQ : head < Q.length := by omega
      have hqh : rd s.queue (head : Int) = some Q[head] := by
        unfold rd
        simp only [Int.natCast_nonneg, if_true, Int.toNat_ofNat]
        have : Q[head]? = some Q[head] := List.getElem?_eq_getElem hhQ
        rw [← this, ← htk, List.getElem?_take]
        simp [hlt]
      have hxQ : Q[head] ∈ Q := List.getElem_mem _
      obtain ⟨hxr, hxv⟩ := hQ _ hxQ
      obtain ⟨nbrs, hnb⟩ := rd_of_lt (a := graph.adjlists) hxr.1 hxr.2
      have hnr := adjlists_range hr hnb
      have hQm : ∀ x ∈ Q, (0 ≤ x ∧ x < (graph.get_nb_vertices : Int)) ∧ marked s.was x :=
        fun x hx => ⟨(hQ x hx).1, (hm x).mpr (Or.inr hx)⟩
      obtain ⟨s1, N, h1, h2, h3, h4, h5, h6, h7, h8, h9⟩ :=
        bfs_edges_spec nbrs s Q hnr hw hq ht htk hnd hQm
      have hQN : ∀ x ∈ Q ++ N,
          (0 ≤ x ∧ x < (graph.get_nb_vertices : Int)) ∧ graph.reach v x := by
        intro x hx
        rcases List.mem_append.mp hx with hx | hx
        · exact hQ x hx
        · have hxn := h7 x hx
          exact ⟨hnr x hxn,
            Relation.ReflTransGen.tail hxv (has_edge_iff.mpr ⟨nbrs, hnb, hxn⟩)⟩
      obtain ⟨t, Q1, k1, k2, k3, k4, k5, k6, k7⟩ :=
        ih (head + 1) s1 (Q ++ N) (by omega) (by rw [h4, List.length_append]; omega)
          h2 h3 h4 h5 h6 hQN
          (by
            intro x; rw [h8 x, hm x, List.mem_append]; tauto)
          (by
            intro x hx y hxy
            rw [List.take_append_of_le_length (by omega)] at hx
            rw [List.take_succ, List.getElem?_eq_getElem hhQ] at hx
            rcases List.mem_append.mp hx with hx | hx
            · exact (h8 y).mpr (Or.inl (hcl x hx y hxy))
            · simp only [Option.toList_some, List.mem_singleton] at hx
              subst hx
              obtain ⟨l, hl, hy⟩ := has_edge_iff.mp hxy
              rw [hnb] at hl
              simp only [Option.some.injEq] at hl
              subst hl
              exact h9 y hy)
      refine ⟨t, Q1, ?_, k2, k3, k4, k5, fun x hx => k6 x (List.mem_append_left _ hx), k7⟩
      simp [bfs_while, hlt, hqh, hnb, h1, k1]
    · have he : head = s.tail := by omega
      refine ⟨s, Q, by simp [bfs_while, hlt], hw, hq, hm, fun x hx => (hQ x hx).2,
        fun x hx => hx, ?_⟩
      intro x hx
      apply hcl x
      rw [he, ht, List.take_length]; exact hx

/-- One traversal of `nb_components_bfs_by_array` from an unmarked start vertex
`v`, begun with a `was` closed under adjacency, ends and leaves marked exactly
the previously marked vertices and those reachable from `v`. -/
theorem bfs_traverse {graph : adjlist} (hr : graph.in_range) (fuel : Nat)
    (hf : graph.get_nb_vertices ≤ fuel)
    (w : List Bool) (q : List Int) (v : Int)
    (hw : w.length = graph.get_nb_vertices) (hq : q.length = graph.get_nb_vertices)
    (hv : 0 ≤ v ∧ v < (graph.get_nb_vertices : Int)) (hc : closed graph w) :
    ∃ t, bfs_while graph fuel 0 ⟨w.set v.toNat true, q.set 0 v, 1⟩ = some t ∧
      t.was.length = graph.get_nb_vertices ∧ t.queue.length = graph.get_nb_vertices ∧
      closed graph t.was ∧
      (∀ x, marked t.was x ↔ marked w x ∨ graph.reach v x) := by
  have hw1 := wr_of_lt (a := w) true hv.1 (by rw [hw]; exact hv.2)
  have hmk := marked_wr_true hw1
  have hn : 0 < graph.get_nb_vertices := by omega
  obtain ⟨t, Q1, k1, k2, k3, k4, k5, k6, k7⟩ :=
    bfs_while_spec hr w v fuel 0 ⟨w.set v.toNat true, q.set 0 v, 1⟩ [v]
      (by omega) (by simp) (by simpa using hw) (by simpa using hq) (by simp)
      (by
        show List.take 1 (q.set 0 v) = [v]
        rw [take_set_succ _ 0 _ (by omega)]; simp)
      (by simp)
      (by
        intro x hx
        simp only [List.mem_singleton] at hx; subst hx
        exact ⟨hv, Relation.ReflTransGen.refl⟩)
      (by
        intro x
        show marked (w.set v.toNat true) x ↔ _
        rw [hmk x]; simp)
      (by simp)
  have hcl : closed graph t.was := by
    intro x y hx hxy
    rcases (k4 x).mp hx with h | h
    · exact (k4 y).mpr (Or.inl (hc x y h hxy))
    · exact k7 x h y hxy
  refine ⟨t, k1, k2, k3, hcl, ?_⟩
  intro x
  constructor
  · intro hx
    rcases (k4 x).mp hx with h | h
    · exact Or.inl h
    · exact Or.inr (k5 x h)
  · intro hx
    rcases hx with h | h
    · exact (k4 x).mpr (Or.inl h)
    · exact closed_reach hcl ((k4 v).mpr (Or.inr (k6 v (by simp)))) h

/-! ## Counting classes by representatives -/

/-- If `reps` holds one identifier of every class of an equivalence relation and
no two of one class, the number of classes is the length of `reps`. -/
theorem count_classes {n : Nat} (R : Int → Int → Prop)
    (hrefl : ∀ x, 0 ≤ x ∧ x < (n : Int) → R x x) (hsymm : ∀ x y, R x y → R y x)
    (htrans : ∀ x y z, R x y → R y z → R x z)
    (reps : List Int) (hnd : reps.Nodup)
    (hrange : ∀ r ∈ reps, 0 ≤ r ∧ r < (n : Int))
    (hcover : ∀ v : Fin n, ∃ r ∈ reps, R r ((v : Nat) : Int))
    (hsep : ∀ r ∈ reps, ∀ r1 ∈ reps, R r r1 → r = r1) :
    (Set.range (class_of (fun u v : Fin n => R ((u : Nat) : Int) ((v : Nat) : Int)))).ncard
      = reps.length := by
  have himg : Set.range (class_of (fun u v : Fin n => R ((u : Nat) : Int) ((v : Nat) : Int)))
      = (fun r : Int => {u : Fin n | R r ((u : Nat) : Int)}) ''
          (↑reps.toFinset : Set Int) := by
    ext S
    constructor
    · rintro ⟨v, rfl⟩
      obtain ⟨r, hr, hrv⟩ := hcover v
      refine ⟨r, by simpa using hr, ?_⟩
      ext u
      simp only [class_of, Set.mem_setOf_eq]
      constructor
      · intro h; exact htrans _ _ _ (hsymm _ _ hrv) h
      · intro h; exact htrans _ _ _ hrv h
    · rintro ⟨r, hr, rfl⟩
      have hr1 : r ∈ reps := by simpa using hr
      obtain ⟨h0, h1⟩ := hrange r hr1
      refine ⟨⟨r.toNat, by omega⟩, ?_⟩
      ext u
      simp only [class_of, Set.mem_setOf_eq, Int.toNat_of_nonneg h0]
  have hinj : Set.InjOn (fun r : Int => {u : Fin n | R r ((u : Nat) : Int)})
      (↑reps.toFinset : Set Int) := by
    intro r hr r1 hr1 heq
    have hrm : r ∈ reps := by simpa using hr
    have hrm1 : r1 ∈ reps := by simpa using hr1
    obtain ⟨h0, h1⟩ := hrange r1 hrm1
    have hmem : (⟨r1.toNat, by omega⟩ : Fin n) ∈ {u : Fin n | R r1 ((u : Nat) : Int)} := by
      simp only [Set.mem_setOf_eq, Int.toNat_of_nonneg h0]
      exact hrefl r1 ⟨h0, h1⟩
    have heq1 : {u : Fin n | R r ((u : Nat) : Int)} = {u : Fin n | R r1 ((u : Nat) : Int)} := heq
    rw [← heq1] at hmem
    simp only [Set.mem_setOf_eq, Int.toNat_of_nonneg h0] at hmem
    exact hsep r hrm r1 hrm1 hmem
  rw [himg, Set.ncard_image_of_injOn hinj, Set.ncard_coe_Finset,
    List.toFinset_card_of_nodup hnd]

/-! ## The loop over the start vertices of `nb_components_bfs_by_array` -/

/-- The loop over the start vertices, on a symmetric graph: the counter is the
length of a list of pairwise unconnected start vertices whose reachable sets
make up the marked set. -/
theorem bfs_roots_spec {graph : adjlist} (hr : graph.in_range) (hs : graph.symmetric)
    (fuel : Nat) (hf : graph.get_nb_vertices ≤ fuel) :
    ∀ (vs : List Nat) (s : BfsOuter) (reps : List Int),
    (∀ v ∈ vs, v < graph.get_nb_vertices) →
    s.was.length = graph.get_nb_vertices → s.queue.length = graph.get_nb_vertices →
    closed graph s.was → s.result = reps.length → reps.Nodup →
    (∀ r ∈ reps, 0 ≤ r ∧ r < (graph.get_nb_vertices : Int)) →
    (∀ x, marked s.was x ↔ ∃ r ∈ reps, graph.reach r x) →
    (∀ r ∈ reps, ∀ r1 ∈ reps, graph.reach r r1 → r = r1) →
    ∃ (t : BfsOuter) (reps1 : List Int), bfs_roots graph fuel vs s = some t ∧
      t.result = reps1.length ∧ reps1.Nodup ∧
      (∀ r ∈ reps1, 0 ≤ r ∧ r < (graph.get_nb_vertices : Int)) ∧
      (∀ x, marked t.was x ↔ ∃ r ∈ reps1, graph.reach r x) ∧
      (∀ r ∈ reps1, ∀ r1 ∈ reps1, graph.reach r r1 → r = r1) ∧
      (∀ r ∈ reps, r ∈ reps1) ∧
      (∀ v ∈ vs, marked t.was (v : Int)) := by
  intro vs
  induction vs with
  | nil =>
    intro s reps _ _ _ _ h1 h2 h3 h4 h5
    exact ⟨s, reps, by simp [bfs_roots], h1, h2, h3, h4, h5, fun r hr => hr, by simp⟩
  | cons v rest ih =>
    intro s reps hvs hw hq hc h1 h2 h3 h4 h5
    have hv : v < graph.get_nb_vertices := hvs v (List.mem_cons_self _ _)
    have hrest : ∀ u ∈ rest, u < graph.get_nb_vertices :=
      fun u hu => hvs u (List.mem_cons_of_mem _ hu)
    have hvr : 0 ≤ (v : Int) ∧ (v : Int) < (graph.get_nb_vertices : Int) := by omega
    rcases rd_bool_cases (a := s.was) hvr.1 (by rw [hw]; exact hvr.2) with hb | hb
    · obtain ⟨t, reps1, k1, k2, k3, k4, k5, k6, k7, k8⟩ :=
        ih s reps hrest hw hq hc h1 h2 h3 h4 h5
      refine ⟨t, reps1, by simp [bfs_roots, hb, k1], k2, k3, k4, k5, k6, k7, ?_⟩
      intro u hu
      rcases List.mem_cons.mp hu with rfl | hu
      · obtain ⟨r, hr1, hr2⟩ := (h4 _).mp hb
        exact (k5 _).mpr ⟨r, k7 r hr1, hr2⟩
      · exact k8 u hu
    · have hun : ¬ marked s.was (v : Int) := by
        unfold marked; rw [hb]; simp
      obtain ⟨t, j1, j2, j3, j4, j5⟩ := bfs_traverse hr fuel hf s.was s.queue (v : Int) hw hq hvr hc
      have hw1 := wr_of_lt (a := s.was) true hvr.1 (by rw [hw]; exact hvr.2)
      have hq1 := wr_of_lt (a := s.queue) (i := 0) (v : Int) (by omega)
        (by rw [hq]; omega)
      simp only [Int.toNat_zero] at hq1
      have hnot : (v : Int) ∉ reps := by
        intro hmem
        exact hun ((h4 _).mpr ⟨_, hmem, Relation.ReflTransGen.refl⟩)
      obtain ⟨t1, reps1, k1, k2, k3, k4, k5, k6, k7, k8⟩ :=
        ih ⟨t.was, t.queue, s.result + 1⟩ (reps ++ [(v : Int)]) hrest j2 j3 j4
          (by simp [h1])
          (by
            rw [List.nodup_append]
            refine ⟨h2, by simp, ?_⟩
            intro a ha hb2
            simp only [List.mem_singleton] at hb2
            subst hb2
            exact hnot ha)
          (by
            intro r hr1
            rcases List.mem_append.mp hr1 with hr1 | hr1
            · exact h3 r hr1
            · simp only [List.mem_singleton] at hr1; subst hr1; exact hvr)
          (by
            intro x
            show marked t.was x ↔ _
            rw [j5 x, h4 x]
            constructor
            · rintro (⟨r, hr1, hr2⟩ | h)
              · exact ⟨r, List.mem_append_left _ hr1, hr2⟩
              · exact ⟨_, List.mem_append_right _ (List.mem_singleton_self _), h⟩
            · rintro ⟨r, hr1, hr2⟩
              rcases List.mem_append.mp hr1 with hr1 | hr1
              · exact Or.inl ⟨r, hr1, hr2⟩
              · simp only [List.mem_singleton] at hr1; subst hr1; exact Or.inr hr2)
          (by
            intro r hr1 r1 hr2 hreach
            rcases List.mem_append.mp hr1 with hr1 | hr1
            · rcases List.mem_append.mp hr2 with hr2 | hr2
              · exact h5 r hr1 r1 hr2 hreach
              · simp only [List.mem_singleton] at hr2; subst hr2
                exact absurd ((h4 _).mpr ⟨r, hr1, hreach⟩) hun
            · simp only [List.mem_singleton] at hr1; subst hr1
              rcases List.mem_append.mp hr2 with hr2 | hr2
              · exact absurd ((h4 _).mpr ⟨r1, hr2, reach_symm hr hs hreach⟩) hun
              · simp only [List.mem_singleton] at hr2; exact hr2.symm)
      refine ⟨t1, reps1, ?_, k2, k3, k4, k5, k6,
        fun r hr1 => k7 r (List.mem_append_left _ hr1), ?_⟩
      · simp only [bfs_roots, hb, hw1, hq1, j1, k1]
      · intro u hu
        rcases List.mem_cons.mp hu with rfl | hu
        · exact (k5 _).mpr ⟨_, k7 _ (List.mem_append_right _ (List.mem_singleton_self _)),
            Relation.ReflTransGen.refl⟩
        · exact k8 u hu

/-- The final state of `nb_components_bfs_by_array` on a symmetric graph, in
terms of a list of representatives. -/
theorem bfs_by_array_reps {graph : adjlist} (hr : graph.in_range) (hs : graph.symmetric)
    (fuel : Nat) (hf : graph.get_nb_vertices ≤ fuel) :
    ∃ reps : List Int, nb_components_bfs_by_array fuel graph = some (reps.length : Int) ∧
      reps.Nodup ∧ (∀ r ∈ reps, 0 ≤ r ∧ r < (graph.get_nb_vertices : Int)) ∧
      (∀ v : Fin graph.get_nb_vertices, ∃ r ∈ reps, graph.reach r ((v : Nat) : Int)) ∧
      (∀ r ∈ reps, ∀ r1 ∈ reps, graph.reach r r1 → r = r1) := by
  obtain ⟨t, reps, k1, k2, k3, k4, k5, k6, _, k8⟩ :=
    bfs_roots_spec hr hs fuel hf (List.range graph.get_nb_vertices)
      ⟨List.replicate graph.get_nb_vertices false, List.replicate graph.get_nb_vertices 0, 0⟩ []
      (by intro v hv; exact List.mem_range.mp hv) (by simp) (by simp)
      (by intro x y hx _; exact absurd hx (rd_replicate_false _ _))
      (by simp) (by simp) (by simp)
      (by intro x; simp [rd_replicate_false]) (by simp)
  refine ⟨reps, ?_, k3, k4, ?_, k6⟩
  · simp [nb_components_bfs_by_array, k1, k2]
  · intro v
    exact (k5 _).mp (k8 v (List.mem_range.mpr v.2))

/-- A graph all of whose adjacency lists are empty connects no two distinct
identifiers. -/
theorem reach_no_edges {graph : adjlist} (he : ∀ l ∈ graph.adjlists, l = [])
    {u v : Int} (h : graph.reach u v) : u = v := by
  induction h with
  | refl => rfl
  | tail _ hbc _ =>
    obtain ⟨l, hl, hy⟩ := has_edge_iff.mp hbc
    have hm : l ∈ graph.adjlists := by
      unfold rd at hl
      split at hl
      · exact List.getElem?_mem hl
      · cases hl
    rw [he l hm] at hy
    cases hy

/-! ## C2 -/

/-- C2: on a graph whose neighbour identifiers lie in `[0, n)` and whose
adjacency is symmetric, `connected by a path` is an equivalence relation on the
`n` vertices and `nb_components_bfs_by_array` (with fuel at least `n`) returns
the number of its classes; this is `0` when there is no vertex and `n` when
there is no edge. -/
theorem nb_components_bfs_by_array_counts (graph : adjlist) (fuel : Nat)
    (hr : graph.in_range) (hs : graph.symmetric) (hf : graph.get_nb_vertices ≤ fuel) :
    Equivalence graph.connected ∧
    nb_components_bfs_by_array fuel graph
      = some ((Set.range (class_of graph.connected)).ncard : Int) ∧
    (graph.get_nb_vertices = 0 → nb_components_bfs_by_array fuel graph = some 0) ∧
    ((∀ l ∈ graph.adjlists, l = []) →
      nb_components_bfs_by_array fuel graph = some (graph.get_nb_vertices : Int)) := by
  obtain ⟨reps, k1, k2, k3, k4, k5⟩ := bfs_by_array_reps hr hs fuel hf
  have hcount := count_classes (n := graph.get_nb_vertices) graph.reach
    (fun _ _ => Relation.ReflTransGen.refl) (fun _ _ h => reach_symm hr hs h)
    (fun _ _ _ h1 h2 => Relation.ReflTransGen.trans h1 h2) reps k2 k3 k4 k5
  have hmain : nb_components_bfs_by_array fuel graph
      = some ((Set.range (class_of graph.connected)).ncard : Int) := by
    rw [k1]
    have : (Set.range (class_of graph.connected)).ncard = reps.length := hcount
    rw [this]
  refine ⟨⟨fun _ => Relation.ReflTransGen.refl, fun h => reach_symm hr hs h,
    fun h1 h2 => Relation.ReflTransGen.trans h1 h2⟩, hmain, ?_, ?_⟩
  · intro h0
    rw [k1]
    cases reps with
    | nil => rfl
    | cons r _ =>
      have := k3 r (List.mem_cons_self _ _)
      omega
  · intro he
    rw [k1]
    have hle : reps.length ≤ graph.get_nb_vertices := nodup_length_le k2 k3
    have hsub : Finset.Ico (0 : Int) graph.get_nb_vertices ⊆ reps.toFinset := by
      intro x hx
      simp only [Finset.mem_Ico] at hx
      obtain ⟨r, hr1, hr2⟩ := k4 ⟨x.toNat, by omega⟩
      have := reach_no_edges he hr2
      simp only [Int.toNat_of_nonneg hx.1] at this
      subst this
      exact List.mem_toFinset.mpr hr1
    have hge := Finset.card_le_card hsub
    rw [List.toFinset_card_of_nodup k2, Int.card_Ico] at hge
    simp only [sub_zero, Int.toNat_ofNat] at hge
    have : reps.length = graph.get_nb_vertices := by omega
    rw [this]

/-- C2 on the path `0 - 1` with the isolated vertex `2`: two components. -/
theorem nb_components_bfs_by_array_counts_witness :
    nb_components_bfs_by_array 3 ⟨[[1], [0], []], 2⟩ = some 2 ∧
    nb_components_bfs_by_array 3 ⟨[[1], [0], []], 2⟩
      = some ((Set.range (class_of (adjlist.connected ⟨[[1], [0], []], 2⟩))).ncard : Int) :=
  ⟨by decide,
   (nb_components_bfs_by_array_counts ⟨[[1], [0], []], 2⟩ 3
      (by decide) (by decide) (by decide)).2.1⟩

/-! ## `get_parent` and `unite` -/

theorem Root.is_root {P : List Int} {x r : Int} (h : Root P x r) : rd P r = some r := by
  induction h with
  | base h => exact h
  | step _ _ _ ih => exact ih

theorem Root.unique {P : List Int} {x r r1 : Int} (h : Root P x r) (h1 : Root P x r1) :
    r = r1 := by
  induction h with
  | base hr =>
    cases h1 with
    | base _ => rfl
    | step hp hne _ =>
      rw [hr] at hp
      simp only [Option.some.injEq] at hp
      exact absurd hp.symm hne
  | step hp hne _ ih =>
    cases h1 with
    | base hr =>
      rw [hr] at hp
      simp only [Option.some.injEq] at hp
      exact absurd hp.symm hne
    | step hp1 _ hroot =>
      rw [hp] at hp1
      simp only [Option.some.injEq] at hp1
      subst hp1
      exact ih hroot

theorem Root.rank_le {n : Nat} {P : List Int} {rk : Int → Nat} (hf : forest n P rk)
    {x r : Int} (h : Root P x r) : rk x ≤ rk r := by
  induction h with
  | base _ => exact Nat.le_refl _
  | step hp hne _ ih => exact Nat.le_trans (Nat.le_of_lt (hf.2.2 _ _ hp hne)) ih

theorem Root.rank_lt {n : Nat} {P : List Int} {rk : Int → Nat} (hf : forest n P rk)
    {x r : Int} (h : Root P x r) (hne : r ≠ x) : rk x < rk r := by
  cases h with
  | base _ => exact absurd rfl hne
  | step hp hne1 hroot => exact Nat.lt_of_lt_of_le (hf.2.2 _ _ hp hne1) (hroot.rank_le hf)

theorem Root.range {n : Nat} {P : List Int} {rk : Int → Nat} (hf : forest n P rk)
    {x r : Int} (h : Root P x r) : 0 ≤ r ∧ r < (n : Int) :=
  hf.2.1 _ _ h.is_root

/-- Path compression keeps the representative of every entry. -/
theorem compressed_root {P P1 : List Int} (hc : compressed P P1) {y r : Int} :
    Root P1 y r ↔ Root P y r := by
  constructor
  · intro h
    induction h with
    | base hr => exact Root.base ((hc.2.1 _).mp hr)
    | step hp hne _ ih =>
      rcases hc.2.2 _ _ hp with h1 | ⟨h1, _⟩
      · exact Root.step h1 hne ih
      · have := Root.unique (Root.base h1.is_root) ih
        subst this
        exact h1
  · intro h
    induction h with
    | base hr => exact Root.base ((hc.2.1 _).mpr hr)
    | @step x p r hp hne hroot ih =>
      obtain ⟨h0, h1⟩ := rd_eq_some_lt hp
      obtain ⟨q, hq⟩ := rd_of_lt (a := P1) h0 (by rw [hc.1]; exact h1)
      rcases hc.2.2 _ _ hq with h2 | ⟨h2, hne2⟩
      · rw [hp] at h2
        simp only [Option.some.injEq] at h2
        subst h2
        exact Root.step hq hne ih
      · have := Root.unique h2 (Root.step hp hne hroot)
        subst this
        exact Root.step hq hne2 (Root.base ((hc.2.1 _).mpr hroot.is_root))

theorem compressed_refl (P : List Int) : compressed P P :=
  ⟨rfl, fun _ => Iff.rfl, fun _ _ h => Or.inl h⟩

theorem compressed_trans {P P1 P2 : List Int} (h1 : compressed P P1)
    (h2 : compressed P1 P2) : compressed P P2 := by
  refine ⟨h2.1.trans h1.1, fun y => (h2.2.1 y).trans (h1.2.1 y), ?_⟩
  intro y p hp
  rcases h2.2.2 y p hp with h | ⟨h, hne⟩
  · exact h1.2.2 y p h
  · exact Or.inr ⟨(compressed_root h1).mp h, hne⟩

theorem compressed_forest {n : Nat} {P P1 : List Int} {rk : Int → Nat}
    (hf : forest n P rk) (hc : compressed P P1) : forest n P1 rk := by
  refine ⟨hc.1.trans hf.1, ?_, ?_⟩
  · intro x p hp
    rcases hc.2.2 x p hp with h | ⟨h, _⟩
    · exact hf.2.1 x p h
    · exact h.range hf
  · intro x p hp hne
    rcases hc.2.2 x p hp with h | ⟨h, _⟩
    · exact hf.2.2 x p h hne
    · exact h.rank_lt hf hne

/-- With a rank bounded by `B`, `get_parent` needs at most `B - rk vertex + 1`
nested calls; it returns the representative and compresses the array. -/
theorem get_parent_spec {n : Nat} {rk : Int → Nat} (B : Nat)
    (hB : ∀ x, 0 ≤ x ∧ x < (n : Int) → rk x ≤ B) :
    ∀ (fuel : Nat) (P : List Int) (x : Int), forest n P rk →
    0 ≤ x ∧ x < (n : Int) → B - rk x < fuel →
    ∃ P1 r, get_parent fuel P x = some (P1, r) ∧ Root P x r ∧ compressed P P1 := by
  intro fuel
  induction fuel with
  | zero => intro P x _ _ h; omega
  | succ fuel ih =>
    intro P x hf hx hfuel
    obtain ⟨p, hp⟩ := rd_of_lt (a := P) hx.1 (by rw [hf.1]; exact hx.2)
    have hpr := hf.2.1 x p hp
    by_cases hpx : p = x
    · subst hpx
      exact ⟨P, p, by simp [get_parent, hp], Root.base hp, compressed_refl P⟩
    · have hlt := hf.2.2 x p hp hpx
      have hBp := hB p hpr
      obtain ⟨P1, r, h1, h2, h3⟩ := ih P p hf hpr (by omega)
      have hw := wr_of_lt (a := P1) r hx.1 (by rw [h3.1, hf.1]; exact hx.2)
      have hrx : r ≠ x := by
        intro h
        have := h2.rank_le hf
        rw [h] at this
        omega
      refine ⟨P1.set x.toNat r, r, ?_, Root.step hp hpx h2, ?_⟩
      · simp [get_parent, hp, hpx, h1, hw, rd_wr_same hw]
      · refine ⟨by simp [h3.1], ?_, ?_⟩
        · intro y
          by_cases hy : y = x
          · subst hy
            rw [rd_wr_same hw, hp]
            simp only [Option.some.injEq]
            constructor
            · intro h; exact absurd h hrx
            · intro h; exact absurd h hpx
          · rw [rd_wr_other hw hy]; exact h3.2.1 y
        · intro y q hq
          by_cases hy : y = x
          · subst hy
            rw [rd_wr_same hw] at hq
            simp only [Option.some.injEq] at hq
            subst hq
            exact Or.inr ⟨Root.step hp hpx h2, hrx⟩
          · rw [rd_wr_other hw hy] at hq
            exact h3.2.2 y q hq

/-- A rank can be replaced by one that is smaller than `n` on `[0, n)`. -/
theorem rank_compress (n : Nat) (rk : Int → Nat) :
    ∃ rk1 : Int → Nat, (∀ x, 0 ≤ x ∧ x < (n : Int) → rk1 x ≤ n - 1) ∧
      (∀ x y, 0 ≤ x ∧ x < (n : Int) → rk x < rk y → rk1 x < rk1 y) := by
  refine ⟨fun x => ((Finset.Ico (0 : Int) n).filter (fun y => rk y < rk x)).card, ?_, ?_⟩
  · intro x hx
    have hss : (Finset.Ico (0 : Int) n).filter (fun y => rk y < rk x) ⊂ Finset.Ico (0 : Int) n := by
      rw [Finset.ssubset_iff_of_subset (Finset.filter_subset _ _)]
      exact ⟨x, by simp [Finset.mem_Ico, hx.1, hx.2], by simp⟩
    have := Finset.card_lt_card hss
    rw [Int.card_Ico] at this
    simp only [sub_zero, Int.toNat_ofNat] at this
    show ((Finset.Ico (0 : Int) n).filter (fun y => rk y < rk x)).card ≤ n - 1
    omega
  · intro x y hx hxy
    show ((Finset.Ico (0 : Int) n).filter (fun z => rk z < rk x)).card
      < ((Finset.Ico (0 : Int) n).filter (fun z => rk z < rk y)).card
    apply Finset.card_lt_card
    rw [Finset.ssubset_iff_of_subset]
    · exact ⟨x, by simp [Finset.mem_Ico, hx.1, hx.2, hxy], by simp⟩
    · intro z hz
      simp only [Finset.mem_filter] at hz ⊢
      exact ⟨hz.1, Nat.lt_trans hz.2 hxy⟩

/-- In a forest on `[0, n)`, `get_parent` with fuel `n` returns the
representative and compresses the array. -/
theorem get_parent_total {n : Nat} {rk : Int → Nat} (fuel : Nat) (hfuel : n ≤ fuel)
    (P : List Int) (x : Int) (hf : forest n P rk) (hx : 0 ≤ x ∧ x < (n : Int)) :
    ∃ P1 r, get_parent fuel P x = some (P1, r) ∧ Root P x r ∧ compressed P P1 := by
  obtain ⟨rk1, hb, hmono⟩ := rank_compress n rk
  have hf1 : forest n P rk1 := by
    refine ⟨hf.1, hf.2.1, ?_⟩
    intro y p hp hne
    obtain ⟨h0, h1⟩ := rd_eq_some_lt hp
    exact hmono y p ⟨h0, by rw [hf.1] at h1; exact h1⟩ (hf.2.2 y p hp hne)
  have := hb x hx
  exact get_parent_spec (n - 1) hb fuel P x hf1 hx (by omega)

/-- Linking the representative `v1` below a different representative `u1`:
the entries that had `v1` as representative now have `u1`, all others keep
theirs, and the result is again a forest. -/
theorem link_spec {n : Nat} {rk : Int → Nat} {P P1 : List Int} {v1 u1 : Int}
    (hf : forest n P rk) (hv : rd P v1 = some v1) (hu : rd P u1 = some u1)
    (hne : v1 ≠ u1) (hw : wr P v1 u1 = some P1) :
    (∃ rk1, forest n P1 rk1) ∧
    (∀ y r, Root P1 y r ↔ (Root P y r ∧ r ≠ v1) ∨ (Root P y v1 ∧ r = u1)) ∧
    (∀ y, rd P1 y = some y ↔ rd P y = some y ∧ y ≠ v1) := by
  classical
  have hroots : ∀ y, rd P1 y = some y ↔ rd P y = some y ∧ y ≠ v1 := by
    intro y
    by_cases hy : y = v1
    · subst hy
      rw [rd_wr_same hw]
      simp only [Option.some.injEq, ne_eq, not_true_eq_false, and_false, iff_false]
      exact fun h => hne h.symm
    · rw [rd_wr_other hw hy]; simp [hy]
  have hu1 : rd P1 u1 = some u1 := (hroots u1).mpr ⟨hu, fun h => hne h.symm⟩
  refine ⟨⟨fun y => if Root P y u1 then rk y + rk v1 + 1 else rk y, ?_, ?_, ?_⟩, ?_, hroots⟩
  · rw [wr_length hw]; exact hf.1
  · intro x p hp
    by_cases hx : x = v1
    · subst hx
      rw [rd_wr_same hw] at hp
      simp only [Option.some.injEq] at hp
      subst hp
      exact hf.2.1 _ _ hu
    · rw [rd_wr_other hw hx] at hp
      exact hf.2.1 x p hp
  · intro x p hp hpx
    by_cases hx : x = v1
    · subst hx
      rw [rd_wr_same hw] at hp
      simp only [Option.some.injEq] at hp
      subst hp
      have h1 : ¬ Root P x u1 := fun h => hne (Root.unique (Root.base hv) h)
      have h2 : Root P u1 u1 := Root.base hu
      simp only [h1, h2, if_true, if_false]
      omega
    · rw [rd_wr_other hw hx] at hp
      have hlt := hf.2.2 x p hp hpx
      have hiff : Root P x u1 ↔ Root P p u1 := by
        constructor
        · intro h
          cases h with
          | base hr =>
            rw [hr] at hp
            simp only [Option.some.injEq] at hp
            exact absurd hp.symm hpx
          | step hp1 _ hroot =>
            rw [hp] at hp1
            simp only [Option.some.injEq] at hp1
            subst hp1
            exact hroot
        · intro h; exact Root.step hp hpx h
      by_cases h : Root P p u1
      · simp only [hiff.mpr h, h, if_true]; omega
      · have hx1 : ¬ Root P x u1 := fun h1 => h (hiff.mp h1)
        simp only [hx1, h, if_false]; exact hlt
  · intro y r
    constructor
    · intro h
      induction h with
      | @base r hr =>
        have := (hroots r).mp hr
        exact Or.inl ⟨Root.base this.1, this.2⟩
      | @step x p r hp hpx _ ih =>
        by_cases hx : x = v1
        · subst hx
          rw [rd_wr_same hw] at hp
          simp only [Option.some.injEq] at hp
          subst hp
          rcases ih with ⟨h1, _⟩ | ⟨h1, _⟩
          · have := Root.unique (Root.base hu) h1
            exact Or.inr ⟨Root.base hv, this.symm⟩
          · exact absurd (Root.unique (Root.base hu) h1).symm hne
        · rw [rd_wr_other hw hx] at hp
          rcases ih with ⟨h1, h2⟩ | ⟨h1, h2⟩
          · exact Or.inl ⟨Root.step hp hpx h1, h2⟩
          · exact Or.inr ⟨Root.step hp hpx h1, h2⟩
    · have key : ∀ y r, Root P y r →
          (r ≠ v1 → Root P1 y r) ∧ (r = v1 → Root P1 y u1) := by
        intro y r h
        induction h with
        | @base r hr =>
          constructor
          · intro h1; exact Root.base ((hroots r).mpr ⟨hr, h1⟩)
          · intro h1; subst h1
            exact Root.step (rd_wr_same hw) (fun h => hne h.symm) (Root.base hu1)
        | @step x p r hp hpx _ ih =>
          have hx : x ≠ v1 := by
            intro h; subst h
            rw [hv] at hp
            simp only [Option.some.injEq] at hp
            exact hpx hp.symm
          have hp1 : rd P1 x = some p := by rw [rd_wr_other hw hx]; exact hp
          exact ⟨fun h1 => Root.step hp1 hpx (ih.1 h1), fun h1 => Root.step hp1 hpx (ih.2 h1)⟩
      rintro (⟨h1, h2⟩ | ⟨h1, h2⟩)
      · exact (key y r h1).1 h2
      · subst h2; exact (key y v1 h1).2 rfl

/-- The function `unite` on a forest, with fuel at least `n`: it returns
`false` and keeps all representatives when both arguments have the same
representative, and otherwise returns `true` and links the representative of
the first below that of the second. -/
theorem unite_spec {n : Nat} {rk : Int → Nat} (fuel : Nat) (hfuel : n ≤ fuel)
    (P : List Int) (a b : Int) (hf : forest n P rk)
    (ha : 0 ≤ a ∧ a < (n : Int)) (hb : 0 ≤ b ∧ b < (n : Int)) :
    ∃ P1 ok ra rb, unite fuel P a b = some (P1, ok) ∧ (∃ rk1, forest n P1 rk1) ∧
      Root P a ra ∧ Root P b rb ∧
      (ok = false → ra = rb ∧ (∀ y r, Root P1 y r ↔ Root P y r) ∧
        (∀ y, rd P1 y = some y ↔ rd P y = some y)) ∧
      (ok = true → ra ≠ rb ∧
        (∀ y r, Root P1 y r ↔ (Root P y r ∧ r ≠ ra) ∨ (Root P y ra ∧ r = rb)) ∧
        (∀ y, rd P1 y = some y ↔ rd P y = some y ∧ y ≠ ra)) := by
  obtain ⟨Pa, ra, h1, h2, h3⟩ := get_parent_total fuel hfuel P a hf ha
  have hfa := compressed_forest hf h3
  obtain ⟨Pb, rb, k1, k2, k3⟩ := get_parent_total fuel hfuel Pa b hfa hb
  have hfb := compressed_forest hfa k3
  have hc := compressed_trans h3 k3
  have k2' : Root P b rb := (compressed_root h3).mp k2
  by_cases he : ra = rb
  · refine ⟨Pb, false, ra, rb, by simp [unite, h1, k1, he], ⟨rk, hfb⟩, h2, k2', ?_, ?_⟩
    · intro _
      exact ⟨he, fun y r => compressed_root hc, hc.2.1⟩
    · intro h; cases h
  · have hra : rd Pb ra = some ra := (hc.2.1 _).mpr h2.is_root
    have hrb : rd Pb rb = some rb := (hc.2.1 _).mpr k2'.is_root
    obtain ⟨r0, r1⟩ := rd_eq_some_lt hra
    have hw := wr_of_lt (a := Pb) rb r0 r1
    obtain ⟨l1, l2, l3⟩ := link_spec hfb hra hrb he hw
    refine ⟨Pb.set ra.toNat rb, true, ra, rb, by simp [unite, h1, k1, he, hw], l1, h2, k2',
      ?_, ?_⟩
    · intro h; cases h
    · intro _
      refine ⟨he, ?_, ?_⟩
      · intro y r
        rw [l2 y r, compressed_root hc, compressed_root hc]
      · intro y
        rw [l3 y, hc.2.1 y]

/-! ## The loop over the edges of `nb_components_disjoint_set_union` -/

theorem root_exists {n : Nat} {rk : Int → Nat} {P : List Int} (hf : forest n P rk)
    {x : Int} (hx : 0 ≤ x ∧ x < (n : Int)) : ∃ r, Root P x r := by
  obtain ⟨_, r, _, h, _⟩ := get_parent_total n (Nat.le_refl n) P x hf hx
  exact ⟨r, h⟩

theorem edge_rel_of_append {n : Nat} (es : List edge) (e : edge) (u v : Fin n) :
    edge_rel_of n (es ++ [e]) u v ↔
      edge_rel_of n es u v ∨ (e.src = ((u : Nat) : Int) ∧ e.dst = ((v : Nat) : Int)) := by
  unfold edge_rel_of
  constructor
  · rintro ⟨e1, he1, h⟩
    rcases List.mem_append.mp he1 with h1 | h1
    · exact Or.inl ⟨e1, h1, h⟩
    · simp only [List.mem_singleton] at h1
      subst h1
      exact Or.inr h
  · rintro (⟨e1, he1, h⟩ | h)
    · exact ⟨e1, List.mem_append_left _ he1, h⟩
    · exact ⟨e, List.mem_append_right _ (List.mem_singleton_self _), h⟩

/-- Having a common representative is the equivalence generated by the edges
processed so far; this survives one more call of `unite`. -/
theorem unite_classes {n : Nat} {P P1 : List Int} {rk : Int → Nat} (hf : forest n P rk)
    (es : List edge) (e : edge)
    (ha : 0 ≤ e.src ∧ e.src < (n : Int)) (hb : 0 ≤ e.dst ∧ e.dst < (n : Int))
    (hinv : ∀ x y : Fin n, (∃ r, Root P ((x : Nat) : Int) r ∧ Root P ((y : Nat) : Int) r) ↔
      Relation.EqvGen (edge_rel_of n es) x y)
    {ra rb : Int} (hra : Root P e.src ra) (hrb : Root P e.dst rb)
    (hroot : (ra = rb ∧ ∀ y r, Root P1 y r ↔ Root P y r) ∨
      (ra ≠ rb ∧ ∀ y r, Root P1 y r ↔ (Root P y r ∧ r ≠ ra) ∨ (Root P y ra ∧ r = rb))) :
    ∀ x y : Fin n, (∃ r, Root P1 ((x : Nat) : Int) r ∧ Root P1 ((y : Nat) : Int) r) ↔
      Relation.EqvGen (edge_rel_of n (es ++ [e])) x y := by
  have hmono : ∀ x y : Fin n, Relation.EqvGen (edge_rel_of n es) x y →
      Relation.EqvGen (edge_rel_of n (es ++ [e])) x y := by
    intro x y h
    exact Relation.EqvGen.mono (fun u v huv => (edge_rel_of_append es e u v).mpr (Or.inl huv)) h
  -- the old relation is contained in the new one
  have hold : ∀ x y : Int, (∃ r, Root P x r ∧ Root P y r) →
      ∃ r, Root P1 x r ∧ Root P1 y r := by
    rintro x y ⟨r, h1, h2⟩
    rcases hroot with ⟨_, hr⟩ | ⟨_, hr⟩
    · exact ⟨r, (hr _ _).mpr h1, (hr _ _).mpr h2⟩
    · by_cases h : r = ra
      · subst h
        exact ⟨rb, (hr _ _).mpr (Or.inr ⟨h1, rfl⟩), (hr _ _).mpr (Or.inr ⟨h2, rfl⟩)⟩
      · exact ⟨r, (hr _ _).mpr (Or.inl ⟨h1, h⟩), (hr _ _).mpr (Or.inl ⟨h2, h⟩)⟩
  have hunique : ∀ x r r1, Root P1 x r → Root P1 x r1 → r = r1 :=
    fun _ _ _ h h1 => Root.unique h h1
  have hnew : ∃ r, Root P1 e.src r ∧ Root P1 e.dst r := by
    rcases hroot with ⟨he, hr⟩ | ⟨he, hr⟩
    · exact ⟨rb, (hr _ _).mpr (he ▸ hra), (hr _ _).mpr hrb⟩
    · exact ⟨rb, (hr _ _).mpr (Or.inr ⟨hra, rfl⟩),
        (hr _ _).mpr (Or.inl ⟨hrb, fun h => he h.symm⟩)⟩
  let fa : Fin n := ⟨e.src.toNat, by omega⟩
  let fb : Fin n := ⟨e.dst.toNat, by omega⟩
  have hfa : ((fa : Nat) : Int) = e.src := Int.toNat_of_nonneg ha.1
  have hfb : ((fb : Nat) : Int) = e.dst := Int.toNat_of_nonneg hb.1
  have hedge : Relation.EqvGen (edge_rel_of n (es ++ [e])) fa fb :=
    Relation.EqvGen.rel _ _ ((edge_rel_of_append es e fa fb).mpr (Or.inr ⟨hfa.symm, hfb.symm⟩))
  intro x y
  constructor
  · rintro ⟨r, h1, h2⟩
    rcases hroot with ⟨_, hr⟩ | ⟨he, hr⟩
    · exact hmono x y ((hinv x y).mp ⟨r, (hr _ _).mp h1, (hr _ _).mp h2⟩)
    · have toA : ∀ z : Fin n, Root P ((z : Nat) : Int) ra →
          Relation.EqvGen (edge_rel_of n (es ++ [e])) z fa := by
        intro z hz
        exact hmono z fa ((hinv z fa).mp ⟨ra, hz, by rw [hfa]; exact hra⟩)
      have toB : ∀ z : Fin n, Root P ((z : Nat) : Int) rb →
          Relation.EqvGen (edge_rel_of n (es ++ [e])) z fb := by
        intro z hz
        exact hmono z fb ((hinv z fb).mp ⟨rb, hz, by rw [hfb]; exact hrb⟩)
      rcases (hr _ _).mp h1 with ⟨p1, p2⟩ | ⟨p1, p2⟩
      · rcases (hr _ _).mp h2 with ⟨q1, _⟩ | ⟨q1, q2⟩
        · exact hmono x y ((hinv x y).mp ⟨r, p1, q1⟩)
        · subst q2
          exact Relation.EqvGen.trans _ _ _ (toB x p1)
            (Relation.EqvGen.trans _ _ _ (Relation.EqvGen.symm _ _ hedge)
              (Relation.EqvGen.symm _ _ (toA y q1)))
      · rcases (hr _ _).mp h2 with ⟨q1, _⟩ | ⟨q1, _⟩
        · subst p2
          exact Relation.EqvGen.trans _ _ _ (toA x p1)
            (Relation.EqvGen.trans _ _ _ hedge (Relation.EqvGen.symm _ _ (toB y q1)))
        · exact hmono x y ((hinv x y).mp ⟨ra, p1, q1⟩)
  · intro h
    induction h with
    | rel u v huv =>
      rcases (edge_rel_of_append es e u v).mp huv with h1 | ⟨h1, h2⟩
      · exact hold _ _ ((hinv u v).mpr (Relation.EqvGen.rel _ _ h1))
      · rw [← h1, ← h2]; exact hnew
    | refl u =>
      obtain ⟨r, hr⟩ := root_exists hf (x := ((u : Nat) : Int)) (by omega)
      exact hold _ _ ⟨r, hr, hr⟩
    | symm u v _ ih =>
      obtain ⟨r, h1, h2⟩ := ih
      exact ⟨r, h2, h1⟩
    | trans u v w _ _ ih1 ih2 =>
      obtain ⟨r, h1, h2⟩ := ih1
      obtain ⟨r1, h3, h4⟩ := ih2
      have := hunique _ _ _ h2 h3
      subst this
      exact ⟨r, h1, h4⟩

/-- The loop over the edges keeps: `parent` is a forest, `result` is the number
of representatives and `n` minus the number of `true` flags, and having a common
representative is the equivalence generated by the edges processed. -/
theorem dsu_edges_spec {n : Nat} (fuel : Nat) (hfuel : n ≤ fuel) :
    ∀ (rest : List edge) (s : DsuState) (es : List edge),
    (∀ e ∈ rest, (0 ≤ e.src ∧ e.src < (n : Int)) ∧ (0 ≤ e.dst ∧ e.dst < (n : Int))) →
    (∃ rk, forest n s.parent rk) →
    s.result = (((Finset.Ico (0 : Int) n).filter (fun y => rd s.parent y = some y)).card : Int) →
    s.result = (n : Int) - (s.united.count true : Int) →
    s.united.length = es.length →
    (∀ x y : Fin n,
      (∃ r, Root s.parent ((x : Nat) : Int) r ∧ Root s.parent ((y : Nat) : Int) r) ↔
        Relation.EqvGen (edge_rel_of n es) x y) →
    ∃ t, dsu_edges fuel rest s = some t ∧ (∃ rk, forest n t.parent rk) ∧
      t.result = (((Finset.Ico (0 : Int) n).filter (fun y => rd t.parent y = some y)).card : Int) ∧
      t.result = (n : Int) - (t.united.count true : Int) ∧
      t.united.length = (es ++ rest).length ∧
      (∀ x y : Fin n,
        (∃ r, Root t.parent ((x : Nat) : Int) r ∧ Root t.parent ((y : Nat) : Int) r) ↔
          Relation.EqvGen (edge_rel_of n (es ++ rest)) x y) := by
  intro rest
  induction rest with
  | nil =>
    intro s es _ h1 h2 h3 h4 h5
    exact ⟨s, by simp [dsu_edges], h1, h2, h3, by simpa using h4, by simpa using h5⟩
  | cons e rest ih =>
    intro s es hr h1 h2 h3 h4 h5
    obtain ⟨rk, hf⟩ := h1
    obtain ⟨ha, hb⟩ := hr e (List.mem_cons_self _ _)
    have hrest := fun e1 (h : e1 ∈ rest) => hr e1 (List.mem_cons_of_mem _ h)
    obtain ⟨P1, ok, ra, rb, k1, k2, k3, k4, k5, k6⟩ :=
      unite_spec fuel hfuel s.parent e.src e.dst hf ha hb
    cases ok with
    | false =>
      obtain ⟨he, hroot, hroots⟩ := k5 rfl
      obtain ⟨t, j1, j2, j3, j4, j5, j6⟩ :=
        ih ⟨P1, s.result, s.united ++ [false]⟩ (es ++ [e]) hrest k2
          (by
            show s.result = _
            rw [h2]
            congr 2
            apply Finset.filter_congr
            intro y _
            exact (hroots y).symm)
          (by simpa using h3) (by simp [h4])
          (unite_classes hf es e ha hb h5 k3 k4 (Or.inl ⟨he, hroot⟩))
      refine ⟨t, by simp [dsu_edges, k1, j1], j2, j3, j4, by simpa using j5, ?_⟩
      simpa using j6
    | true =>
      obtain ⟨he, hroot, hroots⟩ := k6 rfl
      have hmem : ra ∈ (Finset.Ico (0 : Int) n).filter (fun y => rd s.parent y = some y) := by
        have := k3.range hf
        simp [Finset.mem_Ico, this.1, this.2, k3.is_root]
      have herase : (Finset.Ico (0 : Int) n).filter (fun y => rd P1 y = some y)
          = ((Finset.Ico (0 : Int) n).filter (fun y => rd s.parent y = some y)).erase ra := by
        ext y
        simp only [Finset.mem_filter, Finset.mem_erase, hroots y]
        tauto
      have hpos := Finset.card_pos.mpr ⟨ra, hmem⟩
      obtain ⟨t, j1, j2, j3, j4, j5, j6⟩ :=
        ih ⟨P1, s.result - 1, s.united ++ [true]⟩ (es ++ [e]) hrest k2
          (by
            show s.result - 1 = _
            rw [herase, Finset.card_erase_of_mem hmem, h2]
            omega)
          (by
            show s.result - 1 = _
            rw [h3]
            simp only [List.count_append, List.count_singleton, Nat.cast_add]
            simp only [beq_self_eq_true, if_true, Nat.cast_one]
            omega)
          (by simp [h4])
          (unite_classes hf es e ha hb h5 k3 k4 (Or.inr ⟨he, hroot⟩))
      refine ⟨t, by simp [dsu_edges, k1, j1], j2, j3, j4, by simpa using j5, ?_⟩
      simpa using j6

/-! ## C3 -/

theorem rd_identity {n : Nat} {x p : Int}
    (h : rd (List.map (fun i : Nat => (i : Int)) (List.range n)) x = some p) : p = x := by
  unfold rd at h
  split at h
  · rename_i h0
    rw [List.getElem?_map] at h
    obtain ⟨i, hi, hp⟩ := Option.map_eq_some'.mp h
    have := List.getElem?_eq_some_iff.mp hi
    obtain ⟨_, hi⟩ := this
    rw [List.getElem_range] at hi
    omega
  · cases h

/-- The state of `nb_components_disjoint_set_union` after its loop, with fuel
at least `n` and edge endpoints in `[0, n)`. -/
theorem dsu_run_spec (graph : edgelist) (fuel : Nat)
    (hr : graph.in_range) (hfuel : graph.nb_vertices ≤ fuel) :
    ∃ s, dsu_run fuel graph = some s ∧
      s.result = ((Set.range (class_of graph.connected)).ncard : Int) ∧
      s.united.length = graph.edges.length ∧
      s.result = (graph.nb_vertices : Int) - (s.united.count true : Int) := by
  have hlen : (List.map (fun i : Nat => (i : Int)) (List.range graph.nb_vertices)).length
      = graph.nb_vertices := by simp
  have hf0 : forest graph.nb_vertices (List.map (fun i : Nat => (i : Int)) (List.range graph.nb_vertices))
      (fun _ => 0) := by
    refine ⟨hlen, ?_, ?_⟩
    · intro x p hp
      have := rd_identity hp
      subst this
      have := rd_eq_some_lt hp
      rw [hlen] at this
      exact this
    · intro x p hp hne
      exact absurd (rd_identity hp) hne
  have hself : ∀ x : Int, 0 ≤ x ∧ x < (graph.nb_vertices : Int) →
      rd (List.map (fun i : Nat => (i : Int)) (List.range graph.nb_vertices)) x = some x := by
    intro x hx
    obtain ⟨p, hp⟩ := rd_of_lt (a := List.map (fun i : Nat => (i : Int)) (List.range graph.nb_vertices))
      hx.1 (by rw [hlen]; exact hx.2)
    rw [hp, rd_identity hp]
  obtain ⟨t, j1, j2, j3, j4, j5, j6⟩ :=
    dsu_edges_spec fuel hfuel graph.edges
      ⟨List.map (fun i : Nat => (i : Int)) (List.range graph.nb_vertices), (graph.nb_vertices : Int), []⟩ []
      hr ⟨_, hf0⟩
      (by
        show (graph.nb_vertices : Int) = _
        have : (Finset.Ico (0 : Int) graph.nb_vertices).filter
            (fun y => rd (List.map (fun i : Nat => (i : Int)) (List.range graph.nb_vertices)) y = some y)
            = Finset.Ico (0 : Int) graph.nb_vertices := by
          apply Finset.filter_true_of_mem
          intro y hy
          simp only [Finset.mem_Ico] at hy
          exact hself y hy
        rw [this, Int.card_Ico]
        simp)
      (by simp) (by simp)
      (by
        intro x y
        constructor
        · rintro ⟨r, h1, h2⟩
          have e1 := Root.unique h1 (Root.base (hself _ (by omega)))
          have e2 := Root.unique h2 (Root.base (hself _ (by omega)))
          have : x = y := by
            apply Fin.ext
            omega
          subst this
          exact Relation.EqvGen.refl _
        · intro h
          induction h with
          | rel u v huv =>
            obtain ⟨e, he, _⟩ := huv
            cases he
          | refl u => exact ⟨_, Root.base (hself _ (by omega)), Root.base (hself _ (by omega))⟩
          | symm u v _ ih =>
            obtain ⟨r, h1, h2⟩ := ih
            exact ⟨r, h2, h1⟩
          | trans u v w _ _ ih1 ih2 =>
            obtain ⟨r, h1, h2⟩ := ih1
            obtain ⟨r1, h3, h4⟩ := ih2
            have := Root.unique h2 h3
            subst this
            exact ⟨r, h1, h4⟩)
  obtain ⟨rk, hf⟩ := j2
  simp only [List.nil_append] at j5 j6
  have hcount := count_classes (n := graph.nb_vertices)
    (fun x y : Int => ∃ r, Root t.parent x r ∧ Root t.parent y r)
    (fun x hx => by
      obtain ⟨r, h⟩ := root_exists hf hx
      exact ⟨r, h, h⟩)
    (fun x y h => by
      obtain ⟨r, h1, h2⟩ := h
      exact ⟨r, h2, h1⟩)
    (fun x y z h k => by
      obtain ⟨r, h1, h2⟩ := h
      obtain ⟨r1, h3, h4⟩ := k
      have := Root.unique h2 h3
      subst this
      exact ⟨r, h1, h4⟩)
    ((Finset.Ico (0 : Int) graph.nb_vertices).filter (fun y => rd t.parent y = some y)).toList
    (Finset.nodup_toList _)
    (by
      intro r hr1
      simp only [Finset.mem_toList, Finset.mem_filter, Finset.mem_Ico] at hr1
      exact hr1.1)
    (by
      intro v
      obtain ⟨r, h⟩ := root_exists hf (x := ((v : Nat) : Int)) (by omega)
      have hrange := h.range hf
      refine ⟨r, ?_, r, Root.base h.is_root, h⟩
      simp only [Finset.mem_toList, Finset.mem_filter, Finset.mem_Ico]
      exact ⟨hrange, h.is_root⟩)
    (by
      intro r hr1 r1 hr2 h
      simp only [Finset.mem_toList, Finset.mem_filter, Finset.mem_Ico] at hr1 hr2
      obtain ⟨q, h1, h2⟩ := h
      have e1 := Root.unique h1 (Root.base hr1.2)
      have e2 := Root.unique h2 (Root.base hr2.2)
      rw [← e1, ← e2])
  have hrel : (fun u v : Fin graph.nb_vertices =>
      ∃ r, Root t.parent ((u : Nat) : Int) r ∧ Root t.parent ((v : Nat) : Int) r)
      = graph.connected := by
    funext u v
    exact propext (j6 u v)
  refine ⟨t, j1, ?_, j5, j4⟩
  rw [j3, ← hrel, hcount, Finset.length_toList]

/-- An edge between two vertices that are already connected does not change
the generated equivalence. -/
theorem redundant_edge {n : Nat} (es : List edge) (u v : Fin n)
    (h : Relation.EqvGen (edge_rel_of n es) u v) (x y : Fin n) :
    Relation.EqvGen (edge_rel_of n (es ++ [⟨((u : Nat) : Int), ((v : Nat) : Int)⟩])) x y ↔
      Relation.EqvGen (edge_rel_of n es) x y := by
  constructor
  · intro hxy
    induction hxy with
    | rel a b hab =>
      rcases (edge_rel_of_append es _ a b).mp hab with h1 | ⟨h1, h2⟩
      · exact Relation.EqvGen.rel _ _ h1
      · have ha : u = a := Fin.ext (by simp only at h1; omega)
        have hb : v = b := Fin.ext (by simp only at h2; omega)
        rw [← ha, ← hb]; exact h
    | refl a => exact Relation.EqvGen.refl _
    | symm a b _ ih => exact Relation.EqvGen.symm _ _ ih
    | trans a b c _ _ ih1 ih2 => exact Relation.EqvGen.trans _ _ _ ih1 ih2
  · intro hxy
    exact Relation.EqvGen.mono
      (fun a b hab => (edge_rel_of_append es _ a b).mpr (Or.inl hab)) hxy

/-- C3: with edge endpoints in `[0, n)` and fuel at least `n`,
`nb_components_disjoint_set_union` returns the number of classes of the
reflexive-symmetric-transitive closure of the edge relation on the `n`
vertices, and that value is `n` minus the number of edges for which `unite`
returned `true`; a further edge between two vertices that are already
connected (a self-loop, a repeated edge, a redundant edge) does not change the
result. -/
theorem nb_components_disjoint_set_union_counts (graph : edgelist) (fuel : Nat)
    (hr : graph.in_range) (hfuel : graph.nb_vertices ≤ fuel) :
    (∃ s, dsu_run fuel graph = some s ∧
      nb_components_disjoint_set_union fuel graph
        = some ((Set.range (class_of graph.connected)).ncard : Int) ∧
      s.united.length = graph.edges.length ∧
      ((Set.range (class_of graph.connected)).ncard : Int)
        = (graph.nb_vertices : Int) - (s.united.count true : Int)) ∧
    (∀ u v : Fin graph.nb_vertices, graph.connected u v →
      nb_components_disjoint_set_union fuel
          ⟨graph.nb_vertices, graph.edges ++ [⟨((u : Nat) : Int), ((v : Nat) : Int)⟩]⟩
        = nb_components_disjoint_set_union fuel graph) := by
  obtain ⟨s, h1, h2, h3, h4⟩ := dsu_run_spec graph fuel hr hfuel
  have hmain : nb_components_disjoint_set_union fuel graph
      = some ((Set.range (class_of graph.connected)).ncard : Int) := by
    simp [nb_components_disjoint_set_union, h1, h2]
  refine ⟨⟨s, h1, hmain, h3, by rw [← h2]; exact h4⟩, ?_⟩
  intro u v huv
  have hr1 : edgelist.in_range
      ⟨graph.nb_vertices, graph.edges ++ [⟨((u : Nat) : Int), ((v : Nat) : Int)⟩]⟩ := by
    intro e he
    rcases List.mem_append.mp he with he | he
    · exact hr e he
    · simp only [List.mem_singleton] at he
      subst he
      exact ⟨⟨by simp, by simp⟩, ⟨by simp, by simp⟩⟩
  obtain ⟨s1, k1, k2, _, _⟩ := dsu_run_spec
    ⟨graph.nb_vertices, graph.edges ++ [⟨((u : Nat) : Int), ((v : Nat) : Int)⟩]⟩ fuel hr1 hfuel
  have hrel : edgelist.connected
      ⟨graph.nb_vertices, graph.edges ++ [⟨((u : Nat) : Int), ((v : Nat) : Int)⟩]⟩
      = graph.connected := by
    funext x y
    exact propext (redundant_edge graph.edges u v huv x y)
  rw [hmain]
  simp only [nb_components_disjoint_set_union, k1, Option.map_some', k2]
  rw [hrel]

/-- C3 on four vertices with an edge, its reverse, a self-loop and a second
edge: two components, two successful calls of `unite`. -/
theorem nb_components_disjoint_set_union_counts_witness :
    nb_components_disjoint_set_union 4 ⟨4, [⟨0, 1⟩, ⟨1, 0⟩, ⟨2, 2⟩, ⟨3, 2⟩]⟩ = some 2 ∧
    ∃ s, dsu_run 4 ⟨4, [⟨0, 1⟩, ⟨1, 0⟩, ⟨2, 2⟩, ⟨3, 2⟩]⟩ = some s ∧
      nb_components_disjoint_set_union 4 ⟨4, [⟨0, 1⟩, ⟨1, 0⟩, ⟨2, 2⟩, ⟨3, 2⟩]⟩
        = some ((Set.range (class_of
            (edgelist.connected ⟨4, [⟨0, 1⟩, ⟨1, 0⟩, ⟨2, 2⟩, ⟨3, 2⟩]⟩))).ncard : Int) ∧
      s.united.length = 4 ∧
      ((Set.range (class_of
          (edgelist.connected ⟨4, [⟨0, 1⟩, ⟨1, 0⟩, ⟨2, 2⟩, ⟨3, 2⟩]⟩))).ncard : Int)
        = (4 : Int) - (s.united.count true : Int) :=
  ⟨by decide,
   (nb_components_disjoint_set_union_counts ⟨4, [⟨0, 1⟩, ⟨1, 0⟩, ⟨2, 2⟩, ⟨3, 2⟩]⟩ 4
     (by decide) (by decide)).1⟩

/-! ## The primitive steps of `nb_components_pbbs_pbfs` -/

/-- The result of `try_to_set_dist` in closed form. -/
theorem try_to_set_dist_eq {Item : Type} [DecidableEq Item]
    {dists : List Item} {target : Int} {cur : Item} (unknown dist : Item)
    (h : rd dists target = some cur) :
    try_to_set_dist target unknown dist dists =
      if cur = unknown then some ⟨true, dists.set target.toNat dist, Branch.cas_succeeded⟩
      else some ⟨false, dists, Branch.load_differs⟩ := by
  obtain ⟨h0, h1⟩ := rd_eq_some_lt h
  have hw := wr_of_lt (a := dists) dist h0 h1
  by_cases hc : cur = unknown
  · subst hc
    simp [try_to_set_dist, h, compare_exchange_strong, hw]
  · simp [try_to_set_dist, h, hc]

theorem try_to_set_dist_some {Item : Type} [DecidableEq Item]
    {dists : List Item} {target : Int} {unknown dist : Item} {r : Claimed Item}
    (h : try_to_set_dist target unknown dist dists = some r) :
    ∃ cur, rd dists target = some cur := by
  cases hc : rd dists target with
  | none => simp [try_to_set_dist, hc] at h
  | some cur => exact ⟨cur, rfl⟩

/-- The effect of the body of the innermost `parallel_for`. -/
theorem pbfs_edge_effect {o : Int} {nbrs : List Int} {j : Nat} {s s1 : PbfsState}
    (h : pbfs_edge o nbrs j s = some s1) :
    ∃ y val, rd nbrs (j : Int) = some y ∧ (0 ≤ y ∧ y < (s.was.length : Int)) ∧
      ((marked s.was y ∧ val = -1) ∨ (¬ marked s.was y ∧ val = y)) ∧
      s1.was.length = s.was.length ∧
      (∀ x, marked s1.was x ↔ marked s.was x ∨ x = y) ∧
      wr s.FrontierNext (o + (j : Int)) val = some s1.FrontierNext ∧
      s1.stores = s.stores ++ [⟨o + (j : Int), y, val⟩] ∧
      s1.Frontier = s.Frontier ∧ s1.Counts = s.Counts ∧ s1.tick = s.tick ∧
      s1.frontiers = s.frontiers := by
  unfold pbfs_edge at h
  cases hy : rd nbrs (j : Int) with
  | none => simp [hy] at h
  | some y =>
    simp only [hy] at h
    cases hr : try_to_set_dist y false true s.was with
    | none => simp [hr] at h
    | some r =>
      simp only [hr] at h
      obtain ⟨cur, hcur⟩ := try_to_set_dist_some hr
      obtain ⟨h0, h1⟩ := rd_eq_some_lt hcur
      rw [try_to_set_dist_eq false true hcur] at hr
      have hw := wr_of_lt (a := s.was) true h0 h1
      cases cur with
      | false =>
        simp only [if_true, Option.some.injEq] at hr
        subst hr
        simp only [if_true] at h
        cases hn : wr s.FrontierNext (o + (j : Int)) y with
        | none => simp [hn] at h
        | some next1 =>
          simp only [hn, Option.some.injEq] at h
          subst h
          refine ⟨y, y, rfl, ⟨h0, h1⟩, Or.inr ⟨?_, rfl⟩, by simp, ?_, hn, rfl, rfl, rfl, rfl, rfl⟩
          · unfold marked; rw [hcur]; simp
          · intro x; exact marked_wr_true hw x
      | true =>
        simp only [Bool.true_eq_false, if_false, Option.some.injEq] at hr
        subst hr
        simp only [Bool.false_eq_true, if_false] at h
        cases hn : wr s.FrontierNext (o + (j : Int)) (-1) with
        | none => simp [hn] at h
        | some next1 =>
          simp only [hn, Option.some.injEq] at h
          subst h
          refine ⟨y, -1, rfl, ⟨h0, h1⟩, Or.inl ⟨hcur, rfl⟩, rfl, ?_, hn, rfl, rfl, rfl, rfl, rfl⟩
          intro x
          constructor
          · intro hx; exact Or.inl hx
          · rintro (hx | hx)
            · exact hx
            · subst hx; exact hcur

/-- The body of the innermost `parallel_for` succeeds when the neighbour
exists and is a valid index of `was` and the slot is a valid index of
`FrontierNext`. -/
theorem pbfs_edge_progress {o : Int} {nbrs : List Int} {j : Nat} {s : PbfsState} {y : Int}
    (hy : rd nbrs (j : Int) = some y) (hr : 0 ≤ y ∧ y < (s.was.length : Int))
    (hs : 0 ≤ o + (j : Int) ∧ o + (j : Int) < (s.FrontierNext.length : Int)) :
    ∃ s1, pbfs_edge o nbrs j s = some s1 := by
  obtain ⟨cur, hcur⟩ := rd_of_lt (a := s.was) hr.1 hr.2
  unfold pbfs_edge
  simp only [hy, try_to_set_dist_eq false true hcur]
  cases cur with
  | false =>
    simp only [if_true, wr_of_lt (a := s.FrontierNext) y hs.1 hs.2]
    exact ⟨_, rfl⟩
  | true =>
    simp only [Bool.true_eq_false, if_false, Bool.false_eq_true,
      wr_of_lt (a := s.FrontierNext) (-1) hs.1 hs.2]
    exact ⟨_, rfl⟩

/-- The effect of the body of the first `parallel_for`. -/
theorem pbfs_count_effect {graph : adjlist} {i : Nat} {s s1 : PbfsState}
    (h : pbfs_count graph i s = some s1) :
    ∃ v nbrs, rd s.Frontier (i : Int) = some v ∧ rd graph.adjlists v = some nbrs ∧
      wr s.Counts (i : Int) (nbrs.length : Int) = some s1.Counts ∧
      s1.was = s.was ∧ s1.Frontier = s.Frontier ∧ s1.FrontierNext = s.FrontierNext ∧
      s1.tick = s.tick ∧ s1.stores = s.stores ∧ s1.frontiers = s.frontiers := by
  unfold pbfs_count at h
  cases hv : rd s.Frontier (i : Int) with
  | none => simp [hv] at h
  | some v =>
    simp only [hv] at h
    cases hn : rd graph.adjlists v with
    | none => simp [hn] at h
    | some nbrs =>
      simp only [hn] at h
      cases hw : wr s.Counts (i : Int) (nbrs.length : Int) with
      | none => simp [hw] at h
      | some c =>
        simp only [hw, Option.some.injEq] at h
        subst h
        exact ⟨v, nbrs, rfl, hn, hw, rfl, rfl, rfl, rfl, rfl, rfl⟩

/-! ## Loops executed in a scheduled order -/

/-- An invariant indexed by the list of indices already executed holds after a
`parallel_for` whose bodies are executed in a duplicate-free order. -/
theorem run_bodies_inv {σ : Type} (body : Nat → σ → Option σ)
    (Inv : List Nat → σ → Prop) (A : Nat → Prop)
    (hstep : ∀ i d s s1, A i → i ∉ d → Inv d s → body i s = some s1 → Inv (i :: d) s1) :
    ∀ (l d : List Nat) (s t : σ), l.Nodup → (∀ i ∈ l, A i ∧ i ∉ d) → Inv d s →
      run_bodies body l s = some t → Inv (l.reverse ++ d) t := by
  intro l
  induction l with
  | nil =>
    intro d s t _ _ hi h
    simp only [run_bodies, Option.some.injEq] at h
    subst h
    simpa using hi
  | cons i rest ih =>
    intro d s t hnd hA hi h
    cases hb : body i s with
    | none => simp [run_bodies, hb] at h
    | some s1 =>
      simp only [run_bodies, hb] at h
      have hi1 := hA i (List.mem_cons_self _ _)
      have hnd1 := List.nodup_cons.mp hnd
      have := ih (i :: d) s1 t hnd1.2
        (by
          intro k hk
          refine ⟨(hA k (List.mem_cons_of_mem _ hk)).1, ?_⟩
          intro hmem
          rcases List.mem_cons.mp hmem with h1 | h1
          · subst h1; exact hnd1.1 hk
          · exact (hA k (List.mem_cons_of_mem _ hk)).2 h1)
        (hstep i d s s1 hi1.1 hi1.2 hi hb) h
      simpa using this

/-- A `parallel_for` whose bodies succeed under an invariant they keep
succeeds. -/
theorem run_bodies_progress {σ : Type} (body : Nat → σ → Option σ)
    (Inv : σ → Prop) (A : Nat → Prop)
    (hstep : ∀ i s, A i → Inv s → ∃ s1, body i s = some s1 ∧ Inv s1) :
    ∀ (l : List Nat) (s : σ), (∀ i ∈ l, A i) → Inv s →
      ∃ t, run_bodies body l s = some t ∧ Inv t := by
  intro l
  induction l with
  | nil => intro s _ hi; exact ⟨s, rfl, hi⟩
  | cons i rest ih =>
    intro s hA hi
    obtain ⟨s1, h1, h2⟩ := hstep i s (hA i (List.mem_cons_self _ _)) hi
    obtain ⟨t, h3, h4⟩ := ih s1 (fun k hk => hA k (List.mem_cons_of_mem _ hk)) h2
    exact ⟨t, by simp [run_bodies, h1, h3], h4⟩

theorem fair_nodup {sch : Schedule} (hf : sch.fair) (k m : Nat) : (sch k m).Nodup :=
  (List.Perm.nodup_iff (hf k m)).mpr (List.nodup_range m)

theorem fair_mem {sch : Schedule} (hf : sch.fair) (k m i : Nat) : i ∈ sch k m ↔ i < m := by
  rw [List.Perm.mem_iff (hf k m), List.mem_range]

theorem sequential_fair : Schedule.sequential.fair := fun _ _ => List.Perm.refl _

/-! ## Offsets -/

theorem neighbors_of_rd {graph : adjlist} {v : Int} {nbrs : List Int}
    (h : rd graph.adjlists v = some nbrs) : graph.neighbors v = nbrs := by
  simp [adjlist.neighbors, h]

theorem has_edge_neighbors {graph : adjlist} {u y : Int} :
    graph.has_edge u y = true ↔ y ∈ graph.neighbors u := by
  rw [has_edge_iff]
  constructor
  · rintro ⟨l, hl, hy⟩
    rw [neighbors_of_rd hl]; exact hy
  · intro h
    cases hl : rd graph.adjlists u with
    | none => simp [adjlist.neighbors, hl] at h
    | some l => exact ⟨l, rfl, by rw [neighbors_of_rd hl] at h; exact h⟩

theorem degree_nonneg (graph : adjlist) (v : Int) : 0 ≤ graph.degree v := by
  unfold adjlist.degree; omega

theorem offset_zero (graph : adjlist) (F : List Int) : offset graph F 0 = 0 := by
  simp [offset]

theorem offset_succ (graph : adjlist) (F : List Int) (i : Nat) (h : i < F.length) :
    offset graph F (i + 1) = offset graph F i + graph.degree F[i] := by
  unfold offset
  rw [List.take_succ, List.getElem?_eq_getElem h, List.map_append, List.sum_append]
  simp only [Option.toList_some, List.map_cons, List.map_nil, List.sum_cons, List.sum_nil,
    add_zero]

theorem offset_mono (graph : adjlist) (F : List Int) (i j : Nat) (h : i ≤ j) :
    offset graph F i ≤ offset graph F j := by
  induction j with
  | zero =>
    have : i = 0 := by omega
    subst this; exact le_refl _
  | succ j ih =>
    by_cases hij : i = j + 1
    · subst hij; exact le_refl _
    · have h1 := ih (by omega)
      by_cases hj : j < F.length
      · rw [offset_succ graph F j hj]
        have := degree_nonneg graph F[j]
        omega
      · have : offset graph F (j + 1) = offset graph F j := by
          unfold offset
          rw [List.take_of_length_le (by omega), List.take_of_length_le (by omega)]
        omega

theorem offset_nonneg (graph : adjlist) (F : List Int) (i : Nat) : 0 ≤ offset graph F i := by
  have := offset_mono graph F 0 i (Nat.zero_le _)
  rw [offset_zero] at this
  exact this

/-- Every slot below the total belongs to the block of one frontier
position. -/
theorem offset_block (graph : adjlist) (F : List Int) (k : Int) :
    ∀ m, m ≤ F.length → 0 ≤ k → k < offset graph F m →
      ∃ i, i < m ∧ offset graph F i ≤ k ∧ k < offset graph F (i + 1) := by
  intro m
  induction m with
  | zero =>
    intro _ h0 h1
    rw [offset_zero] at h1
    omega
  | succ m ih =>
    intro hm h0 h1
    by_cases hk : k < offset graph F m
    · obtain ⟨i, hi, h2, h3⟩ := ih (by omega) h0 hk
      exact ⟨i, by omega, h2, h3⟩
    · exact ⟨m, by omega, by omega, h1⟩

/-- The blocks of two different frontier positions are disjoint. -/
theorem offset_disjoint (graph : adjlist) (F : List Int) {i j : Nat} {k : Int}
    (hi : offset graph F i ≤ k ∧ k < offset graph F (i + 1))
    (hj : offset graph F j ≤ k ∧ k < offset graph F (j + 1)) : i = j := by
  by_contra hne
  rcases Nat.lt_or_gt_of_ne hne with h | h
  · have := offset_mono graph F (i + 1) j (by omega)
    omega
  · have := offset_mono graph F (j + 1) i (by omega)
    omega

/-! ## `scan` -/

theorem exclusive_sums_spec : ∀ (xs : List Int) (acc : Int),
    (exclusive_sums acc xs).1.length = xs.length ∧
    (∀ i, i < xs.length → (exclusive_sums acc xs).1[i]? = some (acc + (xs.take i).sum)) ∧
    (exclusive_sums acc xs).2 = acc + xs.sum := by
  intro xs
  induction xs with
  | nil => intro acc; simp [exclusive_sums]
  | cons x xs ih =>
    intro acc
    obtain ⟨h1, h2, h3⟩ := ih (acc + x)
    refine ⟨?_, ?_, ?_⟩
    · simp [exclusive_sums, h1]
    · intro i hi
      cases i with
      | zero => simp [exclusive_sums]
      | succ i =>
        simp only [List.length_cons] at hi
        have := h2 i (by omega)
        simp only [exclusive_sums, List.getElem?_cons_succ, this, List.take_succ_cons,
          List.sum_cons]
        congr 1; omega
    · simp only [exclusive_sums, h3, List.sum_cons]; omega

/-! ## The first `parallel_for` and `scan` -/

theorem rd_nat_eq_getElem? {α : Type} (a : List α) (i : Nat) : rd a (i : Int) = a[i]? := by
  simp [rd]

/-- The first `parallel_for` of a round writes the out-degree of every
frontier position into `Counts` and changes nothing else. -/
theorem pbfs_pass1 {sch : Schedule} (hfair : sch.fair) {graph : adjlist} {fs : Nat}
    {s s1 : PbfsState} (h : parallel_for sch fs (pbfs_count graph) s = some s1) :
    s1.was = s.was ∧ s1.Frontier = s.Frontier ∧ s1.FrontierNext = s.FrontierNext ∧
    s1.stores = s.stores ∧ s1.frontiers = s.frontiers ∧
    s1.Counts.length = s.Counts.length ∧
    ∀ i, i < fs → ∃ v nbrs, rd s.Frontier (i : Int) = some v ∧
      rd graph.adjlists v = some nbrs ∧ rd s1.Counts (i : Int) = some (nbrs.length : Int) := by
  have key := run_bodies_inv (pbfs_count graph)
    (fun d t => t.was = s.was ∧ t.Frontier = s.Frontier ∧ t.FrontierNext = s.FrontierNext ∧
      t.stores = s.stores ∧ t.frontiers = s.frontiers ∧ t.Counts.length = s.Counts.length ∧
      ∀ i ∈ d, ∃ v nbrs, rd s.Frontier (i : Int) = some v ∧
        rd graph.adjlists v = some nbrs ∧ rd t.Counts (i : Int) = some (nbrs.length : Int))
    (fun _ => True)
    (by
      intro i d t t1 _ hid ⟨h1, h2, h3, h4, h5, h6, h7⟩ hb
      obtain ⟨v, nbrs, e1, e2, e3, e4, e5, e6, _, e8, e9⟩ := pbfs_count_effect hb
      refine ⟨e4.trans h1, e5.trans h2, e6.trans h3, e8.trans h4, e9.trans h5,
        (wr_length e3).trans h6, ?_⟩
      intro k hk
      rcases List.mem_cons.mp hk with hk1 | hk1
      · subst hk1
        exact ⟨v, nbrs, by rw [← h2]; exact e1, e2, rd_wr_same e3⟩
      · obtain ⟨v1, nbrs1, f1, f2, f3⟩ := h7 k hk1
        refine ⟨v1, nbrs1, f1, f2, ?_⟩
        have hne : (k : Int) ≠ (i : Int) := by
          intro hki
          have hki1 : k = i := by omega
          rw [hki1] at hk1
          exact hid hk1
        rw [rd_wr_other e3 hne]
        exact f3)
    (sch s.tick fs) [] { s with tick := s.tick + 1 } s1 (fair_nodup hfair _ _)
    (by intro i _; exact ⟨trivial, by simp⟩)
    ⟨rfl, rfl, rfl, rfl, rfl, rfl, by simp⟩ h
  obtain ⟨h1, h2, h3, h4, h5, h6, h7⟩ := key
  refine ⟨h1, h2, h3, h4, h5, h6, ?_⟩
  intro i hi
  apply h7 i
  simp only [List.append_nil, List.mem_reverse]
  exact (fair_mem hfair _ _ _).mpr hi

/-- The first `parallel_for` of a round succeeds when the frontier positions
hold vertices and `Counts` is long enough. -/
theorem pbfs_pass1_progress {sch : Schedule} (hfair : sch.fair) (graph : adjlist) (fs : Nat)
    (s : PbfsState) (hc : fs ≤ s.Counts.length)
    (hF : ∀ i, i < fs → ∃ v nbrs, rd s.Frontier (i : Int) = some v ∧
      rd graph.adjlists v = some nbrs) :
    ∃ s1, parallel_for sch fs (pbfs_count graph) s = some s1 := by
  obtain ⟨t, ht, _⟩ := run_bodies_progress (pbfs_count graph)
    (fun t => t.Frontier = s.Frontier ∧ t.Counts.length = s.Counts.length)
    (fun i => i < fs)
    (by
      intro i t hi ⟨h1, h2⟩
      obtain ⟨v, nbrs, e1, e2⟩ := hF i hi
      have hw := wr_of_lt (a := t.Counts) (i := (i : Int)) (nbrs.length : Int) (by omega)
        (by rw [h2]; omega)
      have hb : pbfs_count graph i t
          = some { t with Counts := t.Counts.set (i : Int).toNat (nbrs.length : Int) } := by
        simp only [pbfs_count, h1, e1, e2, hw]
      exact ⟨_, hb, h1, by simp [h2]⟩)
    (sch s.tick fs) { s with tick := s.tick + 1 }
    (fun i hi => (fair_mem hfair _ _ _).mp hi) ⟨rfl, rfl⟩
  exact ⟨t, ht⟩

/-- After `scan`, the first cells of `Counts` hold the exclusive prefix sums of
what they held before, and the total is returned. -/
theorem scan_spec {Counts counts : List Int} {nr : Int} {fs : Nat} (xs : List Int)
    (hx : xs.length = fs) (hc : ∀ i, i < fs → rd Counts (i : Int) = xs[i]?)
    (h : scan Counts fs = some (counts, nr)) :
    counts.length = Counts.length ∧ nr = xs.sum ∧
    ∀ i, i < fs → rd counts (i : Int) = some ((xs.take i).sum) := by
  unfold scan at h
  split at h
  · rename_i hle
    have htake : Counts.take fs = xs := by
      apply List.ext_getElem?
      intro i
      by_cases hi : i < fs
      · rw [List.getElem?_take]
        simp only [hi, if_true]
        rw [← hc i hi, rd_nat_eq_getElem?]
      · rw [List.getElem?_eq_none (by simp; omega), List.getElem?_eq_none (by omega)]
    rw [htake] at h
    obtain ⟨e1, e2, e3⟩ := exclusive_sums_spec xs 0
    cases hes : exclusive_sums 0 xs with
    | mk ps total =>
      rw [hes] at h e1 e2 e3
      simp only [Option.some.injEq, Prod.mk.injEq] at h
      obtain ⟨hcs, hnr⟩ := h
      subst hcs hnr
      simp only at e1 e2 e3
      refine ⟨?_, by simpa using e3, ?_⟩
      · simp only [List.length_append, List.length_drop, e1]; omega
      · intro i hi
        rw [rd_nat_eq_getElem?, List.getElem?_append_left (by omega), e2 i (by omega)]
        simp
  · cases h

theorem scan_progress (Counts : List Int) (fs : Nat) (h : fs ≤ Counts.length) :
    ∃ r, scan Counts fs = some r := by
  unfold scan
  simp only [h, if_true]
  exact ⟨_, rfl⟩

/-! ## The second `parallel_for` -/

theorem Pass2.congr {graph : adjlist} {F : List Int} {s0 s : PbfsState}
    {S S1 C C1 : Int → Prop} {W : List Store} (h : Pass2 graph F s0 s S C W)
    (hS : ∀ k, S k ↔ S1 k) (hC : ∀ z, C1 z → C z) : Pass2 graph F s0 s S1 C1 W :=
  { h with
    slots := fun k => (h.slots k).trans (hS k)
    covered := fun y hy => h.covered y (hC y hy) }

theorem Pass2.mono {graph : adjlist} {F : List Int} {s0 s : PbfsState}
    {S C : Int → Prop} {W : List Store} (h : Pass2 graph F s0 s S C W) {x : Int}
    (hx : marked s0.was x) : marked s.was x :=
  (h.marked_iff x).mpr (Or.inl hx)

theorem rd_mem {α : Type} {a : List α} {i : Int} {v : α} (h : rd a i = some v) : v ∈ a := by
  unfold rd at h
  split at h
  · exact List.getElem?_mem h
  · cases h

/-- One edge executed inside the second `parallel_for`. -/
theorem pass2_edge {graph : adjlist} {F : List Int} {s0 s s1 : PbfsState}
    {S C : Int → Prop} {W : List Store} (hinv : Pass2 graph F s0 s S C W)
    {o : Int} {nbrs : List Int} {j : Nat} (h : pbfs_edge o nbrs j s = some s1)
    {u : Int} (hu : u ∈ F) (hnb : graph.neighbors u = nbrs) (hfresh : ¬ S (o + (j : Int))) :
    ∃ y val, rd nbrs (j : Int) = some y ∧
      Pass2 graph F s0 s1 (fun k => S k ∨ k = o + (j : Int)) (fun z => C z ∨ z = y)
        (W ++ [⟨o + (j : Int), y, val⟩]) := by
  obtain ⟨y, val, e1, e2, e3, e4, e5, e6, e7, e8, e9, _, e11⟩ := pbfs_edge_effect h
  have hmono : ∀ x, marked s.was x → marked s1.was x := fun x hx => (e5 x).mpr (Or.inl hx)
  have hval : ∀ w ∈ W, 0 ≤ w.value → marked s.was w.value :=
    fun w hw h0 => (hinv.marked_iff _).mpr (Or.inr ⟨w, hw, rfl, h0⟩)
  refine ⟨y, val, e1, ?_⟩
  refine
    { frontier_eq := e8.trans hinv.frontier_eq
      counts_eq := e9.trans hinv.counts_eq
      frontiers_eq := e11.trans hinv.frontiers_eq
      was_length := e4.trans hinv.was_length
      next_length := (wr_length e6).trans hinv.next_length
      stores_eq := by rw [e7, hinv.stores_eq, List.append_assoc]
      next_value := ?_
      slots := ?_
      marked_iff := ?_
      value_cases := ?_
      other_edge := ?_
      other_marked := ?_
      once := ?_
      covered := ?_ }
  · intro w hw
    rcases List.mem_append.mp hw with hw | hw
    · rw [rd_wr_other e6 (by
        intro hk
        exact hfresh ((hinv.slots _).mp ⟨w, hw, hk⟩))]
      exact hinv.next_value w hw
    · simp only [List.mem_singleton] at hw
      subst hw
      exact rd_wr_same e6
  · intro k
    constructor
    · rintro ⟨w, hw, hk⟩
      rcases List.mem_append.mp hw with hw | hw
      · exact Or.inl ((hinv.slots k).mp ⟨w, hw, hk⟩)
      · simp only [List.mem_singleton] at hw
        subst hw
        exact Or.inr hk.symm
    · rintro (hk | hk)
      · obtain ⟨w, hw, hk1⟩ := (hinv.slots k).mpr hk
        exact ⟨w, List.mem_append_left _ hw, hk1⟩
      · exact ⟨_, List.mem_append_right _ (List.mem_singleton_self _), hk.symm⟩
  · intro x
    rw [e5 x, hinv.marked_iff x]
    constructor
    · rintro ((hx | ⟨w, hw, hx⟩) | hx)
      · exact Or.inl hx
      · exact Or.inr ⟨w, List.mem_append_left _ hw, hx⟩
      · subst hx
        rcases e3 with ⟨hm, _⟩ | ⟨_, hv⟩
        · rcases (hinv.marked_iff x).mp hm with h1 | ⟨w, hw, hx⟩
          · exact Or.inl h1
          · exact Or.inr ⟨w, List.mem_append_left _ hw, hx⟩
        · exact Or.inr ⟨_, List.mem_append_right _ (List.mem_singleton_self _), hv, e2.1⟩
    · rintro (hx | ⟨w, hw, hx⟩)
      · exact Or.inl (Or.inl hx)
      · rcases List.mem_append.mp hw with hw | hw
        · exact Or.inl (Or.inr ⟨w, hw, hx⟩)
        · simp only [List.mem_singleton] at hw
          subst hw
          rcases e3 with ⟨_, hv⟩ | ⟨_, hv⟩
          · simp only at hx
            omega
          · right
            simp only at hx
            rw [← hx.1, hv]
  · intro w hw
    rcases List.mem_append.mp hw with hw | hw
    · exact hinv.value_cases w hw
    · simp only [List.mem_singleton] at hw
      subst hw
      rcases e3 with ⟨_, hv⟩ | ⟨hm, hv⟩
      · exact Or.inl hv
      · exact Or.inr ⟨hv, fun h0 => hm (hinv.mono h0)⟩
  · intro w hw
    rcases List.mem_append.mp hw with hw | hw
    · exact hinv.other_edge w hw
    · simp only [List.mem_singleton] at hw
      subst hw
      exact ⟨u, hu, has_edge_neighbors.mpr (by rw [hnb]; exact rd_mem e1)⟩
  · intro w hw
    rcases List.mem_append.mp hw with hw | hw
    · exact hmono _ (hinv.other_marked w hw)
    · simp only [List.mem_singleton] at hw
      subst hw
      exact (e5 _).mpr (Or.inr rfl)
  · rw [List.filter_append, List.map_append, List.nodup_append]
    refine ⟨hinv.once, ?_, ?_⟩
    · by_cases h0 : 0 ≤ val
      · simp [List.filter, h0]
      · simp [List.filter, h0]
    · intro a ha hb
      obtain ⟨w, hw, hwa⟩ := List.mem_map.mp ha
      obtain ⟨hw1, hw2⟩ := List.mem_filter.mp hw
      obtain ⟨w1, hw3, hw4⟩ := List.mem_map.mp hb
      obtain ⟨hw5, hw6⟩ := List.mem_filter.mp hw3
      simp only [List.mem_singleton] at hw5
      subst hw5
      simp only [decide_eq_true_eq] at hw2 hw6
      simp only at hw4
      rcases e3 with ⟨_, hv⟩ | ⟨hm, hv⟩
      · omega
      · apply hm
        rw [← hv, hw4, ← hwa]
        exact hval w hw1 hw2
  · intro z hz
    rcases hz with hz | hz
    · obtain ⟨w, hw, h1⟩ := hinv.covered z hz
      exact ⟨w, List.mem_append_left _ hw, h1⟩
    · exact ⟨_, List.mem_append_right _ (List.mem_singleton_self _), hz.symm⟩

/-- The innermost `parallel_for`, over the edges of one frontier vertex `u`
whose block of slots starts at `o`. -/
theorem pass2_edges {sch : Schedule} (hfair : sch.fair) {graph : adjlist} {F : List Int}
    {s0 s t : PbfsState} {S C : Int → Prop} {W : List Store}
    (hinv : Pass2 graph F s0 s S C W) {o : Int} {nbrs : List Int}
    (h : parallel_for sch nbrs.length (pbfs_edge o nbrs) s = some t)
    {u : Int} (hu : u ∈ F) (hnb : graph.neighbors u = nbrs)
    (hfresh : ∀ k, o ≤ k → k < o + (nbrs.length : Int) → ¬ S k) :
    ∃ W1, Pass2 graph F s0 t (fun k => S k ∨ (o ≤ k ∧ k < o + (nbrs.length : Int)))
      (fun z => C z ∨ graph.has_edge u z = true) W1 := by
  have key := run_bodies_inv (pbfs_edge o nbrs)
    (fun d r => ∃ W1, Pass2 graph F s0 r (fun k => S k ∨ ∃ j ∈ d, k = o + ((j : Nat) : Int))
      (fun z => C z ∨ ∃ j ∈ d, rd nbrs ((j : Nat) : Int) = some z) W1)
    (fun j => j < nbrs.length)
    (by
      intro j d r r1 hj hjd ⟨W1, hr⟩ hb
      obtain ⟨y, val, e1, e2⟩ := pass2_edge hr hb hu hnb (by
        rintro (hk | ⟨j1, hj1, hk⟩)
        · exact hfresh _ (by omega) (by omega) hk
        · have : j = j1 := by omega
          subst this
          exact hjd hj1)
      refine ⟨_, e2.congr ?_ ?_⟩
      · intro k
        constructor
        · rintro ((hk | ⟨j1, hj1, hk⟩) | hk)
          · exact Or.inl hk
          · exact Or.inr ⟨j1, List.mem_cons_of_mem _ hj1, hk⟩
          · exact Or.inr ⟨j, List.mem_cons_self _ _, hk⟩
        · rintro (hk | ⟨j1, hj1, hk⟩)
          · exact Or.inl (Or.inl hk)
          · rcases List.mem_cons.mp hj1 with h1 | h1
            · subst h1; exact Or.inr hk
            · exact Or.inl (Or.inr ⟨j1, h1, hk⟩)
      · intro z hz
        rcases hz with hz | ⟨j1, hj1, hz⟩
        · exact Or.inl (Or.inl hz)
        · rcases List.mem_cons.mp hj1 with h1 | h1
          · subst h1
            rw [e1] at hz
            simp only [Option.some.injEq] at hz
            exact Or.inr hz.symm
          · exact Or.inl (Or.inr ⟨j1, h1, hz⟩))
    (sch s.tick nbrs.length) [] { s with tick := s.tick + 1 } t (fair_nodup hfair _ _)
    (by intro j hj; exact ⟨(fair_mem hfair _ _ _).mp hj, by simp⟩)
    ⟨W, { hinv with
          slots := fun k => by
            rw [hinv.slots k]
            simp
          covered := fun y hy => by
            rcases hy with hy | ⟨_, hj, _⟩
            · exact hinv.covered y hy
            · simp at hj }⟩
    h
  obtain ⟨W1, hW⟩ := key
  refine ⟨W1, hW.congr ?_ ?_⟩
  · intro k
    simp only [List.append_nil, List.mem_reverse, fair_mem hfair]
    constructor
    · rintro (hk | ⟨j, hj, hk⟩)
      · exact Or.inl hk
      · exact Or.inr ⟨by omega, by omega⟩
    · rintro (hk | ⟨h1, h2⟩)
      · exact Or.inl hk
      · exact Or.inr ⟨(k - o).toNat, by omega, by omega⟩
  · intro z hz
    rcases hz with hz | hz
    · exact Or.inl hz
    · right
      have hmem : z ∈ nbrs := by rw [← hnb]; exact has_edge_neighbors.mp hz
      obtain ⟨j, hj, hz1⟩ := List.getElem_of_mem hmem
      refine ⟨j, ?_, ?_⟩
      · simp only [List.append_nil, List.mem_reverse, fair_mem hfair]; exact hj
      · rw [rd_nat_eq_getElem?, List.getElem?_eq_getElem hj, hz1]

theorem Pass2.claim_once {graph : adjlist} {F : List Int} {s0 s : PbfsState}
    {S C : Int → Prop} {W : List Store} (h : Pass2 graph F s0 s S C W)
    {w w1 : Store} (hw : w ∈ W) (hw1 : w1 ∈ W) (h0 : 0 ≤ w.value)
    (heq : w.value = w1.value) : w = w1 := by
  apply List.inj_on_of_nodup_map h.once
  · exact List.mem_filter.mpr ⟨hw, by simpa using h0⟩
  · exact List.mem_filter.mpr ⟨hw1, by simp only [decide_eq_true_eq]; omega⟩
  · exact heq

theorem pbfs_vertex_effect {sch : Schedule} {graph : adjlist} {i : Nat} {s s1 : PbfsState}
    (h : pbfs_vertex sch graph i s = some s1) :
    ∃ v o nbrs, rd s.Frontier (i : Int) = some v ∧ rd s.Counts (i : Int) = some o ∧
      rd graph.adjlists v = some nbrs ∧
      parallel_for sch nbrs.length (pbfs_edge o nbrs) s = some s1 := by
  unfold pbfs_vertex at h
  cases hv : rd s.Frontier (i : Int) with
  | none => simp [hv] at h
  | some v =>
    simp only [hv] at h
    cases ho : rd s.Counts (i : Int) with
    | none => simp [ho] at h
    | some o =>
      simp only [ho] at h
      cases hn : rd graph.adjlists v with
      | none => simp [hn] at h
      | some nbrs =>
        simp only [hn] at h
        exact ⟨v, o, nbrs, rfl, rfl, hn, h⟩

theorem degree_of_rd {graph : adjlist} {v : Int} {nbrs : List Int}
    (h : rd graph.adjlists v = some nbrs) : graph.degree v = (nbrs.length : Int) := by
  simp [adjlist.degree, neighbors_of_rd h]

/-- The second `parallel_for` of a round, started in a state whose `Counts`
holds the offsets of the frontier `F`: every slot below the total is written
once, every neighbour of a frontier vertex is marked. -/
theorem pass2_vertices {sch : Schedule} (hfair : sch.fair) {graph : adjlist} {F : List Int}
    {s0 t : PbfsState}
    (hF : ∀ i (h : i < F.length), rd s0.Frontier (i : Int) = some F[i] ∧
      rd s0.Counts (i : Int) = some (offset graph F i))
    (h : parallel_for sch F.length (pbfs_vertex sch graph) s0 = some t) :
    ∃ W, Pass2 graph F s0 t (fun k => 0 ≤ k ∧ k < offset graph F F.length)
      (fun z => ∃ u ∈ F, graph.has_edge u z = true) W := by
  have key := run_bodies_inv (pbfs_vertex sch graph)
    (fun d r => ∃ W, Pass2 graph F s0 r
      (fun k => ∃ i ∈ d, offset graph F i ≤ k ∧ k < offset graph F (i + 1))
      (fun z => ∃ i ∈ d, ∃ u, F[i]? = some u ∧ graph.has_edge u z = true) W)
    (fun i => i < F.length)
    (by
      intro i d r r1 hi hid ⟨W, hr⟩ hb
      obtain ⟨v, o, nbrs, e1, e2, e3, e4⟩ := pbfs_vertex_effect hb
      obtain ⟨f1, f2⟩ := hF i hi
      rw [hr.frontier_eq, f1] at e1
      rw [hr.counts_eq, f2] at e2
      simp only [Option.some.injEq] at e1 e2
      subst e1 e2
      have hdeg := degree_of_rd e3
      have hsucc := offset_succ graph F i hi
      obtain ⟨W1, hW1⟩ := pass2_edges hfair hr e4 (List.getElem_mem hi) (neighbors_of_rd e3)
        (by
          rintro k h1 h2 ⟨i1, hi1, h3⟩
          have := offset_disjoint graph F (i := i) (j := i1) (k := k) ⟨h1, by omega⟩ h3
          subst this
          exact hid hi1)
      refine ⟨W1, hW1.congr ?_ ?_⟩
      · intro k
        constructor
        · rintro (⟨i1, hi1, hk⟩ | hk)
          · exact ⟨i1, List.mem_cons_of_mem _ hi1, hk⟩
          · exact ⟨i, List.mem_cons_self _ _, hk.1, by omega⟩
        · rintro ⟨i1, hi1, hk⟩
          rcases List.mem_cons.mp hi1 with h1 | h1
          · subst h1; exact Or.inr ⟨hk.1, by omega⟩
          · exact Or.inl ⟨i1, h1, hk⟩
      · rintro z ⟨i1, hi1, u, hu, hz⟩
        rcases List.mem_cons.mp hi1 with h1 | h1
        · subst h1
          rw [List.getElem?_eq_getElem hi] at hu
          simp only [Option.some.injEq] at hu
          subst hu
          exact Or.inr hz
        · exact Or.inl ⟨i1, h1, u, hu, hz⟩)
    (sch s0.tick F.length) [] { s0 with tick := s0.tick + 1 } t (fair_nodup hfair _ _)
    (by intro i hi; exact ⟨(fair_mem hfair _ _ _).mp hi, by simp⟩)
    ⟨[], { frontier_eq := rfl
           counts_eq := rfl
           frontiers_eq := rfl
           was_length := rfl
           next_length := rfl
           stores_eq := by simp
           next_value := by simp
           slots := by simp
           marked_iff := by simp
           value_cases := by simp
           other_edge := by simp
           other_marked := by simp
           once := by simp
           covered := by simp }⟩
    h
  obtain ⟨W, hW⟩ := key
  refine ⟨W, hW.congr ?_ ?_⟩
  · intro k
    simp only [List.append_nil, List.mem_reverse, fair_mem hfair]
    constructor
    · rintro ⟨i, hi, h1, h2⟩
      have := offset_nonneg graph F i
      have := offset_mono graph F (i + 1) F.length (by omega)
      exact ⟨by omega, by omega⟩
    · rintro ⟨h0, h1⟩
      obtain ⟨i, hi, h2⟩ := offset_block graph F k F.length (Nat.le_refl _) h0 h1
      exact ⟨i, hi, h2⟩
  · rintro z ⟨u, hu, hz⟩
    obtain ⟨i, hi, hui⟩ := List.getElem_of_mem hu
    refine ⟨i, ?_, u, ?_, hz⟩
    · simp only [List.append_nil, List.mem_reverse, fair_mem hfair]; exact hi
    · rw [List.getElem?_eq_getElem hi, hui]

/-- The elements of a list that satisfy `p` are duplicate-free when no
element satisfying `p` occurs at two positions. -/
theorem nodup_filter_of_index (p : Int → Bool) : ∀ (l : List Int),
    (∀ a b (ha : a < l.length) (hb : b < l.length), a ≠ b → p l[a] = true → l[a] ≠ l[b]) →
    (l.filter p).Nodup := by
  intro l
  induction l with
  | nil => intro _; simp
  | cons x xs ih =>
    intro h
    have hxs : (xs.filter p).Nodup := by
      apply ih
      intro a b ha hb hab hp
      have := h (a + 1) (b + 1) (by simp; omega) (by simp; omega) (by omega)
      simpa using this hp
    by_cases hx : p x = true
    · rw [List.filter_cons_of_pos hx, List.nodup_cons]
      refine ⟨?_, hxs⟩
      intro hmem
      obtain ⟨hm, _⟩ := List.mem_filter.mp hmem
      obtain ⟨b, hb, hxb⟩ := List.getElem_of_mem hm
      have := h 0 (b + 1) (by simp) (by simp; omega) (by omega)
      simp only [List.getElem_cons_zero, List.getElem_cons_succ] at this
      exact this hx hxb.symm
    · rw [List.filter_cons_of_neg hx]
      exact hxs

/-! ## One iteration of the `while` loop -/

theorem filter_effect {In Out frontier : List Int} {n : Int} {size : Nat}
    (h : filter In Out n = some (frontier, size)) :
    n.toNat ≤ In.length ∧ size ≤ Out.length ∧ frontier.length = Out.length ∧
      frontier.take size = (In.take n.toNat).filter nonNegF := by
  unfold filter at h
  split at h
  · rename_i h1
    simp only at h
    split at h
    · rename_i h2
      simp only [Option.some.injEq, Prod.mk.injEq] at h
      obtain ⟨hf, hs⟩ := h
      subst hf hs
      refine ⟨h1, h2, ?_, ?_⟩
      · simp only [List.length_append, List.length_drop]; omega
      · rw [List.take_append_of_le_length (Nat.le_refl _), List.take_length]
    · cases h
  · cases h

theorem filter_progress (In Out : List Int) (n : Int)
    (h1 : n.toNat ≤ In.length) (h2 : n.toNat ≤ Out.length) :
    ∃ r, filter In Out n = some r := by
  unfold filter
  have hk : ((In.take n.toNat).filter nonNegF).length ≤ Out.length := by
    have h3 := List.length_filter_le nonNegF (In.take n.toNat)
    have h4 : (In.take n.toNat).length ≤ n.toNat := List.length_take_le _ _
    omega
  simp only [h1, if_true, hk]
  exact ⟨_, rfl⟩

/-- One iteration of the `while` loop under a fair schedule, if it succeeds:
the new frontier is duplicate-free and consists of the vertices that were
unmarked neighbours of the old frontier; exactly these become marked. -/
theorem pbfs_round_spec {sch : Schedule} (hfair : sch.fair) {graph : adjlist} {fs fs1 : Nat}
    {s s1 : PbfsState} (hfs : fs ≤ s.Frontier.length)
    (h : pbfs_round sch graph fs s = some (s1, fs1)) :
    fs1 ≤ s1.Frontier.length ∧
      Round graph (s.Frontier.take fs) s s1 (s1.Frontier.take fs1) := by
  unfold pbfs_round at h
  simp only at h
  cases h1 : parallel_for sch fs (pbfs_count graph)
      { s with frontiers := s.frontiers ++ [s.Frontier.take fs] } with
  | none => simp [h1] at h
  | some t1 =>
    simp only [h1] at h
    cases h2 : scan t1.Counts fs with
    | none => simp [h2] at h
    | some cn =>
      obtain ⟨counts, nr⟩ := cn
      simp only [h2] at h
      cases h3 : parallel_for sch fs (pbfs_vertex sch graph) { t1 with Counts := counts } with
      | none => simp [h3] at h
      | some t2 =>
        simp only [h3] at h
        cases h4 : filter t2.FrontierNext t2.Frontier nr with
        | none => simp [h4] at h
        | some fr =>
          obtain ⟨frontier, size⟩ := fr
          simp only [h4, Option.some.injEq, Prod.mk.injEq] at h
          obtain ⟨hs1, hsize⟩ := h
          subst hs1 hsize
          -- the frontier
          have hFlen : (s.Frontier.take fs).length = fs := by
            rw [List.length_take]; omega
          obtain ⟨p1, p2, p3, p4, p5, p6, p7⟩ := pbfs_pass1 hfair h1
          simp only at p1 p2 p3 p4 p5 p6 p7
          have hvalid : ∀ i (hi : i < (s.Frontier.take fs).length),
              rd s.Frontier (i : Int) = some (s.Frontier.take fs)[i] ∧
              rd t1.Counts (i : Int) = some (graph.degree (s.Frontier.take fs)[i]) := by
            intro i hi
            rw [hFlen] at hi
            obtain ⟨v, nbrs, e1, e2, e3⟩ := p7 i hi
            have : (s.Frontier.take fs)[i]? = some v := by
              rw [List.getElem?_take]; simp only [hi, if_true]
              rw [← rd_nat_eq_getElem?]; exact e1
            have hv : (s.Frontier.take fs)[i] = v := by
              rw [List.getElem?_eq_getElem (by omega)] at this
              simpa using this
            rw [hv]
            exact ⟨e1, by rw [degree_of_rd e2]; exact e3⟩
          obtain ⟨q1, q2, q3⟩ := scan_spec ((s.Frontier.take fs).map graph.degree)
            (by simp only [List.length_map]; exact hFlen)
            (by
              intro i hi
              rw [(hvalid i (by omega)).2, List.getElem?_map,
                List.getElem?_eq_getElem (by omega)]
              rfl) h2
          have hoff : ∀ i, (((s.Frontier.take fs).map graph.degree).take i).sum
              = offset graph (s.Frontier.take fs) i := by
            intro i
            unfold offset
            rw [← List.map_take]
          have hnr : nr = offset graph (s.Frontier.take fs) (s.Frontier.take fs).length := by
            rw [q2, ← hoff (s.Frontier.take fs).length]
            have hall : ((s.Frontier.take fs).map graph.degree).take (s.Frontier.take fs).length
                = (s.Frontier.take fs).map graph.degree :=
              List.take_of_length_le (by rw [List.length_map])
            rw [hall]
          have hstart : ∀ i (hi : i < (s.Frontier.take fs).length),
              rd ({ t1 with Counts := counts } : PbfsState).Frontier (i : Int)
                = some (s.Frontier.take fs)[i] ∧
              rd ({ t1 with Counts := counts } : PbfsState).Counts (i : Int)
                = some (offset graph (s.Frontier.take fs) i) := by
            intro i hi
            refine ⟨?_, ?_⟩
            · show rd t1.Frontier (i : Int) = _
              rw [p2]; exact (hvalid i hi).1
            show rd counts (i : Int) = _
            rw [q3 i (by omega), hoff]
          obtain ⟨W, hW⟩ := pass2_vertices hfair hstart (by rw [hFlen]; exact h3)
          obtain ⟨f1, f2, f3, f4⟩ := filter_effect h4
          rw [← hnr] at hW
          -- the cells of `FrontierNext` below `nr`
          have hcell : ∀ a, a < nr.toNat → ∃ w ∈ W, w.slot = (a : Int) ∧
              (t2.FrontierNext.take nr.toNat)[a]? = some w.value := by
            intro a ha
            obtain ⟨w, hw, hsl⟩ := (hW.slots (a : Int)).mpr ⟨by omega, by omega⟩
            refine ⟨w, hw, hsl, ?_⟩
            rw [List.getElem?_take]; simp only [ha, if_true]
            rw [← rd_nat_eq_getElem?, ← hsl]
            exact hW.next_value w hw
          have hkept : ∀ x, x ∈ (t2.FrontierNext.take nr.toNat).filter nonNegF ↔
              ∃ w ∈ W, w.value = x ∧ 0 ≤ x := by
            intro x
            rw [List.mem_filter]
            constructor
            · rintro ⟨hm, hp⟩
              obtain ⟨a, ha, hx⟩ := List.getElem_of_mem hm
              have hlt : a < nr.toNat := by
                have := List.length_take_le nr.toNat t2.FrontierNext
                omega
              obtain ⟨w, hw, _, hv⟩ := hcell a hlt
              rw [List.getElem?_eq_getElem ha, hx] at hv
              simp only [Option.some.injEq] at hv
              exact ⟨w, hw, hv.symm, by simpa [nonNegF] using hp⟩
            · rintro ⟨w, hw, hv, h0⟩
              obtain ⟨k0, k1⟩ := (hW.slots w.slot).mp ⟨w, hw, rfl⟩
              obtain ⟨w1, hw1, hsl, hv1⟩ := hcell w.slot.toNat (by omega)
              have hsame : w1.slot = w.slot := by rw [hsl]; omega
              have hval := hW.next_value w hw
              rw [← hsame, hW.next_value w1 hw1] at hval
              simp only [Option.some.injEq] at hval
              refine ⟨?_, by simpa [nonNegF] using h0⟩
              rw [← hv, ← hval]
              exact List.getElem?_mem hv1
          have hnodup : ((t2.FrontierNext.take nr.toNat).filter nonNegF).Nodup := by
            apply nodup_filter_of_index
            intro a b ha hb hab hp heq
            have hla : a < nr.toNat := by
              have := List.length_take_le nr.toNat t2.FrontierNext
              omega
            have hlb : b < nr.toNat := by
              have := List.length_take_le nr.toNat t2.FrontierNext
              omega
            obtain ⟨w, hw, hsl, hv⟩ := hcell a hla
            obtain ⟨w1, hw1, hsl1, hv1⟩ := hcell b hlb
            rw [List.getElem?_eq_getElem ha] at hv
            rw [List.getElem?_eq_getElem hb] at hv1
            simp only [Option.some.injEq] at hv hv1
            have h0 : 0 ≤ w.value := by
              rw [← hv]; simpa [nonNegF] using hp
            have := hW.claim_once hw hw1 h0 (by rw [← hv, ← hv1, heq])
            subst this
            rw [hsl] at hsl1
            omega
          refine ⟨by show size ≤ frontier.length; rw [f3]; exact f2, ?_⟩
          show Round graph (s.Frontier.take fs) s { t2 with Frontier := frontier }
            (frontier.take size)
          rw [f4]
          exact
            { was_length := by rw [hW.was_length]; exact congrArg List.length p1
              frontier_length := by
                show frontier.length = _
                rw [f3, hW.frontier_eq]; exact congrArg List.length p2
              next_length := by rw [hW.next_length]; exact congrArg List.length p3
              counts_length := by
                show t2.Counts.length = _
                rw [hW.counts_eq]
                show counts.length = _
                rw [q1, p6]
              frontiers_eq := by
                show t2.frontiers = _
                rw [hW.frontiers_eq]; exact p5
              nodup := hnodup
              marked_iff := by
                intro x
                show marked t2.was x ↔ _
                rw [hW.marked_iff x, hkept x]
                show marked t1.was x ∨ _ ↔ _
                rw [p1]
              fresh := by
                intro x hx
                obtain ⟨w, hw, hv, h0⟩ := (hkept x).mp hx
                rcases hW.value_cases w hw with h5 | ⟨h5, h6⟩
                · omega
                · have h7 : ¬ marked t1.was w.other := h6
                  rw [p1, ← h5, hv] at h7
                  exact h7
              from_edge := by
                intro x hx
                obtain ⟨w, hw, hv, h0⟩ := (hkept x).mp hx
                rcases hW.value_cases w hw with h5 | ⟨h5, _⟩
                · omega
                · obtain ⟨u, hu, he⟩ := hW.other_edge w hw
                  exact ⟨u, hu, by rw [← hv, h5]; exact he⟩
              nbrs_marked := by
                intro u hu y hy
                obtain ⟨w, hw, ho⟩ := hW.covered y ⟨u, hu, hy⟩
                have := hW.other_marked w hw
                rw [ho] at this
                exact this
              stores := by
                refine ⟨W, ?_, ?_, ?_, hW.once⟩
                · show t2.stores = _
                  rw [hW.stores_eq]
                  show t1.stores ++ W = _
                  rw [p4]
                · intro w hw
                  rcases hW.value_cases w hw with h5 | ⟨h5, _⟩
                  · exact Or.inr h5
                  · exact Or.inl h5
                · intro w hw h0
                  exact (hkept _).mpr ⟨w, hw, rfl, h0⟩ }

/-! ## Success of one iteration of the `while` loop -/

theorem sum_range_lengths (l : List (List Int)) : ∀ k, k ≤ l.length →
    (Finset.range k).sum (fun i => (l[i]?.getD []).length) = ((l.take k).map List.length).sum := by
  intro k
  induction k with
  | zero => intro _; simp
  | succ k ih =>
    intro hk
    rw [Finset.sum_range_succ, ih (by omega), List.take_succ,
      List.getElem?_eq_getElem (by omega)]
    simp only [Option.getD_some, List.map_append, List.sum_append, Option.toList_some,
      List.map_cons, List.map_nil, List.sum_cons, List.sum_nil, add_zero]

/-- The out-degrees of a duplicate-free list of vertices sum to at most the
sum of all out-degrees. -/
theorem sum_degree_le {graph : adjlist} {F : List Int} (hnd : F.Nodup)
    (hr : ∀ x ∈ F, 0 ≤ x ∧ x < (graph.get_nb_vertices : Int)) :
    (F.map graph.degree).sum ≤ (((graph.adjlists.map List.length).sum : Nat) : Int) := by
  have h1 : F.map graph.degree
      = (F.map Int.toNat).map (fun i : Nat => ((graph.adjlists[i]?.getD []).length : Int)) := by
    rw [List.map_map]
    apply List.map_congr_left
    intro x hx
    have h0 := (hr x hx).1
    simp only [Function.comp, adjlist.degree, adjlist.neighbors, rd, h0, if_true]
  have hnd1 : (F.map Int.toNat).Nodup := by
    apply List.Nodup.map_on _ hnd
    intro x hx y hy hxy
    have := (hr x hx).1
    have := (hr y hy).1
    omega
  have h2 : ∀ l : List Nat, (l.map
      (fun i : Nat => ((graph.adjlists[i]?.getD []).length : Int))).sum
      = ((l.map (fun i : Nat => (graph.adjlists[i]?.getD []).length)).sum : Nat) := by
    intro l
    rw [Nat.cast_list_sum, List.map_map]
    congr 1
  rw [h1, h2 (F.map Int.toNat)]
  have h3 := List.sum_toFinset (fun i : Nat => (graph.adjlists[i]?.getD []).length) hnd1
  have h4 : (F.map Int.toNat).toFinset ⊆ Finset.range graph.get_nb_vertices := by
    intro i hi
    simp only [List.mem_toFinset, List.mem_map] at hi
    obtain ⟨x, hx, hxi⟩ := hi
    have := hr x hx
    simp only [Finset.mem_range]
    omega
  have h5 := Finset.sum_le_sum_of_subset (f := fun i : Nat => (graph.adjlists[i]?.getD []).length) h4
  have h6 := sum_range_lengths graph.adjlists graph.adjlists.length (Nat.le_refl _)
  rw [List.take_length] at h6
  rw [← h3]
  have : (Finset.range graph.get_nb_vertices).sum
      (fun i => (graph.adjlists[i]?.getD []).length)
      = (graph.adjlists.map List.length).sum := h6
  rw [← this]
  exact_mod_cast h5

/-- One iteration of the `while` loop succeeds when the arrays have their
sizes, `nb_edges` bounds the sum of the out-degrees, and the frontier is a
duplicate-free list of vertices. -/
theorem pbfs_round_progress {sch : Schedule} (hfair : sch.fair) {graph : adjlist}
    (hr : graph.in_range) {fs : Nat} {s : PbfsState}
    (hw : s.was.length = graph.get_nb_vertices)
    (hc : s.Counts.length = graph.get_nb_vertices)
    (hF : (graph.adjlists.map List.length).sum ≤ s.Frontier.length)
    (hN : (graph.adjlists.map List.length).sum ≤ s.FrontierNext.length)
    (hfs : fs ≤ s.Frontier.length) (hnd : (s.Frontier.take fs).Nodup)
    (hin : ∀ x ∈ s.Frontier.take fs, 0 ≤ x ∧ x < (graph.get_nb_vertices : Int)) :
    ∃ r, pbfs_round sch graph fs s = some r := by
  have hFlen : (s.Frontier.take fs).length = fs := by
    rw [List.length_take]; omega
  have hfsn : fs ≤ graph.get_nb_vertices := by
    rw [← hFlen]; exact nodup_length_le hnd hin
  have hpos : ∀ i, i < fs → ∃ v nbrs, rd s.Frontier (i : Int) = some v ∧
      rd graph.adjlists v = some nbrs ∧ v = (s.Frontier.take fs)[i]?.getD 0 := by
    intro i hi
    have hget : (s.Frontier.take fs)[i]? = some (s.Frontier.take fs)[i] :=
      List.getElem?_eq_getElem (by omega)
    have hmem := hin _ (List.getElem_mem (l := s.Frontier.take fs) (by omega : i < _))
    obtain ⟨nbrs, hn⟩ := rd_of_lt (a := graph.adjlists) hmem.1 hmem.2
    refine ⟨_, nbrs, ?_, hn, by rw [hget]; rfl⟩
    rw [rd_nat_eq_getElem?, ← hget, List.getElem?_take]
    simp [hi]
  obtain ⟨t1, h1⟩ := pbfs_pass1_progress hfair graph fs
    { s with frontiers := s.frontiers ++ [s.Frontier.take fs] } (by show fs ≤ s.Counts.length; omega)
    (by
      intro i hi
      obtain ⟨v, nbrs, e1, e2, _⟩ := hpos i hi
      exact ⟨v, nbrs, e1, e2⟩)
  obtain ⟨p1, p2, p3, p4, p5, p6, p7⟩ := pbfs_pass1 hfair h1
  simp only at p1 p2 p3 p4 p5 p6 p7
  obtain ⟨⟨counts, nr⟩, h2⟩ := scan_progress t1.Counts fs (by omega)
  have hdeg : ∀ i (hi : i < (s.Frontier.take fs).length), rd t1.Counts (i : Int)
      = some (graph.degree (s.Frontier.take fs)[i]) := by
    intro i hi0
    have hi : i < fs := by omega
    obtain ⟨v, nbrs, e1, e2, e3⟩ := p7 i hi
    obtain ⟨v1, _, f1, _, f3⟩ := hpos i hi
    rw [e1] at f1
    simp only [Option.some.injEq] at f1
    subst f1
    rw [List.getElem?_eq_getElem (by omega)] at f3
    simp only [Option.getD_some] at f3
    rw [← f3, degree_of_rd e2]
    exact e3
  obtain ⟨q1, q2, q3⟩ := scan_spec ((s.Frontier.take fs).map graph.degree)
    (by simp only [List.length_map]; exact hFlen)
    (by
      intro i hi
      rw [hdeg i (by omega), List.getElem?_map, List.getElem?_eq_getElem (by omega)]
      rfl) h2
  have hoff : ∀ i, (((s.Frontier.take fs).map graph.degree).take i).sum
      = offset graph (s.Frontier.take fs) i := by
    intro i
    unfold offset
    rw [← List.map_take]
  have hnr : nr = offset graph (s.Frontier.take fs) fs := by
    rw [q2, ← hoff fs]
    have hall : ((s.Frontier.take fs).map graph.degree).take fs
        = (s.Frontier.take fs).map graph.degree :=
      List.take_of_length_le (by rw [List.length_map, hFlen])
    rw [hall]
  have hnrle : nr ≤ (((graph.adjlists.map List.length).sum : Nat) : Int) := by
    rw [q2]; exact sum_degree_le hnd hin
  have hnr0 : 0 ≤ nr := by rw [hnr]; exact offset_nonneg _ _ _
  -- the second `parallel_for`
  obtain ⟨t2, h3, i1, i2, i3, i4⟩ := run_bodies_progress (pbfs_vertex sch graph)
    (fun r => r.Frontier = s.Frontier ∧ r.Counts = counts ∧
      r.was.length = graph.get_nb_vertices ∧ r.FrontierNext.length = s.FrontierNext.length)
    (fun i => i < fs)
    (by
      intro i r hi ⟨j1, j2, j3, j4⟩
      obtain ⟨v, nbrs, e1, e2, e3⟩ := hpos i hi
      have hi0 : i < (s.Frontier.take fs).length := by omega
      have hv : v = (s.Frontier.take fs)[i] := by
        rw [e3, List.getElem?_eq_getElem hi0]; rfl
      have hnin := adjlists_range hr e2
      have ho : rd r.Counts (i : Int) = some (offset graph (s.Frontier.take fs) i) := by
        rw [j2, q3 i hi, hoff]
      have hsucc := offset_succ graph (s.Frontier.take fs) i (by omega)
      rw [← hv, degree_of_rd e2] at hsucc
      have hmono := offset_mono graph (s.Frontier.take fs) (i + 1) fs (by omega)
      have h00 := offset_nonneg graph (s.Frontier.take fs) i
      obtain ⟨r1, k1, k2⟩ := run_bodies_progress
        (pbfs_edge (offset graph (s.Frontier.take fs) i) nbrs)
        (fun r => r.Frontier = s.Frontier ∧ r.Counts = counts ∧
          r.was.length = graph.get_nb_vertices ∧
          r.FrontierNext.length = s.FrontierNext.length)
        (fun j => j < nbrs.length)
        (by
          intro j r0 hj ⟨l1, l2, l3, l4⟩
          have hy : rd nbrs (j : Int) = some nbrs[j] := by
            rw [rd_nat_eq_getElem?]; exact List.getElem?_eq_getElem hj
          have hyr := hnin _ (List.getElem_mem hj)
          obtain ⟨r1, hr1⟩ := pbfs_edge_progress (o := offset graph (s.Frontier.take fs) i)
            (s := r0) hy (by rw [l3]; exact hyr) (by rw [l4]; omega)
          obtain ⟨_, _, _, _, _, m4, _, m6, _, m8, m9, _, _⟩ := pbfs_edge_effect hr1
          exact ⟨r1, hr1, m8.trans l1, m9.trans l2, m4.trans l3, (wr_length m6).trans l4⟩)
        (sch r.tick nbrs.length) { r with tick := r.tick + 1 }
        (fun j hj => (fair_mem hfair _ _ _).mp hj) ⟨j1, j2, j3, j4⟩
      refine ⟨r1, ?_, k2⟩
      simp only [pbfs_vertex, j1, e1, ho, e2]
      exact k1)
    (sch t1.tick fs) { t1 with Counts := counts, tick := t1.tick + 1 }
    (fun i hi => (fair_mem hfair _ _ _).mp hi)
    ⟨p2, rfl, by show t1.was.length = _; rw [p1]; exact hw,
      by show t1.FrontierNext.length = _; rw [p3]⟩
  obtain ⟨⟨frontier, size⟩, h4⟩ := filter_progress t2.FrontierNext t2.Frontier nr
    (by rw [i4]; omega) (by rw [i1]; omega)
  refine ⟨({ t2 with Frontier := frontier }, size), ?_⟩
  unfold pbfs_round
  simp only [h1, h2]
  have h3' : parallel_for sch fs (pbfs_vertex sch graph) { t1 with Counts := counts }
      = some t2 := h3
  simp only [h3', h4]

/-! ## The `while` loop of `nb_components_pbbs_pbfs` -/

theorem count_false_mono : ∀ (a b : List Bool), a.length = b.length →
    (∀ i : Nat, a[i]? = some true → b[i]? = some true) → b.count false ≤ a.count false := by
  intro a
  induction a with
  | nil => intro b hl _; cases b with
    | nil => simp
    | cons _ _ => simp at hl
  | cons x xs ih =>
    intro b hl h
    cases b with
    | nil => simp at hl
    | cons y ys =>
      have h1 := ih ys (by simpa using hl) (fun i hi => by simpa using h (i + 1) (by simpa using hi))
      have h0 := h 0
      simp only [List.getElem?_cons_zero, Option.some.injEq] at h0
      cases x <;> cases y <;> first | omega | (simp_all; done) | (simp_all; omega)

theorem count_false_lt : ∀ (a b : List Bool), a.length = b.length →
    (∀ i : Nat, a[i]? = some true → b[i]? = some true) →
    (∃ i : Nat, a[i]? = some false ∧ b[i]? = some true) → b.count false < a.count false := by
  intro a
  induction a with
  | nil => intro b _ _ ⟨i, hi, _⟩; simp at hi
  | cons x xs ih =>
    intro b hl h ⟨i, hi1, hi2⟩
    cases b with
    | nil => simp at hl
    | cons y ys =>
      have hl1 : xs.length = ys.length := by simpa using hl
      have hp : ∀ i : Nat, xs[i]? = some true → ys[i]? = some true :=
        fun i hi => by simpa using h (i + 1) (by simpa using hi)
      have h0 := h 0
      simp only [List.getElem?_cons_zero, Option.some.injEq] at h0
      cases i with
      | zero =>
        simp only [List.getElem?_cons_zero, Option.some.injEq] at hi1 hi2
        subst hi1 hi2
        have := count_false_mono xs ys hl1 hp
        simp
        omega
      | succ i =>
        have := ih ys hl1 hp ⟨i, by simpa using hi1, by simpa using hi2⟩
        cases x <;> cases y <;> first | omega | (simp_all; done) | (simp_all; omega)

theorem count_false_lt_length (a : List Bool) (i : Nat) (h : a[i]? = some true) :
    a.count false < a.length := by
  have h1 : ∀ l : List Bool, l.count false + l.count true = l.length := by
    intro l
    induction l with
    | nil => simp
    | cons x xs ih => cases x <;> simp <;> omega
  have h2 : 0 < a.count true := List.count_pos_iff.mpr (List.getElem?_mem h)
  have := h1 a
  omega

theorem marked_count_lt {a b : List Bool} (hl : a.length = b.length)
    (hmono : ∀ x, marked a x → marked b x) {x : Int} (hx : ¬ marked a x) (hx1 : marked b x) :
    b.count false < a.count false := by
  obtain ⟨h0, h1⟩ := rd_eq_some_lt hx1
  apply count_false_lt a b hl
  · intro i hi
    have := hmono (i : Int) (by unfold marked; rw [rd_nat_eq_getElem?]; exact hi)
    unfold marked at this
    rw [rd_nat_eq_getElem?] at this
    exact this
  · refine ⟨x.toNat, ?_, ?_⟩
    · rcases rd_bool_cases (a := a) h0 (by rw [hl]; exact h1) with h | h
      · exact absurd h hx
      · unfold rd at h
        simpa [h0] using h
    · unfold marked rd at hx1
      simpa [h0] using hx1

/-- The `while` loop of the traversal from a start vertex `v` under a fair
schedule: with enough fuel it ends, the arrays keep their sizes, and the marked
set at the end is closed under adjacency and consists of the vertices marked
in `was0` and those reachable from `v`. -/
theorem pbfs_while_spec {sch : Schedule} (hfair : sch.fair) {graph : adjlist}
    (hr : graph.in_range) (was0 : List Bool) (v : Int) :
    ∀ (fuel fs : Nat) (s : PbfsState),
    (0 < fs → s.was.count false < fuel) →
    s.was.length = graph.get_nb_vertices → s.Counts.length = graph.get_nb_vertices →
    (graph.adjlists.map List.length).sum ≤ s.Frontier.length →
    (graph.adjlists.map List.length).sum ≤ s.FrontierNext.length →
    fs ≤ s.Frontier.length → (s.Frontier.take fs).Nodup →
    (∀ x ∈ s.Frontier.take fs, graph.reach v x) →
    (∀ x, marked s.was x → marked was0 x ∨ graph.reach v x) →
    (∀ x, marked was0 x → marked s.was x) → marked s.was v →
    (∀ x, marked s.was x → x ∉ s.Frontier.take fs →
      ∀ y, graph.has_edge x y = true → marked s.was y) →
    ∃ t, pbfs_while sch graph fuel fs s = some t ∧
      t.was.length = graph.get_nb_vertices ∧ t.Counts.length = graph.get_nb_vertices ∧
      t.Frontier.length = s.Frontier.length ∧ t.FrontierNext.length = s.FrontierNext.length ∧
      closed graph t.was ∧
      (∀ x, marked t.was x ↔ marked was0 x ∨ graph.reach v x) := by
  intro fuel
  induction fuel with
  | zero =>
    intro fs s hfuel hw hc hF hN hfs hnd hreach hsub hsup hv hcl
    have h0 : fs = 0 := by
      by_contra hne
      have := hfuel (by omega)
      omega
    subst h0
    refine ⟨s, by simp [pbfs_while], hw, hc, rfl, rfl, ?_, ?_⟩
    · intro x y hx hxy
      exact hcl x hx (by simp) y hxy
    · intro x
      refine ⟨hsub x, ?_⟩
      rintro (h | h)
      · exact hsup x h
      · exact closed_reach (fun a b ha hab => hcl a ha (by simp) b hab) hv h
  | succ fuel ih =>
    intro fs s hfuel hw hc hF hN hfs hnd hreach hsub hsup hv hcl
    have hvr : 0 ≤ v ∧ v < (graph.get_nb_vertices : Int) := by
      have := rd_eq_some_lt hv
      rw [hw] at this
      exact this
    by_cases h0 : fs = 0
    · subst h0
      refine ⟨s, by simp [pbfs_while], hw, hc, rfl, rfl, ?_, ?_⟩
      · intro x y hx hxy
        exact hcl x hx (by simp) y hxy
      · intro x
        refine ⟨hsub x, ?_⟩
        rintro (h | h)
        · exact hsup x h
        · exact closed_reach (fun a b ha hab => hcl a ha (by simp) b hab) hv h
    · have hin : ∀ x ∈ s.Frontier.take fs, 0 ≤ x ∧ x < (graph.get_nb_vertices : Int) :=
        fun x hx => reach_range hr hvr (hreach x hx)
      obtain ⟨⟨s1, fs1⟩, hround⟩ := pbfs_round_progress hfair hr hw hc hF hN hfs hnd hin
      obtain ⟨hfs1, R⟩ := pbfs_round_spec hfair hfs hround
      have hmono : ∀ x, marked s.was x → marked s1.was x :=
        fun x hx => (R.marked_iff x).mpr (Or.inl hx)
      obtain ⟨t, k1, k2, k3, k4, k5, k6, k7⟩ := ih fs1 s1
        (by
          intro hpos
          have hne : s1.Frontier.take fs1 ≠ [] := by
            intro he
            have := congrArg List.length he
            rw [List.length_take] at this
            simp only [List.length_nil] at this
            omega
          obtain ⟨x, hx⟩ := List.exists_mem_of_ne_nil _ hne
          have := marked_count_lt (a := s.was) (b := s1.was) R.was_length.symm hmono
            (R.fresh x hx) ((R.marked_iff x).mpr (Or.inr hx))
          have := hfuel (by omega)
          omega)
        (R.was_length.trans hw) (R.counts_length.trans hc)
        (by rw [R.frontier_length]; exact hF) (by rw [R.next_length]; exact hN)
        hfs1 R.nodup
        (by
          intro x hx
          obtain ⟨u, hu, he⟩ := R.from_edge x hx
          exact Relation.ReflTransGen.tail (hreach u hu) he)
        (by
          intro x hx
          rcases (R.marked_iff x).mp hx with h | h
          · exact hsub x h
          · obtain ⟨u, hu, he⟩ := R.from_edge x h
            exact Or.inr (Relation.ReflTransGen.tail (hreach u hu) he))
        (fun x hx => hmono x (hsup x hx)) (hmono v hv)
        (by
          intro x hx hxF y hxy
          rcases (R.marked_iff x).mp hx with h | h
          · by_cases hxf : x ∈ s.Frontier.take fs
            · exact R.nbrs_marked x hxf y hxy
            · exact hmono y (hcl x h hxf y hxy)
          · exact absurd h hxF)
      refine ⟨t, ?_, k2, k3, k4.trans R.frontier_length, k5.trans R.next_length, k6, k7⟩
      have hpos : fs > 0 := by omega
      simp only [pbfs_while, hpos, if_true, hround]
      exact k1

/-- One traversal of `nb_components_pbbs_pbfs` from an unmarked start vertex
`v`, begun with a `was` closed under adjacency, ends and leaves marked exactly
the previously marked vertices and those reachable from `v`. -/
theorem pbfs_traverse {sch : Schedule} (hfair : sch.fair) {graph : adjlist}
    (hr : graph.in_range) (fuel : Nat) (hf : graph.get_nb_vertices ≤ fuel)
    (s : PbfsState) (v : Int)
    (hw : s.was.length = graph.get_nb_vertices) (hc : s.Counts.length = graph.get_nb_vertices)
    (hF : (graph.adjlists.map List.length).sum ≤ s.Frontier.length)
    (hN : (graph.adjlists.map List.length).sum ≤ s.FrontierNext.length)
    (h1 : 1 ≤ s.Frontier.length)
    (hv : 0 ≤ v ∧ v < (graph.get_nb_vertices : Int)) (hun : ¬ marked s.was v)
    (hcl : closed graph s.was) :
    ∃ t, pbfs_while sch graph fuel 1
        { s with Frontier := s.Frontier.set 0 v, was := s.was.set v.toNat true } = some t ∧
      t.was.length = graph.get_nb_vertices ∧ t.Counts.length = graph.get_nb_vertices ∧
      t.Frontier.length = s.Frontier.length ∧ t.FrontierNext.length = s.FrontierNext.length ∧
      closed graph t.was ∧
      (∀ x, marked t.was x ↔ marked s.was x ∨ graph.reach v x) := by
  have hw1 := wr_of_lt (a := s.was) true hv.1 (by rw [hw]; exact hv.2)
  have hmk := marked_wr_true hw1
  have htake : (s.Frontier.set 0 v).take 1 = [v] := by
    rw [take_set_succ _ 0 _ (by omega)]; simp
  obtain ⟨t, k1, k2, k3, k4, k5, k6, k7⟩ := pbfs_while_spec hfair hr s.was v fuel 1
    { s with Frontier := s.Frontier.set 0 v, was := s.was.set v.toNat true }
    (by
      intro _
      show (s.was.set v.toNat true).count false < fuel
      have hlt := count_false_lt_length (s.was.set v.toNat true) v.toNat (by
        have := rd_wr_same hw1
        unfold rd at this
        simpa [hv.1] using this)
      simp only [List.length_set] at hlt
      omega)
    (by simpa using hw) hc (by simpa using hF) hN (by simpa using h1)
    (by
      show ((s.Frontier.set 0 v).take 1).Nodup
      rw [htake]; simp)
    (by
      intro x hx
      have hx1 : x ∈ (s.Frontier.set 0 v).take 1 := hx
      rw [htake] at hx1
      simp only [List.mem_singleton] at hx1
      subst hx1
      exact Relation.ReflTransGen.refl)
    (by
      intro x hx
      rcases (hmk x).mp hx with h | h
      · exact Or.inl h
      · subst h; exact Or.inr Relation.ReflTransGen.refl)
    (fun x hx => (hmk x).mpr (Or.inl hx))
    ((hmk v).mpr (Or.inr rfl))
    (by
      intro x hx hxF y hxy
      have hxF1 : x ∉ (s.Frontier.set 0 v).take 1 := hxF
      rw [htake] at hxF1
      simp only [List.mem_singleton] at hxF1
      rcases (hmk x).mp hx with h | h
      · exact (hmk y).mpr (Or.inl (hcl x y h hxy))
      · exact absurd h hxF1)
  exact ⟨t, k1, k2, k3, by simpa using k4, k5, k6, k7⟩

/-! ## C4 -/

/-- The loops over the start vertices of `nb_components_bfs_by_array` and of
`nb_components_pbbs_pbfs` (under a fair schedule) run in lockstep: started
with the same `was` and the same counter, both end, with the same counter. -/
theorem roots_lockstep {sch : Schedule} (hfair : sch.fair) {graph : adjlist}
    (hr : graph.in_range) (fuel : Nat) (hf : graph.get_nb_vertices ≤ fuel) :
    ∀ (vs : List Nat) (sb : BfsOuter) (sp : PbfsState),
    (∀ v ∈ vs, v < graph.get_nb_vertices) → sb.was = sp.was →
    sb.was.length = graph.get_nb_vertices → sb.queue.length = graph.get_nb_vertices →
    sp.Counts.length = graph.get_nb_vertices →
    (graph.adjlists.map List.length).sum ≤ sp.Frontier.length →
    (graph.adjlists.map List.length).sum ≤ sp.FrontierNext.length →
    1 ≤ sp.Frontier.length → closed graph sb.was →
    ∃ tb tp, bfs_roots graph fuel vs sb = some tb ∧
      pbfs_roots sch graph fuel vs (sp, sb.result) = some (tp, tb.result) := by
  intro vs
  induction vs with
  | nil =>
    intro sb sp _ _ _ _ _ _ _ _ _
    exact ⟨sb, sp, rfl, rfl⟩
  | cons v rest ih =>
    intro sb sp hvs hwas hw hq hc hF hN h1 hcl
    have hv : v < graph.get_nb_vertices := hvs v (List.mem_cons_self _ _)
    have hrest : ∀ u ∈ rest, u < graph.get_nb_vertices :=
      fun u hu => hvs u (List.mem_cons_of_mem _ hu)
    have hvr : 0 ≤ (v : Int) ∧ (v : Int) < (graph.get_nb_vertices : Int) := by omega
    rcases rd_bool_cases (a := sb.was) hvr.1 (by rw [hw]; exact hvr.2) with hb | hb
    · obtain ⟨tb, tp, k1, k2⟩ := ih sb sp hrest hwas hw hq hc hF hN h1 hcl
      refine ⟨tb, tp, by simp only [bfs_roots, hb, k1], ?_⟩
      rw [hwas] at hb
      simp only [pbfs_roots, hb, k2]
    · have hun : ¬ marked sb.was (v : Int) := by
        unfold marked; rw [hb]; simp
      obtain ⟨t, j1, j2, j3, j4, j5⟩ :=
        bfs_traverse hr fuel hf sb.was sb.queue (v : Int) hw hq hvr hcl
      obtain ⟨u, l1, l2, l3, l4, l5, l6, l7⟩ :=
        pbfs_traverse hfair hr fuel hf sp (v : Int) (by rw [← hwas]; exact hw) hc hF hN h1 hvr
          (by rw [← hwas]; exact hun) (by rw [← hwas]; exact hcl)
      have hsame : t.was = u.was := by
        apply was_ext (by rw [j2, l2])
        intro x
        rw [j5 x, l7 x, hwas]
      have hw1 := wr_of_lt (a := sb.was) true hvr.1 (by rw [hw]; exact hvr.2)
      have hq1 := wr_of_lt (a := sb.queue) (i := 0) (v : Int) (by omega) (by rw [hq]; omega)
      simp only [Int.toNat_zero] at hq1
      have hw2 := wr_of_lt (a := sp.was) true hvr.1 (by rw [← hwas, hw]; exact hvr.2)
      have hf1 := wr_of_lt (a := sp.Frontier) (i := 0) (v : Int) (by omega) (by omega)
      simp only [Int.toNat_zero] at hf1
      obtain ⟨tb, tp, k1, k2⟩ := ih ⟨t.was, t.queue, sb.result + 1⟩ u hrest hsame j2 j3 l3
        (by rw [l4]; exact hF) (by rw [l5]; exact hN) (by rw [l4]; exact h1) j4
      refine ⟨tb, tp, by simp only [bfs_roots, hb, hw1, hq1, j1, k1], ?_⟩
      rw [hwas] at hb
      simp only [pbfs_roots, hb, hf1, hw2, l1]
      exact k2

/-- Under any fair schedule `nb_components_pbbs_pbfs` returns what
`nb_components_bfs_by_array` returns, and both return. -/
theorem pbfs_agrees_fair {sch : Schedule} (hfair : sch.fair) (graph : adjlist) (fuel : Nat)
    (hr : graph.in_range) (hc : graph.edges_counted) (he : 1 ≤ graph.nb_edges)
    (hf : graph.get_nb_vertices ≤ fuel) :
    (∃ k, nb_components_bfs_by_array fuel graph = some k) ∧
    nb_components_pbbs_pbfs sch fuel graph = nb_components_bfs_by_array fuel graph := by
  obtain ⟨tb, tp, k1, k2⟩ := roots_lockstep hfair hr fuel hf (List.range graph.get_nb_vertices)
    ⟨List.replicate graph.get_nb_vertices false, List.replicate graph.get_nb_vertices 0, 0⟩
    ⟨List.replicate graph.get_nb_vertices false, List.replicate graph.nb_edges 0,
      List.replicate graph.nb_edges 0, List.replicate graph.get_nb_vertices 0, 0, [], []⟩
    (by intro v hv; exact List.mem_range.mp hv) rfl (by simp) (by simp) (by simp)
    (by simp only [List.length_replicate]; exact Nat.le_of_eq hc.symm)
    (by simp only [List.length_replicate]; exact Nat.le_of_eq hc.symm)
    (by simpa using he)
    (by intro x y hx _; exact absurd hx (rd_replicate_false _ _))
  constructor
  · exact ⟨tb.result, by simp only [nb_components_bfs_by_array, k1, Option.map_some']⟩
  · simp only [nb_components_pbbs_pbfs, pbfs_run, nb_components_bfs_by_array, k1, k2,
      Option.map_some']

/-- One iteration of the `while` loop keeps the history, the old frontier
joins the recorded ones, and the new frontier is disjoint from all of them. -/
theorem History.round {graph : adjlist} {s s1 : PbfsState} {F F1 : List Int}
    (h : History s) (hF : (s.frontiers.flatten ++ F).Nodup) (hFm : ∀ x ∈ F, marked s.was x)
    (R : Round graph F s s1 F1) :
    History s1 ∧ (s1.frontiers.flatten ++ F1).Nodup ∧ ∀ x ∈ F1, marked s1.was x := by
  have hmono : ∀ x, marked s.was x → marked s1.was x :=
    fun x hx => (R.marked_iff x).mpr (Or.inl hx)
  obtain ⟨W, hW, w1, w2, w3⟩ := R.stores
  have hfl : s1.frontiers.flatten = s.frontiers.flatten ++ F := by
    rw [R.frontiers_eq]; simp
  refine ⟨?_, ?_, fun x hx => (R.marked_iff x).mpr (Or.inr hx)⟩
  · refine
      { value_cases := ?_
        stored_marked := ?_
        stored_once := ?_
        frontiers_marked := ?_
        frontiers_once := by rw [hfl]; exact hF }
    · intro w hw
      rw [hW] at hw
      rcases List.mem_append.mp hw with hw | hw
      · exact h.value_cases w hw
      · exact w1 w hw
    · intro w hw h0
      rw [hW] at hw
      rcases List.mem_append.mp hw with hw | hw
      · exact hmono _ (h.stored_marked w hw h0)
      · exact (R.marked_iff _).mpr (Or.inr (w2 w hw h0))
    · rw [hW, List.filter_append, List.map_append, List.nodup_append]
      refine ⟨h.stored_once, w3, ?_⟩
      intro a ha hb
      obtain ⟨w, hw, hwa⟩ := List.mem_map.mp ha
      obtain ⟨hw1, hw2⟩ := List.mem_filter.mp hw
      obtain ⟨x, hx, hxa⟩ := List.mem_map.mp hb
      obtain ⟨hx1, hx2⟩ := List.mem_filter.mp hx
      simp only [decide_eq_true_eq] at hw2 hx2
      have hm := h.stored_marked w hw1 hw2
      have hf := R.fresh _ (w2 x hx1 hx2)
      rw [hxa, ← hwa] at hf
      exact hf hm
    · intro G hG x hx
      rw [R.frontiers_eq] at hG
      rcases List.mem_append.mp hG with hG | hG
      · exact hmono x (h.frontiers_marked G hG x hx)
      · simp only [List.mem_singleton] at hG
        subst hG
        exact hmono x (hFm x hx)
  · rw [hfl, List.nodup_append]
    refine ⟨hF, R.nodup, ?_⟩
    intro a ha hb
    have hm : marked s.was a := by
      rcases List.mem_append.mp ha with ha | ha
      · obtain ⟨G, hG, haG⟩ := List.mem_flatten.mp ha
        exact h.frontiers_marked G hG a haG
      · exact hFm a ha
    exact R.fresh a hb hm

/-- The `while` loop keeps the history. -/
theorem History.while_loop {sch : Schedule} (hfair : sch.fair) {graph : adjlist} :
    ∀ (fuel fs : Nat) (s t : PbfsState), History s → fs ≤ s.Frontier.length →
    (s.frontiers.flatten ++ s.Frontier.take fs).Nodup →
    (∀ x ∈ s.Frontier.take fs, marked s.was x) →
    pbfs_while sch graph fuel fs s = some t → History t := by
  intro fuel
  induction fuel with
  | zero =>
    intro fs s t h _ _ _ hrun
    unfold pbfs_while at hrun
    split at hrun
    · cases hrun
    · simp only [Option.some.injEq] at hrun
      subst hrun; exact h
  | succ fuel ih =>
    intro fs s t h hfs hF hFm hrun
    unfold pbfs_while at hrun
    split at hrun
    · cases hround : pbfs_round sch graph fs s with
      | none => simp [hround] at hrun
      | some r =>
        obtain ⟨s1, fs1⟩ := r
        simp only [hround] at hrun
        obtain ⟨hfs1, R⟩ := pbfs_round_spec hfair hfs hround
        obtain ⟨k1, k2, k3⟩ := h.round hF hFm R
        exact ih fs1 s1 t k1 hfs1 k2 k3 hrun
    · simp only [Option.some.injEq] at hrun
      subst hrun; exact h

/-- The loop over the start vertices keeps the history. -/
theorem History.roots {sch : Schedule} (hfair : sch.fair) {graph : adjlist} (fuel : Nat) :
    ∀ (vs : List Nat) (s t : PbfsState) (r r1 : Int), History s →
    pbfs_roots sch graph fuel vs (s, r) = some (t, r1) → History t := by
  intro vs
  induction vs with
  | nil =>
    intro s t r r1 h hrun
    simp only [pbfs_roots, Option.some.injEq, Prod.mk.injEq] at hrun
    rw [← hrun.1]; exact h
  | cons v rest ih =>
    intro s t r r1 h hrun
    unfold pbfs_roots at hrun
    cases hb : rd s.was (v : Int) with
    | none => simp [hb] at hrun
    | some b =>
      cases b with
      | true =>
        simp only [hb] at hrun
        exact ih s t r r1 h hrun
      | false =>
        simp only [hb] at hrun
        cases hf : wr s.Frontier 0 (v : Int) with
        | none => simp [hf] at hrun
        | some frontier1 =>
          simp only [hf] at hrun
          cases hw : wr s.was (v : Int) true with
          | none => simp [hw] at hrun
          | some was1 =>
            simp only [hw] at hrun
            cases hwh : pbfs_while sch graph fuel 1
                { s with Frontier := frontier1, was := was1 } with
            | none => simp [hwh] at hrun
            | some s1 =>
              simp only [hwh] at hrun
              have hmk := marked_wr_true hw
              have hun : ¬ marked s.was (v : Int) := by
                unfold marked; rw [hb]; simp
              obtain ⟨_, hlen, hfr⟩ := wr_eq_some hf
              have htake : frontier1.take 1 = [(v : Int)] := by
                rw [hfr]
                simp only [Int.toNat_zero]
                rw [take_set_succ _ 0 _ (by omega)]; simp
              have hs1 : History s1 := by
                apply History.while_loop hfair fuel 1 _ s1 _ _ _ _ hwh
                · exact
                    { value_cases := h.value_cases
                      stored_marked := fun w hw1 h0 =>
                        (hmk _).mpr (Or.inl (h.stored_marked w hw1 h0))
                      stored_once := h.stored_once
                      frontiers_marked := fun G hG x hx =>
                        (hmk _).mpr (Or.inl (h.frontiers_marked G hG x hx))
                      frontiers_once := h.frontiers_once }
                · show 1 ≤ frontier1.length
                  rw [wr_length hf]; omega
                · show (s.frontiers.flatten ++ frontier1.take 1).Nodup
                  rw [htake, List.nodup_append]
                  refine ⟨h.frontiers_once, by simp, ?_⟩
                  intro a ha hb1
                  simp only [List.mem_singleton] at hb1
                  subst hb1
                  obtain ⟨G, hG, haG⟩ := List.mem_flatten.mp ha
                  exact hun (h.frontiers_marked G hG _ haG)
                · intro x hx
                  have hx1 : x ∈ frontier1.take 1 := hx
                  rw [htake] at hx1
                  simp only [List.mem_singleton] at hx1
                  subst hx1
                  exact (hmk _).mpr (Or.inr rfl)
              exact ih s1 t (r + 1) r1 hs1 hrun

/-- The history of every completed run under a fair schedule. -/
theorem pbfs_run_history {sch : Schedule} (hfair : sch.fair) {graph : adjlist} {fuel : Nat}
    {s : PbfsState} {result : Int} (h : pbfs_run sch fuel graph = some (s, result)) :
    History s := by
  apply History.roots hfair fuel _ _ s 0 result _ h
  exact
    { value_cases := by simp
      stored_marked := by simp
      stored_once := by simp
      frontiers_marked := by simp
      frontiers_once := by simp }

theorem count_filter_value (v : Int) (h0 : 0 ≤ v) : ∀ l : List Store,
    (l.map Store.value).count v
      = ((l.filter (fun w => decide (0 ≤ w.value))).map Store.value).count v := by
  intro l
  induction l with
  | nil => simp
  | cons w ws ih =>
    by_cases hw : 0 ≤ w.value
    · rw [List.filter_cons_of_pos (by simpa using hw)]
      simp only [List.map_cons, List.count_cons, ih]
    · rw [List.filter_cons_of_neg (by simpa using hw)]
      simp only [List.map_cons, List.count_cons, ih]
      have : ¬ (w.value == v) = true := by
        simp only [beq_iff_eq]; omega
      simp [this]

/-! ## C5 -/

/-- C5: in every completed run of `nb_components_pbbs_pbfs` in which each
`parallel_for` executes its indices one after another in some order, on a graph
with neighbour identifiers in range: every vertex is the value of at most one
store into `FrontierNext`; no vertex occurs twice in the frontiers of the run
(neither in two frontiers nor twice in one); and every store executed for a
neighbour holds that neighbour or `-1`. -/
theorem pbfs_exactly_one_claimant (sch : Schedule) (graph : adjlist) (fuel : Nat)
    (s : PbfsState) (result : Int) (hfair : sch.fair) (_ : graph.in_range)
    (h : pbfs_run sch fuel graph = some (s, result)) :
    (∀ v : Int, 0 ≤ v → (s.stores.map Store.value).count v ≤ 1) ∧
    s.frontiers.flatten.Nodup ∧
    (∀ w ∈ s.stores, w.value = w.other ∨ w.value = -1) := by
  have hist := pbfs_run_history hfair h
  refine ⟨?_, hist.frontiers_once, hist.value_cases⟩
  intro v hv
  rw [count_filter_value v hv]
  exact List.nodup_iff_count_le_one.mp hist.stored_once v

/-- C5 on a graph in which vertex `3` is a neighbour of both vertices of one
frontier and occurs twice in one adjacency list, with every `parallel_for`
executing its indices in decreasing order. -/
theorem pbfs_exactly_one_claimant_witness :
    ∃ s result,
      pbfs_run (fun _ m => (List.range m).reverse) 4 ⟨[[1, 2], [3, 3], [3], []], 5⟩
        = some (s, result) ∧
      (∀ v : Int, 0 ≤ v → (s.stores.map Store.value).count v ≤ 1) ∧
      s.frontiers.flatten.Nodup ∧
      (∀ w ∈ s.stores, w.value = w.other ∨ w.value = -1) := by
  have hsome : (pbfs_run (fun _ m => (List.range m).reverse) 4
      ⟨[[1, 2], [3, 3], [3], []], 5⟩).isSome = true := by decide
  obtain ⟨⟨s, result⟩, h⟩ := Option.isSome_iff_exists.mp hsome
  exact ⟨s, result, h,
    pbfs_exactly_one_claimant (fun _ m => (List.range m).reverse)
      ⟨[[1, 2], [3, 3], [3], []], 5⟩ 4 s result
      (fun _ _ => List.reverse_perm _) (by decide) h⟩

/-! ## `almost_sorted_sparray` -/

theorem ascending_length (n : Nat) : (ascending n).length = n := by
  simp [ascending]

theorem ascending_getElem? (n i : Nat) (h : i < n) : (ascending n)[i]? = some (i : Int) := by
  simp [ascending, List.getElem?_map, List.getElem?_range h]

/-- The `parallel_for` of `almost_sorted_sparray`, executed in any order that
visits every index once, produces the ascending array. -/
theorem fill_ascending (order : List Nat) (n : Nat) (ho : List.Perm order (List.range n)) :
    run_bodies (fun i t => wr t (i : Int) (i : Int)) order (List.replicate n (0 : Int))
      = some (ascending n) := by
  have hmem : ∀ i, i ∈ order ↔ i < n := fun i => by
    rw [List.Perm.mem_iff ho, List.mem_range]
  obtain ⟨t, ht, hlen⟩ := run_bodies_progress (fun i t => wr t (i : Int) (i : Int))
    (fun t : List Int => t.length = n) (fun i => i < n)
    (by
      intro i t hi hl
      have hw := wr_of_lt (a := t) (i := (i : Int)) (i : Int) (by omega) (by omega)
      exact ⟨_, hw, by simp [hl]⟩)
    order (List.replicate n 0) (fun i hi => (hmem i).mp hi) (by simp)
  have key := run_bodies_inv (fun i t => wr t (i : Int) (i : Int))
    (fun d (t : List Int) => ∀ i ∈ d, t[i]? = some (i : Int)) (fun _ => True)
    (by
      intro i d t t1 _ _ hinv hb k hk
      rw [← rd_nat_eq_getElem?]
      rcases List.mem_cons.mp hk with h | h
      · subst h; exact rd_wr_same hb
      · by_cases hki : k = i
        · subst hki; exact rd_wr_same hb
        · rw [rd_wr_other hb (by omega), rd_nat_eq_getElem?]
          exact hinv k h)
    order [] (List.replicate n 0) t ((List.Perm.nodup_iff ho).mpr (List.nodup_range n))
    (by intro i _; exact ⟨trivial, by simp⟩) (by simp) ht
  rw [ht]
  congr 1
  apply List.ext_getElem?
  intro i
  by_cases hi : i < n
  · rw [ascending_getElem? n i hi]
    apply key i
    simp only [List.append_nil, List.mem_reverse]
    exact (hmem i).mpr hi
  · rw [List.getElem?_eq_none (by omega),
      List.getElem?_eq_none (by rw [ascending_length]; omega)]

theorem swap_eq {tmp : List Int} {a b : Int} (ha : 0 ≤ a ∧ a < (tmp.length : Int))
    (hb : 0 ≤ b ∧ b < (tmp.length : Int)) :
    swap tmp a b = some (swap_at tmp a.toNat b.toNat) := by
  have hla : a.toNat < tmp.length := by omega
  have hlb : b.toNat < tmp.length := by omega
  have h1 : rd tmp a = some tmp[a.toNat] := by
    simp [rd, ha.1, List.getElem?_eq_getElem hla]
  have h2 : rd tmp b = some tmp[b.toNat] := by
    simp [rd, hb.1, List.getElem?_eq_getElem hlb]
  have h3 := wr_of_lt (a := tmp) tmp[b.toNat] ha.1 ha.2
  have h4 := wr_of_lt (a := tmp.set a.toNat tmp[b.toNat]) tmp[a.toNat] hb.1
    (by simp only [List.length_set]; exact hb.2)
  simp only [swap, h1, h2, h3, h4, swap_at, List.getElem?_eq_getElem hla,
    List.getElem?_eq_getElem hlb]

theorem swap_at_length (l : List Int) (a b : Nat) : (swap_at l a b).length = l.length := by
  unfold swap_at
  split
  · simp
  · rfl

theorem swap_at_getElem? (l : List Int) (a b i : Nat) (ha : a < l.length) (hb : b < l.length) :
    (swap_at l a b)[i]? = if i = b then l[a]? else if i = a then l[b]? else l[i]? := by
  simp only [swap_at, List.getElem?_eq_getElem ha, List.getElem?_eq_getElem hb,
    List.getElem?_set, List.length_set]
  by_cases h1 : b = i
  · subst h1; simp [hb]
  · by_cases h2 : a = i
    · subst h2
      simp [h1, ha, Ne.symm h1]
    · simp [h1, h2, Ne.symm h1, Ne.symm h2]

theorem swap_at_perm (l : List Int) (a b : Nat) : List.Perm (swap_at l a b) l := by
  unfold swap_at
  cases ha : l[a]? with
  | none => exact List.Perm.refl _
  | some x =>
    cases hb : l[b]? with
    | none => exact List.Perm.refl _
    | some y =>
      simp only
      obtain ⟨hla, hxa⟩ := List.getElem?_eq_some_iff.mp ha
      obtain ⟨hlb, hyb⟩ := List.getElem?_eq_some_iff.mp hb
      rw [List.perm_iff_count]
      intro z
      have h1 := List.count_set y z l a hla
      have hlb2 : b < (l.set a y).length := by simpa using hlb
      have h2 := List.count_set x z (l.set a y) b hlb2
      have h3 : (l.set a y)[b] = y := by
        rw [List.getElem_set]
        split
        · rfl
        · exact hyb
      have h4 := List.boole_getElem_le_countP (fun w => w == z) l a hla
      rw [h3] at h2
      rw [hxa] at h1 h4
      have h5 : List.countP (fun w => w == z) l = List.count z l := by
        rw [List.count_eq_countP]
      rw [h5] at h4
      rw [h2, h1]
      by_cases c1 : (x == z) = true <;> by_cases c2 : (y == z) = true <;>
        simp only [c1, c2, if_true, if_false] at h4 ⊢ <;> omega

theorem displaced_ascending (n : Nat) : displaced n (ascending n) = 0 := by
  unfold displaced
  rw [List.length_eq_zero, List.filter_eq_nil_iff]
  intro i hi
  simp [ascending_getElem? n i (List.mem_range.mp hi)]

/-- Exchanging two entries displaces at most two more positions. -/
theorem displaced_swap_at (n : Nat) (l : List Int) (a b : Nat)
    (ha : a < l.length) (hb : b < l.length) :
    displaced n (swap_at l a b) ≤ displaced n l + 2 := by
  unfold displaced
  have hn1 : ((List.range n).filter
      (fun i : Nat => decide ((swap_at l a b)[i]? ≠ some (i : Int)))).Nodup :=
    (List.nodup_range n).filter _
  have hn2 : ((List.range n).filter (fun i : Nat => decide (l[i]? ≠ some (i : Int)))).Nodup :=
    (List.nodup_range n).filter _
  rw [← List.toFinset_card_of_nodup hn1, ← List.toFinset_card_of_nodup hn2]
  have hsub : ((List.range n).filter
      (fun i : Nat => decide ((swap_at l a b)[i]? ≠ some (i : Int)))).toFinset ⊆
      ((List.range n).filter (fun i : Nat => decide (l[i]? ≠ some (i : Int)))).toFinset
        ∪ {a, b} := by
    intro i hi
    simp only [List.mem_toFinset, List.mem_filter, List.mem_range, decide_eq_true_eq,
      Finset.mem_union, Finset.mem_insert, Finset.mem_singleton] at hi ⊢
    by_cases h1 : i = b
    · exact Or.inr (Or.inr h1)
    · by_cases h2 : i = a
      · exact Or.inr (Or.inl h2)
      · left
        refine ⟨hi.1, ?_⟩
        have := hi.2
        rw [swap_at_getElem? l a b i ha hb] at this
        simpa [h1, h2] using this
  have h1 := Finset.card_le_card hsub
  have h2 := Finset.card_union_le
    ((List.range n).filter (fun i : Nat => decide (l[i]? ≠ some (i : Int)))).toFinset {a, b}
  have h3 : ({a, b} : Finset Nat).card ≤ 2 := Finset.card_le_two
  omega

/-- The loop of `almost_sorted_sparray` applies one exchange per iteration. -/
theorem swap_loop_spec (random_index : Int → Int → Int) (n : Nat)
    (hr : ∀ k, 0 ≤ random_index k (n : Int) ∧ random_index k (n : Int) < (n : Int)) :
    ∀ (is : List Nat) (tmp : List Int), tmp.length = n →
    ∃ t, swap_loop random_index (n : Int) is tmp = some t ∧ t.length = n ∧
      List.Perm t tmp ∧
      t = (is.map (fun i : Nat =>
            ((random_index (wrap64 (2 * (i : Int))) (n : Int)).toNat,
             (random_index (wrap64 (wrap64 (2 * (i : Int)) + 1)) (n : Int)).toNat))).foldl
          (fun l p => swap_at l p.1 p.2) tmp ∧
      displaced n t ≤ displaced n tmp + 2 * is.length := by
  intro is
  induction is with
  | nil =>
    intro tmp hl
    exact ⟨tmp, rfl, hl, List.Perm.refl _, rfl, by simp⟩
  | cons i rest ih =>
    intro tmp hl
    have ha := hr (wrap64 (2 * (i : Int)))
    have hb := hr (wrap64 (wrap64 (2 * (i : Int)) + 1))
    have hsw : swap tmp (random_index (wrap64 (2 * (i : Int))) (n : Int))
        (random_index (wrap64 (wrap64 (2 * (i : Int)) + 1)) (n : Int)) = _ :=
      swap_eq (by rw [hl]; exact ha) (by rw [hl]; exact hb)
    obtain ⟨t, h1, h2, h3, h4, h5⟩ := ih (swap_at tmp
      (random_index (wrap64 (2 * (i : Int))) (n : Int)).toNat
      (random_index (wrap64 (wrap64 (2 * (i : Int)) + 1)) (n : Int)).toNat)
      (by rw [swap_at_length]; exact hl)
    have hd := displaced_swap_at n tmp
      (random_index (wrap64 (2 * (i : Int))) (n : Int)).toNat
      (random_index (wrap64 (wrap64 (2 * (i : Int)) + 1)) (n : Int)).toNat
      (by omega) (by omega)
    refine ⟨t, ?_, h2, h3.trans (swap_at_perm _ _ _), ?_, ?_⟩
    · simp only [swap_loop, hsw, h1]
    · rw [h4]; rfl
    · simp only [List.length_cons]; omega

/-! ## C6 -/

/-- C6: `almost_sorted_sparray(s, n, nb_swaps)`, with the `parallel_for`
executing every index once in any order.  For `n >= 1`, `nb_swaps >= 0` and
`random_index(k, n)` in `[0, n)`: the result has length `n`, is a permutation
of `[0, ..., n-1]`, arises from the ascending array by `nb_swaps` exchanges of
two positions, and at most `2 * nb_swaps` positions `i` hold a value other
than `i`.  For `nb_swaps = 0` and any `n` the result is the ascending array. -/
theorem almost_sorted_sparray_sorted_up_to_swaps (order : List Nat)
    (random_index : Int → Int → Int) (s n nb_swaps : Int)
    (ho : List.Perm order (List.range n.toNat)) :
    (1 ≤ n → 0 ≤ nb_swaps →
      (∀ k, 0 ≤ random_index k n ∧ random_index k n < n) →
      ∃ tmp, almost_sorted_sparray order random_index s n nb_swaps = some tmp ∧
        tmp.length = n.toNat ∧ List.Perm tmp (ascending n.toNat) ∧
        (∃ ps : List (Nat × Nat), ps.length = nb_swaps.toNat ∧
          (∀ p ∈ ps, p.1 < n.toNat ∧ p.2 < n.toNat) ∧
          tmp = ps.foldl (fun l p => swap_at l p.1 p.2) (ascending n.toNat)) ∧
        displaced n.toNat tmp ≤ 2 * nb_swaps.toNat) ∧
    almost_sorted_sparray order random_index s n 0 = some (ascending n.toNat) := by
  have hfill := fill_ascending order n.toNat ho
  constructor
  · intro hn _ hr
    have hcast : ((n.toNat : Nat) : Int) = n := Int.toNat_of_nonneg (by omega)
    have hr1 : ∀ k, 0 ≤ random_index k (n.toNat : Int) ∧
        random_index k (n.toNat : Int) < (n.toNat : Int) := by
      rw [hcast]; exact hr
    obtain ⟨t, h1, h2, h3, h4, h5⟩ := swap_loop_spec random_index n.toNat hr1
      (List.range nb_swaps.toNat) (ascending n.toNat) (ascending_length _)
    rw [hcast] at h1 h4
    refine ⟨t, ?_, h2, h3, ⟨_, ?_, ?_, h4⟩, ?_⟩
    · simp only [almost_sorted_sparray, hfill, h1]
    · simp
    · intro p hp
      obtain ⟨i, _, hi⟩ := List.mem_map.mp hp
      have ha := hr (wrap64 (2 * (i : Int)))
      have hb := hr (wrap64 (wrap64 (2 * (i : Int)) + 1))
      rw [← hi]
      exact ⟨by simp only; omega, by simp only; omega⟩
    · rw [displaced_ascending, List.length_range] at h5
      omega
  · simp only [almost_sorted_sparray, hfill, Int.toNat_zero, List.range_zero, swap_loop]

/-- C6 for `n = 4`, `nb_swaps = 2`, the execution order `2, 0, 1, 3` and
`random_index(k, n) = (7 k + 3) mod n`: the result is `[1, 0, 3, 2]`. -/
theorem almost_sorted_sparray_sorted_up_to_swaps_witness :
    almost_sorted_sparray [2, 0, 1, 3] (fun k n => (k * 7 + 3) % n) 1232 4 2
      = some [1, 0, 3, 2] ∧
    ∃ tmp, almost_sorted_sparray [2, 0, 1, 3] (fun k n => (k * 7 + 3) % n) 1232 4 2
        = some tmp ∧
      tmp.length = 4 ∧ List.Perm tmp (ascending 4) ∧
      (∃ ps : List (Nat × Nat), ps.length = 2 ∧
        (∀ p ∈ ps, p.1 < 4 ∧ p.2 < 4) ∧
        tmp = ps.foldl (fun l p => swap_at l p.1 p.2) (ascending 4)) ∧
      displaced 4 tmp ≤ 2 * 2 :=
  ⟨by decide,
   (almost_sorted_sparray_sorted_up_to_swaps [2, 0, 1, 3] (fun k n => (k * 7 + 3) % n)
      1232 4 2 (by decide)).1 (by decide) (by decide)
      (fun k => ⟨Int.emod_nonneg _ (by decide), Int.emod_lt_of_pos _ (by decide)⟩)⟩

/-! ## C7 -/

/-- C7: the four accessors applied to `make_benchmark(i, r, o, d)` are the
thunks `i`, `r`, `o`, `d`; and, `launch` calling its four thunks once each in
the order initialization, run, output, teardown, the effect of `main` is that
of `init_controllers`, then the `init`, the `bench`, the `output` and the
`destroy` thunk of the selected benchmark, each once, in that order. -/
theorem bench_thunks_in_order {W : Type} :
    (∀ i r o d : thunk_type W,
      bench_init (make_benchmark i r o d) = i ∧ bench_run (make_benchmark i r o d) = r ∧
      bench_output (make_benchmark i r o d) = o ∧
      bench_destroy (make_benchmark i r o d) = d) ∧
    (∀ (H : Harness W) (find_bench : W → benchmark_type W × W) (sequential : Bool)
      (st : MainState W) (i r o d : thunk_type W) (w1 : W),
      find_bench (H.enter_launch st.world) = (make_benchmark i r o d, w1) →
      main H find_bench sequential st
        = ⟨make_benchmark i r o d, d (o (r (i (init_controllers H w1))))⟩) := by
  constructor
  · intro i r o d
    exact ⟨rfl, rfl, rfl, rfl⟩
  · intro H find_bench sequential st i r o d w1 h
    simp only [main, launch, main_init, h, main_run, main_output, main_destroy, bench_init,
      bench_run, bench_output, bench_destroy, make_benchmark]

/-- C7 on a run that records its steps: after the entry of `launch` come the
steps of `init_controllers`, then the four thunks of the benchmark, each
once. -/
theorem bench_thunks_in_order_witness :
    (main (recording (fun _ => none) (fun _ => none))
      (fun w => (make_benchmark (fun t => t ++ [Event.thunk_called "init"])
        (fun t => t ++ [Event.thunk_called "bench"])
        (fun t => t ++ [Event.thunk_called "output"])
        (fun t => t ++ [Event.thunk_called "destroy"]), w))
      true ⟨make_benchmark id id id id, []⟩).world
      = [Event.launch_entered, Event.read_arg "tries", Event.read_arg "init"]
        ++ controllers.map (fun c => Event.contr_initialized c 1 10)
        ++ [Event.thunk_called "init", Event.thunk_called "bench",
            Event.thunk_called "output", Event.thunk_called "destroy"] := by
  rw [(bench_thunks_in_order (W := List Event)).2 (recording (fun _ => none) (fun _ => none))
    _ true ⟨make_benchmark id id id id, []⟩ _ _ _ _ _ rfl]
  rfl

/-! ## C8 -/

theorem wrap32_of_range {x : Int} (h0 : -2147483648 ≤ x) (h1 : x < 2147483648) :
    wrap32 x = x := by
  unfold wrap32; omega

theorem for_int_succ {σ : Type} (m : Nat) (body : σ → Int → σ) (s : σ) :
    for_int ((m + 1 : Nat) : Int) body s = body (for_int (m : Int) body s) (m : Int) := by
  unfold for_int
  simp only [Int.toNat_ofNat, List.range_succ, List.foldl_append, List.foldl_cons,
    List.foldl_nil]

theorem for_int_zero {σ : Type} (body : σ → Int → σ) (s : σ) : for_int 0 body s = s := by
  simp [for_int]

/-- A loop whose body writes only the entries of its own index, with values
that do not depend on the arrays, leaves at every index below the bound the
values of the body for that index, and leaves the other entries alone. -/
theorem for_int_local (body : Forest → Int → Forest) (P : Int → Int) (C : Int → List Int)
    (hp : ∀ t i, (body t i).parent i = P i) (hc : ∀ t i, (body t i).children i = C i)
    (hf : ∀ t i j, j ≠ i → (body t i).parent j = t.parent j ∧
      (body t i).children j = t.children j) (t0 : Forest) :
    ∀ (m : Nat) (j : Int),
      (0 ≤ j ∧ j < (m : Int) →
        (for_int (m : Int) body t0).parent j = P j ∧
        (for_int (m : Int) body t0).children j = C j) ∧
      (¬ (0 ≤ j ∧ j < (m : Int)) →
        (for_int (m : Int) body t0).parent j = t0.parent j ∧
        (for_int (m : Int) body t0).children j = t0.children j) := by
  intro m
  induction m with
  | zero =>
    intro j
    simp only [Nat.cast_zero, for_int_zero]
    exact ⟨fun h => by omega, fun _ => by simp⟩
  | succ m ih =>
    intro j
    rw [for_int_succ]
    by_cases hj : j = (m : Int)
    · subst hj
      exact ⟨fun _ => ⟨hp _ _, hc _ _⟩, fun h => by omega⟩
    · obtain ⟨f1, f2⟩ := hf (for_int (m : Int) body t0) (m : Int) j hj
      rw [f1, f2]
      constructor
      · intro h
        exact (ih j).1 ⟨h.1, by omega⟩
      · intro h
        exact (ih j).2 (by omega)

/-! ## `generate_binary_tree` -/

/-- The entries that `generate_binary_tree(n)` leaves at an index below `n`. -/
theorem generate_binary_tree_entry (n : Int) (t0 : Forest) (h0 : 0 ≤ n) (i : Int)
    (hi : 0 ≤ i ∧ i < n) :
    (generate_binary_tree n t0).parent i = (if i = 0 then 0 else div32 (sub32 i 1) 2) ∧
    (generate_binary_tree n t0).children i =
      (if add32 (mul32 2 i) 1 < n then [add32 (mul32 2 i) 1] else []) ++
      (if add32 (mul32 2 i) 2 < n then [add32 (mul32 2 i) 2] else []) := by
  have hn : ((n.toNat : Nat) : Int) = n := Int.toNat_of_nonneg h0
  have key := (for_int_local (binary_tree_body n)
    (fun i => if i = 0 then 0 else div32 (sub32 i 1) 2)
    (fun i => (if add32 (mul32 2 i) 1 < n then [add32 (mul32 2 i) 1] else []) ++
      (if add32 (mul32 2 i) 2 < n then [add32 (mul32 2 i) 2] else []))
    (by
      intro t i
      unfold binary_tree_body
      by_cases c1 : add32 (mul32 2 i) 1 < n <;> by_cases c2 : add32 (mul32 2 i) 2 < n <;>
        simp [c1, c2, Forest.push_back, Forest.set_children, Forest.set_parent])
    (by
      intro t i
      unfold binary_tree_body
      by_cases c1 : add32 (mul32 2 i) 1 < n <;> by_cases c2 : add32 (mul32 2 i) 2 < n <;>
        simp [c1, c2, Forest.push_back, Forest.set_children, Forest.set_parent])
    (by
      intro t i j hj
      unfold binary_tree_body
      by_cases c1 : add32 (mul32 2 i) 1 < n <;> by_cases c2 : add32 (mul32 2 i) 2 < n <;>
        simp [c1, c2, Forest.push_back, Forest.set_children, Forest.set_parent, hj])
    t0 n.toNat i).1 (by rw [hn]; exact hi)
  rw [hn] at key
  exact key

/-! ## C9 -/

/-- C9: `generate_graph` runs the generator named by its type string: each of
the five names gives the arrays of its generator (`k` is passed on only for
`k_bamboos`; `seed`, `degree` and `f` are not used by the five), and every
other string gives the result of `generate_random_graph(n, seed, degree, f)`. -/
theorem generate_graph_dispatch {F : Type} (libc : Libc F) (fuel : Nat) (n : Int)
    (t : Forest) (k seed degree : Int) (f : F) :
    generate_graph libc fuel "binary_tree" n t k seed degree f
      = some (generate_binary_tree n t) ∧
    generate_graph libc fuel "bamboo" n t k seed degree f = some (generate_bamboo n t) ∧
    generate_graph libc fuel "empty_graph" n t k seed degree f
      = some (generate_empty_graph n t) ∧
    generate_graph libc fuel "two_bamboos" n t k seed degree f
      = some (generate_two_bamboos n t) ∧
    generate_graph libc fuel "k_bamboos" n t k seed degree f
      = some (generate_k_bamboos n t k) ∧
    ∀ type : String,
      type ∉ ["binary_tree", "bamboo", "empty_graph", "two_bamboos", "k_bamboos"] →
      generate_graph libc fuel type n t k seed degree f
        = generate_random_graph libc fuel n t seed degree f := by
  refine ⟨?_, ?_, ?_, ?_, ?_, ?_⟩
  · simp [generate_graph]
  · simp [generate_graph]
  · simp [generate_graph]
  · simp [generate_graph]
  · simp [generate_graph]
  · intro type h
    simp only [List.mem_cons, List.mem_singleton, List.not_mem_nil, or_false, not_or] at h
    simp [generate_graph, h.1, h.2.1, h.2.2.1, h.2.2.2.1, h.2.2.2.2]

/-- C9 for the type string `random`, which names none of the five
generators. -/
theorem generate_graph_dispatch_witness :
    generate_graph (⟨fun s c => s + c, fun _ _ => 0⟩ : Libc Unit) 8 "random" 6
        ⟨fun _ => [], fun _ => 0⟩ 1 239 4 ()
      = generate_random_graph (⟨fun s c => s + c, fun _ _ => 0⟩ : Libc Unit) 8 6
        ⟨fun _ => [], fun _ => 0⟩ 239 4 () :=
  (generate_graph_dispatch (⟨fun s c => s + c, fun _ _ => 0⟩ : Libc Unit) 8 6
    ⟨fun _ => [], fun _ => 0⟩ 1 239 4 ()).2.2.2.2.2 "random" (by decide)

/-! ## C10 -/

theorem range_cast_pairwise (n : Nat) :
    List.Pairwise (fun a b : Int => a < b) (List.map (fun j : Nat => (j : Int)) (List.range n)) := by
  rw [List.pairwise_map]
  exact (List.pairwise_lt_range n).imp (fun h => by omega)

/-- Two strictly increasing lists with the same elements are equal. -/
theorem increasing_ext {l1 l2 : List Int}
    (h1 : List.Pairwise (fun a b : Int => a < b) l1)
    (h2 : List.Pairwise (fun a b : Int => a < b) l2)
    (h : ∀ x, x ∈ l1 ↔ x ∈ l2) : l1 = l2 := by
  have hn1 : l1.Nodup := h1.imp (fun hab => ne_of_lt hab)
  have hn2 : l2.Nodup := h2.imp (fun hab => ne_of_lt hab)
  have hp : List.Perm l1 l2 := (List.perm_ext_iff_of_nodup hn1 hn2).mpr h
  exact List.eq_of_perm_of_sorted hp h1 h2

/-- The number of entries of the children lists of the first `m` vertices of
the complete binary tree on `n` vertices. -/
theorem children_count (n : Int) (h1 : 1 ≤ n) (c : Int → List Int)
    (hc : ∀ i, 0 ≤ i → i < n → ((c i).length : Int)
      = (if 2 * i + 1 < n then 1 else 0) + (if 2 * i + 2 < n then 1 else 0)) :
    ∀ m : Nat, (m : Int) ≤ n →
      ((List.range m).map (fun i : Nat => ((c (i : Int)).length : Int))).sum
        = min (2 * (m : Int)) (n - 1) := by
  intro m
  induction m with
  | zero =>
    intro _
    simp only [List.range_zero, List.map_nil, List.sum_nil, Nat.cast_zero, mul_zero]
    omega
  | succ m ih =>
    intro hm
    rw [List.range_succ, List.map_append, List.sum_append, ih (by omega)]
    simp only [List.map_cons, List.map_nil, List.sum_cons, List.sum_nil, add_zero]
    rw [hc (m : Int) (by omega) (by omega)]
    push_cast
    by_cases c1 : 2 * (m : Int) + 1 < n <;> by_cases c2 : 2 * (m : Int) + 2 < n <;>
      simp only [c1, c2, if_true, if_false] <;> omega

/-- C10 fails for `n = 2^30`: the computation of `2 * i + 2` overflows at the
last vertex `i = 2^30 - 1`, whose children list receives `-2^31` although no
vertex has it as parent. -/
theorem generate_binary_tree_overflow :
    (generate_binary_tree 1073741824 ⟨fun _ => [], fun _ => 0⟩).children 1073741823
      = [-2147483648] ∧
    (List.map (fun j : Nat => (j : Int)) (List.range (1073741824 : Int).toNat)).filter
      (fun j => decide (1 ≤ j ∧
        (generate_binary_tree 1073741824 ⟨fun _ => [], fun _ => 0⟩).parent j = 1073741823))
      = [] := by
  constructor
  · rw [(generate_binary_tree_entry 1073741824 ⟨fun _ => [], fun _ => 0⟩ (by decide)
      1073741823 (by decide)).2]
    decide
  · rw [List.filter_eq_nil_iff]
    intro j hj
    obtain ⟨k, hk, hkj⟩ := List.mem_map.mp hj
    have hk1 := List.mem_range.mp hk
    have hk2 : (k : Int) < 1073741824 := by
      have : ((1073741824 : Int).toNat : Int) = 1073741824 := by decide
      omega
    have hp := (generate_binary_tree_entry 1073741824 ⟨fun _ => [], fun _ => 0⟩ (by decide)
      (k : Int) ⟨by omega, hk2⟩).1
    rw [← hkj]
    simp only [decide_eq_true_eq, not_and]
    intro h1
    rw [hp]
    have hne : (k : Int) ≠ 0 := by omega
    simp only [hne, if_false]
    have hs : sub32 (k : Int) 1 = (k : Int) - 1 := wrap32_of_range (by omega) (by omega)
    have hd : div32 ((k : Int) - 1) 2 = ((k : Int) - 1) / 2 := by
      unfold div32
      rw [Int.tdiv_eq_ediv (by omega) (by omega)]
      exact wrap32_of_range (by omega) (by omega)
    rw [hs, hd]
    omega

/-- C10 as amended: for `0 <= n < 2^30`, after `generate_binary_tree(n)`
every vertex `i < n` has `parent[i] = 0` if `i = 0` and `(i - 1) / 2`
otherwise; `children[i]` is the increasing list of the vertices `j` with
`1 <= j < n` and `parent[j] = i`, of length at most two; vertex `0` is the only
one that is its own parent; and for `n >= 1` the lengths of the children lists
sum to `n - 1`. -/
theorem generate_binary_tree_heap (n : Int) (t0 : Forest) (h0 : 0 ≤ n)
    (h1 : n < 1073741824) :
    (∀ i, 0 ≤ i → i < n →
      (generate_binary_tree n t0).parent i = (if i = 0 then 0 else (i - 1) / 2) ∧
      (generate_binary_tree n t0).children i
        = (List.map (fun j : Nat => (j : Int)) (List.range n.toNat)).filter
            (fun j => decide (1 ≤ j ∧ (generate_binary_tree n t0).parent j = i)) ∧
      List.Pairwise (fun a b : Int => a < b) ((generate_binary_tree n t0).children i) ∧
      ((generate_binary_tree n t0).children i).length ≤ 2 ∧
      ((generate_binary_tree n t0).parent i = i ↔ i = 0)) ∧
    (1 ≤ n →
      ((List.range n.toNat).map
        (fun i : Nat => (((generate_binary_tree n t0).children (i : Int)).length : Int))).sum
        = n - 1) := by
  have hn : ((n.toNat : Nat) : Int) = n := Int.toNat_of_nonneg h0
  have hparent : ∀ i, 0 ≤ i → i < n →
      (generate_binary_tree n t0).parent i = (if i = 0 then 0 else (i - 1) / 2) := by
    intro i hi0 hi1
    rw [(generate_binary_tree_entry n t0 h0 i ⟨hi0, hi1⟩).1]
    by_cases hz : i = 0
    · simp [hz]
    · simp only [hz, if_false]
      have hs : sub32 i 1 = i - 1 := wrap32_of_range (by omega) (by omega)
      rw [hs]
      unfold div32
      rw [Int.tdiv_eq_ediv (by omega) (by omega)]
      exact wrap32_of_range (by omega) (by omega)
  have hchildren : ∀ i, 0 ≤ i → i < n →
      (generate_binary_tree n t0).children i
        = (if 2 * i + 1 < n then [2 * i + 1] else []) ++
          (if 2 * i + 2 < n then [2 * i + 2] else []) := by
    intro i hi0 hi1
    rw [(generate_binary_tree_entry n t0 h0 i ⟨hi0, hi1⟩).2]
    have hm : mul32 2 i = 2 * i := wrap32_of_range (by omega) (by omega)
    have ha1 : add32 (2 * i) 1 = 2 * i + 1 := wrap32_of_range (by omega) (by omega)
    have ha2 : add32 (2 * i) 2 = 2 * i + 2 := wrap32_of_range (by omega) (by omega)
    rw [hm, ha1, ha2]
  constructor
  · intro i hi0 hi1
    have hc := hchildren i hi0 hi1
    have hsorted : List.Pairwise (fun a b : Int => a < b)
        ((generate_binary_tree n t0).children i) := by
      rw [hc]
      by_cases c1 : 2 * i + 1 < n <;> by_cases c2 : 2 * i + 2 < n <;>
        simp [c1, c2]
    refine ⟨hparent i hi0 hi1, ?_, hsorted, ?_, ?_⟩
    · apply increasing_ext hsorted ((range_cast_pairwise n.toNat).filter _)
      intro x
      rw [List.mem_filter, List.mem_map]
      simp only [List.mem_range, decide_eq_true_eq]
      constructor
      · intro hx
        rw [hc] at hx
        have hx1 : x < n ∧ (x = 2 * i + 1 ∨ x = 2 * i + 2) := by
          by_cases c1 : 2 * i + 1 < n <;> by_cases c2 : 2 * i + 2 < n <;>
            simp [c1, c2] at hx <;> omega
        refine ⟨⟨x.toNat, by omega, by omega⟩, by omega, ?_⟩
        rw [hparent x (by omega) hx1.1]
        have hne : x ≠ 0 := by omega
        simp only [hne, if_false]
        omega
      · rintro ⟨⟨k, hk, hkx⟩, hx1, hx2⟩
        have hxn : x < n := by omega
        rw [hparent x (by omega) hxn] at hx2
        have hne : x ≠ 0 := by omega
        simp only [hne, if_false] at hx2
        rw [hc]
        by_cases c1 : 2 * i + 1 < n <;> by_cases c2 : 2 * i + 2 < n <;>
          simp [c1, c2] <;> omega
    · rw [hc]
      by_cases c1 : 2 * i + 1 < n <;> by_cases c2 : 2 * i + 2 < n <;>
        simp [c1, c2]
    · rw [hparent i hi0 hi1]
      by_cases hz : i = 0
      · simp [hz]
      · simp only [hz, if_false, iff_false]
        omega
  · intro hn1
    have := children_count n hn1 (generate_binary_tree n t0).children
      (by
        intro i hi0 hi1
        rw [hchildren i hi0 hi1]
        by_cases c1 : 2 * i + 1 < n <;> by_cases c2 : 2 * i + 2 < n <;>
          simp [c1, c2])
      n.toNat (by omega)
    rw [this, hn]
    omega

/-- C10 as amended, for `n = 6`: the entries of vertex `1`. -/
theorem generate_binary_tree_heap_witness :
    (generate_binary_tree 6 ⟨fun _ => [], fun _ => 0⟩).children 1 = [3, 4] ∧
    (generate_binary_tree 6 ⟨fun _ => [], fun _ => 0⟩).parent 1 = 0 ∧
    ((List.range (6 : Int).toNat).map
      (fun i : Nat =>
        (((generate_binary_tree 6 ⟨fun _ => [], fun _ => 0⟩).children (i : Int)).length
          : Int))).sum = 6 - 1 :=
  ⟨by decide, by decide,
   (generate_binary_tree_heap 6 ⟨fun _ => [], fun _ => 0⟩ (by decide) (by decide)).2
     (by decide)⟩

/-! ## `generate_k_bamboos` -/

/-- The entries after one iteration of the inner loop of `generate_k_bamboos`,
when the additions do not overflow. -/
theorem shifted_bamboo_body_entry (l d : Int) (t : Forest) (i : Int) (hi0 : 0 ≤ i)
    (hi1 : i < l) (hd : 0 ≤ d) (hb : d + l ≤ 2147483647) (y : Int) :
    (shifted_bamboo_body l d t i).parent y
      = (if y = i + d then (if i = 0 then d else i - 1 + d) else t.parent y) ∧
    (shifted_bamboo_body l d t i).children y
      = (if y = i + d then (if i + 1 < l then [i + d + 1] else []) else t.children y) := by
  have e1 : add32 i d = i + d := wrap32_of_range (by omega) (by omega)
  have e2 : add32 i 1 = i + 1 := wrap32_of_range (by omega) (by omega)
  have e3 : add32 (if i = 0 then 0 else sub32 i 1) d = (if i = 0 then d else i - 1 + d) := by
    by_cases hz : i = 0
    · simp only [hz, if_true]
      exact (wrap32_of_range (by omega) (by omega)).trans (by omega)
    · simp only [hz, if_false]
      have e4 : sub32 i 1 = i - 1 := wrap32_of_range (by omega) (by omega)
      rw [e4]
      exact wrap32_of_range (by omega) (by omega)
  unfold shifted_bamboo_body
  simp only [e1, e2, e3]
  by_cases c : i + 1 < l
  · have e5 : add32 (i + d) 1 = i + d + 1 := wrap32_of_range (by omega) (by omega)
    simp only [c, if_true, e5]
    by_cases hy : y = i + d <;>
      simp [Forest.push_back, Forest.set_children, Forest.set_parent, hy]
  · simp only [c, if_false]
    by_cases hy : y = i + d <;>
      simp [Forest.set_children, Forest.set_parent, hy]

/-- The inner loop of `generate_k_bamboos` writes the bamboo on the vertices
`d, ..., d + l - 1` and nothing else. -/
theorem shifted_bamboo_loop (l d : Int) (t : Forest) (hd : 0 ≤ d)
    (hb : d + l ≤ 2147483647) :
    ∀ (m : Nat), (m : Int) ≤ l → ∀ y : Int,
      (d ≤ y ∧ y < d + (m : Int) →
        (for_int (m : Int) (shifted_bamboo_body l d) t).parent y
          = (if y = d then d else y - 1) ∧
        (for_int (m : Int) (shifted_bamboo_body l d) t).children y
          = (if y + 1 < d + l then [y + 1] else [])) ∧
      (¬ (d ≤ y ∧ y < d + (m : Int)) →
        (for_int (m : Int) (shifted_bamboo_body l d) t).parent y = t.parent y ∧
        (for_int (m : Int) (shifted_bamboo_body l d) t).children y = t.children y) := by
  intro m
  induction m with
  | zero =>
    intro _ y
    simp only [Nat.cast_zero, for_int_zero]
    exact ⟨fun h => by omega, fun _ => by simp⟩
  | succ m ih =>
    intro hm y
    rw [for_int_succ]
    have hm1 : ((m + 1 : Nat) : Int) = (m : Int) + 1 := by push_cast; rfl
    obtain ⟨f1, f2⟩ := shifted_bamboo_body_entry l d
      (for_int (m : Int) (shifted_bamboo_body l d) t) (m : Int) (by omega) (by omega) hd hb y
    rw [f1, f2]
    by_cases hy : y = (m : Int) + d
    · simp only [hy, if_true]
      constructor
      · intro _
        constructor
        · by_cases hz : (m : Int) = 0
          · simp [hz]
          · have hne : (m : Int) + d ≠ d := by omega
            simp only [hz, hne, if_false]
            omega
        · by_cases c : (m : Int) + 1 < l
          · have c2 : (m : Int) + d + 1 < d + l := by omega
            simp only [c, c2, if_true]
          · have c2 : ¬ ((m : Int) + d + 1 < d + l) := by omega
            simp only [c, c2, if_false]
      · intro h
        omega
    · simp only [hy, if_false]
      constructor
      · intro h
        exact (ih (by omega) y).1 ⟨h.1, by omega⟩
      · intro h
        exact (ih (by omega) y).2 (by omega)

/-- The outer loop body of `generate_k_bamboos` for path `j`: it writes the
bamboo of path `j` and nothing else. -/
theorem k_bamboos_body_entry (n k : Int) (t : Forest) (h1 : 1 ≤ k) (h2 : k ≤ n)
    (h3 : n ≤ 2147483647) (j : Int) (hj0 : 0 ≤ j) (hj1 : j < k) (s l : Int)
    (hs : s = j * (n / k)) (hl : l = (if j = k - 1 then n - (k - 1) * (n / k) else n / k))
    (y : Int) :
    (s ≤ y ∧ y < s + l →
      (k_bamboos_body n k t j).parent y = (if y = s then s else y - 1) ∧
      (k_bamboos_body n k t j).children y = (if y + 1 < s + l then [y + 1] else [])) ∧
    (¬ (s ≤ y ∧ y < s + l) →
      (k_bamboos_body n k t j).parent y = t.parent y ∧
      (k_bamboos_body n k t j).children y = t.children y) := by
  have hq1 : 1 ≤ n / k := Int.le_ediv_of_mul_le (by omega) (by omega)
  have hqk : n / k * k ≤ n := Int.ediv_mul_le n (by omega)
  have hmono : ∀ a b : Int, a ≤ b → a * (n / k) ≤ b * (n / k) :=
    fun a b hab => mul_le_mul_of_nonneg_right hab (by omega)
  have hk1 : (k - 1) * (n / k) = n / k * k - n / k := by ring
  have hjq := hmono j (k - 1) (by omega)
  have hjq0 := hmono 0 j hj0
  have hl0 : 1 ≤ l := by
    rw [hl]
    by_cases c : j = k - 1
    · simp only [c, if_true]; omega
    · simp only [c, if_false]; exact hq1
  have hsl : s + l ≤ n := by
    rw [hl, hs]
    by_cases c : j = k - 1
    · simp only [c, if_true]; omega
    · simp only [c, if_false]
      have := hmono (j + 1) (k - 1) (by omega)
      have e : (j + 1) * (n / k) = j * (n / k) + n / k := by ring
      omega
  have hs0 : 0 ≤ s := by rw [hs]; omega
  have e1 : sub32 k 1 = k - 1 := wrap32_of_range (by omega) (by omega)
  have e2 : div32 n k = n / k := by
    unfold div32
    rw [Int.tdiv_eq_ediv (by omega) (by omega)]
    exact wrap32_of_range (by omega) (by omega)
  have e3 : mul32 (k - 1) (n / k) = (k - 1) * (n / k) :=
    wrap32_of_range (by omega) (by omega)
  have e4 : sub32 n ((k - 1) * (n / k)) = n - (k - 1) * (n / k) :=
    wrap32_of_range (by omega) (by omega)
  have e5 : mul32 j (n / k) = j * (n / k) := wrap32_of_range (by omega) (by omega)
  have hbody : k_bamboos_body n k t j = for_int l (shifted_bamboo_body l s) t := by
    unfold k_bamboos_body
    simp only [e1, e2, e3, e4, e5, ← hs, ← hl]
  have hln : ((l.toNat : Nat) : Int) = l := Int.toNat_of_nonneg (by omega)
  have key := shifted_bamboo_loop l s t hs0 (by omega) l.toNat (by omega) y
  rw [hln] at key
  rw [hbody]
  exact key

/-- The vertices of an earlier path lie before the start of a later one. -/
theorem bamboo_blocks (n k : Int) (h1 : 1 ≤ k) (h2 : k ≤ n) (j j' : Int) (hj : j < j')
    (hj' : j' < k) :
    j * (n / k) + (if j = k - 1 then n - (k - 1) * (n / k) else n / k) ≤ j' * (n / k) := by
  have hq1 : 1 ≤ n / k := Int.le_ediv_of_mul_le (by omega) (by omega)
  have hm : (j + 1) * (n / k) ≤ j' * (n / k) :=
    mul_le_mul_of_nonneg_right (by omega) (by omega)
  have e : (j + 1) * (n / k) = j * (n / k) + n / k := by ring
  have c : ¬ (j = k - 1) := by omega
  simp only [c, if_false]
  omega

/-- The outer loop of `generate_k_bamboos` after `m` iterations: the first `m`
paths are written, and nothing else is. -/
theorem k_bamboos_loop (n k : Int) (t : Forest) (h1 : 1 ≤ k) (h2 : k ≤ n)
    (h3 : n ≤ 2147483647) :
    ∀ (m : Nat), (m : Int) ≤ k → ∀ y : Int,
      (∀ j s l : Int, 0 ≤ j → j < (m : Int) → s = j * (n / k) →
        l = (if j = k - 1 then n - (k - 1) * (n / k) else n / k) → s ≤ y → y < s + l →
        (for_int (m : Int) (k_bamboos_body n k) t).parent y = (if y = s then s else y - 1) ∧
        (for_int (m : Int) (k_bamboos_body n k) t).children y
          = (if y + 1 < s + l then [y + 1] else [])) ∧
      ((∀ j : Int, 0 ≤ j → j < (m : Int) →
          ¬ (j * (n / k) ≤ y ∧
            y < j * (n / k) + (if j = k - 1 then n - (k - 1) * (n / k) else n / k))) →
        (for_int (m : Int) (k_bamboos_body n k) t).parent y = t.parent y ∧
        (for_int (m : Int) (k_bamboos_body n k) t).children y = t.children y) := by
  intro m
  induction m with
  | zero =>
    intro _ y
    simp only [Nat.cast_zero, for_int_zero]
    exact ⟨fun j s l hj0 hj1 => by omega, fun _ => by simp⟩
  | succ m ih =>
    intro hm y
    rw [for_int_succ]
    have hm1 : ((m + 1 : Nat) : Int) = (m : Int) + 1 := by push_cast; rfl
    have hb := k_bamboos_body_entry n k (for_int (m : Int) (k_bamboos_body n k) t) h1 h2 h3
      (m : Int) (by omega) (by omega) _ _ rfl rfl y
    obtain ⟨ih1, ih2⟩ := ih (by omega) y
    constructor
    · intro j s l hj0 hj1 hs hl hy0 hy1
      by_cases hjm : j = (m : Int)
      · subst hjm
        subst hs
        subst hl
        exact hb.1 ⟨hy0, hy1⟩
      · have hd := bamboo_blocks n k h1 h2 j (m : Int) (by omega) (by omega)
        obtain ⟨f1, f2⟩ := hb.2 (by rw [← hs, ← hl] at hd; omega)
        rw [f1, f2]
        exact ih1 j s l hj0 (by omega) hs hl hy0 hy1
    · intro hy
      obtain ⟨f1, f2⟩ := hb.2 (hy (m : Int) (by omega) (by omega))
      rw [f1, f2]
      exact ih2 (fun j hj0 hj1 => hy j hj0 (by omega))

/-- Every vertex below `n` lies on one of the `k` paths. -/
theorem bamboo_cover (n k : Int) (h1 : 1 ≤ k) (h2 : k ≤ n) (v : Int) (hv0 : 0 ≤ v)
    (hv1 : v < n) :
    ∃ j : Int, 0 ≤ j ∧ j < k ∧ j * (n / k) ≤ v ∧
      v < j * (n / k) + (if j = k - 1 then n - (k - 1) * (n / k) else n / k) := by
  have hq1 : 1 ≤ n / k := Int.le_ediv_of_mul_le (by omega) (by omega)
  have hd1 : v / (n / k) * (n / k) ≤ v := Int.ediv_mul_le v (by omega)
  have hd2 : v < (v / (n / k) + 1) * (n / k) := Int.lt_ediv_add_one_mul_self v (by omega)
  have hd0 : 0 ≤ v / (n / k) := Int.ediv_nonneg hv0 (by omega)
  by_cases c : v / (n / k) < k - 1
  · refine ⟨v / (n / k), hd0, by omega, hd1, ?_⟩
    have c2 : ¬ (v / (n / k) = k - 1) := by omega
    simp only [c2, if_false]
    have e : (v / (n / k) + 1) * (n / k) = v / (n / k) * (n / k) + n / k := by ring
    omega
  · refine ⟨k - 1, by omega, by omega, ?_, ?_⟩
    · have hm : (k - 1) * (n / k) ≤ v / (n / k) * (n / k) :=
        mul_le_mul_of_nonneg_right (by omega) (by omega)
      omega
    · simp only [if_true]
      omega

/-! ## C11 -/

/-- C11: for values `n` and `k` of type `int` with `1 <= k <= n`, the arrays
left by `generate_k_bamboos(n, k)` consist of `k` paths. Path `j` starts at
`s = j * (n / k)` and has `l` vertices, where `l` is `n / k` for `j < k - 1` and
`n - (k - 1) * (n / k)` for `j = k - 1`; it lies within `0..n-1`, its first vertex
is its own parent, every other vertex `x` of it has `parent[x] = x - 1` and
`children[x - 1] = [x]`, and its last vertex has no children. Every vertex of
`0..n-1` lies on exactly one path, exactly `k` vertices of `0..n-1` are their own
parent, and no entry outside `0..n-1` is written. -/
theorem generate_k_bamboos_paths (n k : Int) (t : Forest) (h1 : 1 ≤ k) (h2 : k ≤ n)
    (h3 : n ≤ 2147483647) :
    (∀ j s l : Int, 0 ≤ j → j < k → s = j * (n / k) →
      l = (if j = k - 1 then n - (k - 1) * (n / k) else n / k) →
      0 ≤ s ∧ 1 ≤ l ∧ s + l ≤ n ∧
      (generate_k_bamboos n t k).parent s = s ∧
      (∀ x, s < x → x < s + l →
        (generate_k_bamboos n t k).parent x = x - 1 ∧
        (generate_k_bamboos n t k).children (x - 1) = [x]) ∧
      (generate_k_bamboos n t k).children (s + l - 1) = []) ∧
    (∀ v, 0 ≤ v → v < n →
      ∃! j : Int, 0 ≤ j ∧ j < k ∧ j * (n / k) ≤ v ∧
        v < j * (n / k) + (if j = k - 1 then n - (k - 1) * (n / k) else n / k)) ∧
    (Finset.filter (fun v : Int => (generate_k_bamboos n t k).parent v = v)
      (Finset.Ico 0 n)).card = k.toNat ∧
    (∀ v, v < 0 ∨ n ≤ v →
      (generate_k_bamboos n t k).parent v = t.parent v ∧
      (generate_k_bamboos n t k).children v = t.children v) := by
  have hq1 : 1 ≤ n / k := Int.le_ediv_of_mul_le (by omega) (by omega)
  have hqk : n / k * k ≤ n := Int.ediv_mul_le n (by omega)
  have hk1 : (k - 1) * (n / k) = n / k * k - n / k := by ring
  have hmono : ∀ a b : Int, a ≤ b → a * (n / k) ≤ b * (n / k) :=
    fun a b hab => mul_le_mul_of_nonneg_right hab (by omega)
  -- the extent of path `j`
  have hext : ∀ j s l : Int, 0 ≤ j → j < k → s = j * (n / k) →
      l = (if j = k - 1 then n - (k - 1) * (n / k) else n / k) →
      0 ≤ s ∧ 1 ≤ l ∧ s + l ≤ n := by
    intro j s l hj0 hj1 hs hl
    have hjq := hmono j (k - 1) (by omega)
    have hjq0 := hmono 0 j hj0
    by_cases c : j = k - 1
    · simp only [c, if_true] at hl
      rw [c] at hs
      omega
    · simp only [c, if_false] at hl
      have := hmono (j + 1) (k - 1) (by omega)
      have e : (j + 1) * (n / k) = j * (n / k) + n / k := by ring
      omega
  have hk : ((k.toNat : Nat) : Int) = k := Int.toNat_of_nonneg (by omega)
  have key := k_bamboos_loop n k t h1 h2 h3 k.toNat (by omega)
  rw [hk] at key
  have hgen : generate_k_bamboos n t k = for_int k (k_bamboos_body n k) t := rfl
  rw [hgen]
  refine ⟨?_, ?_, ?_, ?_⟩
  · intro j s l hj0 hj1 hs hl
    obtain ⟨e0, e1, e2⟩ := hext j s l hj0 hj1 hs hl
    refine ⟨e0, e1, e2, ?_, ?_, ?_⟩
    · rw [((key s).1 j s l hj0 hj1 hs hl (le_refl s) (by omega)).1]
      simp
    · intro x hx0 hx1
      constructor
      · rw [((key x).1 j s l hj0 hj1 hs hl (by omega) hx1).1]
        have hne : x ≠ s := by omega
        simp only [hne, if_false]
      · rw [((key (x - 1)).1 j s l hj0 hj1 hs hl (by omega) (by omega)).2]
        have c : x - 1 + 1 < s + l := by omega
        simp only [c, if_true]
        simp
    · rw [((key (s + l - 1)).1 j s l hj0 hj1 hs hl (by omega) (by omega)).2]
      simp
  · intro v hv0 hv1
    obtain ⟨j, hj0, hj1, hj2, hj3⟩ := bamboo_cover n k h1 h2 v hv0 hv1
    refine ⟨j, ⟨hj0, hj1, hj2, hj3⟩, ?_⟩
    rintro j' ⟨hj0', hj1', hj2', hj3'⟩
    by_contra hne
    rcases lt_or_gt_of_ne hne with hlt | hgt
    · have := bamboo_blocks n k h1 h2 j' j hlt hj1
      omega
    · have := bamboo_blocks n k h1 h2 j j' hgt hj1'
      omega
  · have hset : Finset.filter
          (fun v : Int => (for_int k (k_bamboos_body n k) t).parent v = v) (Finset.Ico 0 n)
        = (Finset.Ico 0 k).image (fun j : Int => j * (n / k)) := by
      ext v
      simp only [Finset.mem_filter, Finset.mem_Ico, Finset.mem_image]
      constructor
      · rintro ⟨⟨hv0, hv1⟩, hp⟩
        obtain ⟨j, hj0, hj1, hj2, hj3⟩ := bamboo_cover n k h1 h2 v hv0 hv1
        refine ⟨j, ⟨hj0, hj1⟩, ?_⟩
        have hpv := ((key v).1 j _ _ hj0 hj1 rfl rfl hj2 hj3).1
        rw [hpv] at hp
        by_cases c : v = j * (n / k)
        · exact c.symm
        · simp only [c, if_false] at hp
          omega
      · rintro ⟨j, ⟨hj0, hj1⟩, rfl⟩
        obtain ⟨e0, e1, e2⟩ := hext j _ _ hj0 hj1 rfl rfl
        refine ⟨⟨e0, by omega⟩, ?_⟩
        rw [((key (j * (n / k))).1 j _ _ hj0 hj1 rfl rfl (le_refl _) (by omega)).1]
        simp
    rw [hset, Finset.card_image_of_injective _ (mul_left_injective₀ (by omega)),
      Int.card_Ico]
    simp
  · intro v hv
    apply (key v).2
    intro j hj0 hj1 hin
    obtain ⟨e0, e1, e2⟩ := hext j _ _ hj0 hj1 rfl rfl
    omega

/-- C11 for `n = 7` and `k = 3`: the paths are `0 1`, `2 3` and `4 5 6`. -/
theorem generate_k_bamboos_paths_witness :
    (1 : Int) ≤ 3 ∧ (3 : Int) ≤ 7 ∧
    (generate_k_bamboos 7 ⟨fun _ => [], fun _ => 0⟩ 3).parent 4 = 4 ∧
    (∀ x : Int, 4 < x → x < 4 + 3 →
      (generate_k_bamboos 7 ⟨fun _ => [], fun _ => 0⟩ 3).parent x = x - 1 ∧
      (generate_k_bamboos 7 ⟨fun _ => [], fun _ => 0⟩ 3).children (x - 1) = [x]) ∧
    (generate_k_bamboos 7 ⟨fun _ => [], fun _ => 0⟩ 3).children (4 + 3 - 1) = [] ∧
    (Finset.filter
      (fun v : Int => (generate_k_bamboos 7 ⟨fun _ => [], fun _ => 0⟩ 3).parent v = v)
      (Finset.Ico 0 7)).card = (3 : Int).toNat :=
  ⟨by decide, by decide,
   ((generate_k_bamboos_paths 7 3 ⟨fun _ => [], fun _ => 0⟩ (by decide) (by decide)
      (by decide)).1 2 4 3 (by decide) (by decide) (by decide) (by decide)).2.2.2.1,
   ((generate_k_bamboos_paths 7 3 ⟨fun _ => [], fun _ => 0⟩ (by decide) (by decide)
      (by decide)).1 2 4 3 (by decide) (by decide) (by decide) (by decide)).2.2.2.2.1,
   ((generate_k_bamboos_paths 7 3 ⟨fun _ => [], fun _ => 0⟩ (by decide) (by decide)
      (by decide)).1 2 4 3 (by decide) (by decide) (by decide) (by decide)).2.2.2.2.2,
   (generate_k_bamboos_paths 7 3 ⟨fun _ => [], fun _ => 0⟩ (by decide) (by decide)
      (by decide)).2.2.1⟩

end pasl
